import Mathlib

/-!
Verification of the conflict materialization / parsing engine of
`src/lib/src/conflicts.rs`. Byte strings are modelled as lists of
naturals; the `Merge` container, the line merge and the line diff
(whose sources are not part of the staged files) are modelled from the
spec's contracts and marked as such in their doc comments. Everything
else is a direct translation of the Rust source.
-/

namespace JJ

/-- Byte strings (Rust `BString` / `&[u8]`) as lists of byte values. -/
abbrev BStr : Type := List Nat

/-- Bytes of a plain ASCII string literal. -/
def bs (s : String) : BStr := s.data.map Char.toNat

/-- Helper for `linesWT`: accumulates the current (unterminated) line. -/
def linesWTAux (cur : BStr) : BStr → List BStr
  | [] => if cur = [] then [] else [cur]
  | b :: rest =>
    if b = 10 then (cur ++ [10]) :: linesWTAux [] rest
    else linesWTAux (cur ++ [b]) rest

/-- bstr `lines_with_terminator`: split after every newline byte, keeping
the terminator; a final fragment without a newline is kept as a line. -/
def linesWT (s : BStr) : List BStr := linesWTAux [] s

/-- Concatenation of a list of byte strings. -/
def cat (ls : List BStr) : BStr := ls.foldr (fun a b => a ++ b) []

/-- `has_no_eol` of conflicts.rs: the slice is nonempty and its last byte
is not a newline. -/
def has_no_eol (s : BStr) : Bool :=
  match s.getLast? with
  | some b => b != 10
  | none => false

/-- The bytes `write_and_ensure_newline` of conflicts.rs appends to the
output: the data followed by a newline when the data lacks one. -/
def ensureNl (s : BStr) : BStr := s ++ (if has_no_eol s then [10] else [])

/-- `ConflictMarkerStyle` of conflicts.rs. -/
inductive ConflictMarkerStyle
  | Diff
  | Snapshot
  | Git
deriving DecidableEq, Repr

/-- `ConflictMarkerLineChar` of conflicts.rs: the seven bytes that can be
repeated to form a conflict marker line. -/
inductive ConflictMarkerLineChar
  | ConflictStart
  | ConflictEnd
  | Add
  | Remove
  | Diff
  | GitAncestor
  | GitSeparator
deriving DecidableEq, Repr

namespace ConflictMarkerLineChar

/-- `ConflictMarkerLineChar::to_byte`. -/
def to_byte : ConflictMarkerLineChar → Nat
  | ConflictStart => 60
  | ConflictEnd => 62
  | Add => 43
  | Remove => 45
  | Diff => 37
  | GitAncestor => 124
  | GitSeparator => 61

/-- `ConflictMarkerLineChar::parse_byte`. -/
def parse_byte (b : Nat) : Option ConflictMarkerLineChar :=
  if b = 60 then some ConflictStart
  else if b = 62 then some ConflictEnd
  else if b = 43 then some Add
  else if b = 45 then some Remove
  else if b = 37 then some Diff
  else if b = 124 then some GitAncestor
  else if b = 61 then some GitSeparator
  else none

end ConflictMarkerLineChar

/-- `ConflictMarkerLine` of conflicts.rs: the parsed form of a marker line. -/
structure ConflictMarkerLine where
  kind : ConflictMarkerLineChar
  len : Nat
deriving DecidableEq, Repr

/-- Rust `u8::is_ascii_whitespace`: space, tab, newline, form feed and
carriage return. -/
def is_ascii_whitespace (b : Nat) : Bool :=
  b = 32 || b = 9 || b = 10 || b = 12 || b = 13

/-- `parse_conflict_marker_any_len` of conflicts.rs. -/
def parse_conflict_marker_any_len (line : BStr) : Option ConflictMarkerLine :=
  match line with
  | [] => none
  | fb :: _ =>
    match ConflictMarkerLineChar.parse_byte fb with
    | none => none
    | some kind =>
      let len := (line.takeWhile (fun b => b = fb)).length
      match (line.drop len).head? with
      | some nb => if is_ascii_whitespace nb then some ⟨kind, len⟩ else none
      | none => some ⟨kind, len⟩

/-- `parse_conflict_marker` of conflicts.rs: only markers at least
`expected_len` long are recognized. -/
def parse_conflict_marker (line : BStr) (expected_len : Nat) :
    Option ConflictMarkerLineChar :=
  match parse_conflict_marker_any_len line with
  | some m => if expected_len ≤ m.len then some m.kind else none
  | none => none

/-- Modelled from the spec: the `Merge<T>` container of the merge module
(not among the staged sources). Terms are interleaved
add, remove, add, remove, ..., add as in the source crate; a well-formed
merge has an odd number of terms. -/
structure Merge (α : Type) where
  values : List α
deriving DecidableEq, Repr

/-- Elements at even positions (0, 2, 4, ...). -/
def everyOther {α : Type} : List α → List α
  | [] => []
  | [x] => [x]
  | x :: _ :: rest => x :: everyOther rest

namespace Merge

/-- A resolved merge: a single add term. -/
def resolved {α : Type} (v : α) : Merge α := ⟨[v]⟩

/-- `Merge::normal` builds a resolved merge of a present value. -/
def normal {α : Type} (v : α) : Merge (Option α) := resolved (some v)

/-- `Merge::from_vec`: the interleaved term list as given. -/
def from_vec {α : Type} (l : List α) : Merge α := ⟨l⟩

/-- Interleave: first list supplies positions 0, 2, ...; second supplies
positions 1, 3, .... -/
def ilv {α : Type} : List α → List α → List α
  | [], _ => []
  | a :: _, [] => [a]
  | a :: as', r :: rs' => a :: r :: ilv as' rs'

/-- `Merge::from_removes_adds`: adds at even positions, removes at odd. -/
def from_removes_adds {α : Type} (removes adds : List α) : Merge α :=
  ⟨ilv adds removes⟩

/-- The add (positive) terms, in order. -/
def adds {α : Type} (m : Merge α) : List α := everyOther m.values

/-- The remove (negative) terms, in order. -/
def removes {α : Type} (m : Merge α) : List α := everyOther (m.values.drop 1)

/-- `Merge::num_sides`: the number of add terms. -/
def num_sides {α : Type} (m : Merge α) : Nat := m.adds.length

/-- `Merge::as_resolved`: the single term of a resolved merge. -/
def as_resolved {α : Type} (m : Merge α) : Option α :=
  match m.values with
  | [v] => some v
  | _ => none

/-- `Merge::is_resolved`. -/
def is_resolved {α : Type} (m : Merge α) : Bool := m.as_resolved.isSome

/-- `Merge::get_add`. -/
def get_add {α : Type} (m : Merge α) (i : Nat) : Option α := m.adds.get? i

end Merge

/-- Remove the first occurrence of an element from a list. -/
def removeFirst {α : Type} [DecidableEq α] (x : α) : List α → List α
  | [] => []
  | y :: ys => if y = x then ys else y :: removeFirst x ys

/-- Find the first remove term that equals some add term and cancel the
pair; `none` when no pair cancels. -/
def cancelOne {α : Type} [DecidableEq α] :
    List α → List α → Option (List α × List α)
  | [], _ => none
  | r :: rs, adds =>
    if r ∈ adds then some (rs, removeFirst r adds)
    else
      match cancelOne rs adds with
      | some p => some (r :: p.1, p.2)
      | none => none

/-- Repeatedly cancel equal remove/add pairs, with fuel. -/
def simplifyAux {α : Type} [DecidableEq α] :
    Nat → List α × List α → List α × List α
  | 0, p => p
  | fuel + 1, p =>
    match cancelOne p.1 p.2 with
    | some p' => simplifyAux fuel p'
    | none => p

/-- Modelled from the spec: `Merge::simplify` of the merge module (not
among the staged sources) cancels any remove/add pair that are equal,
preserving relative order. -/
def Merge.simplify {α : Type} [DecidableEq α] (m : Merge α) : Merge α :=
  let p := simplifyAux m.removes.length (m.removes, m.adds)
  Merge.from_removes_adds p.1 p.2

/-- Modelled from the spec: `Merge::resolve_trivial` of the merge module
(not among the staged sources) returns the value of a
majority/consistent resolution ignoring order: when every add term is
the same value (all sides made the same change) that value wins, and
otherwise cancelling equal remove/add pairs must leave a single term. -/
def Merge.resolve_trivial {α : Type} [DecidableEq α] (m : Merge α) :
    Option α :=
  match m.adds with
  | [] => none
  | a :: rest =>
    if rest.all (fun x => decide (x = a)) then some a
    else
      match (m.simplify).values with
      | [v] => some v
      | _ => none

/-- The longest pre-existing marker-like line length over all terms
(0 when there is none); the `max` computation inside
`choose_materialized_conflict_marker_len`. -/
def maxMarkerLen (m : Merge BStr) : Nat :=
  ((m.values.map linesWT).foldr (fun a b => a ++ b) []).foldr
    (fun l acc =>
      match parse_conflict_marker_any_len l with
      | some mk => Nat.max mk.len acc
      | none => acc) 0

/-- `choose_materialized_conflict_marker_len` of conflicts.rs:
`max_existing.saturating_add(4).max(7)`. -/
def choose_materialized_conflict_marker_len (m : Merge BStr) : Nat :=
  Nat.max (maxMarkerLen m + 4) 7

/-- `DiffHunkKind` of the diff module. -/
inductive DiffHunkKind
  | Matching
  | Different
deriving DecidableEq, Repr

/-- A two-sided diff hunk: `contents[0]` is `lhs`, `contents[1]` is `rhs`;
a `Matching` hunk has equal sides. -/
structure DiffHunk where
  kind : DiffHunkKind
  lhs : BStr
  rhs : BStr
deriving DecidableEq, Repr

/-- Longest common prefix of two lists, returning it and both remainders. -/
def commonPre {α : Type} [DecidableEq α] :
    List α → List α → List α × List α × List α
  | x :: xs, y :: ys =>
    if x = y then
      let r := commonPre xs ys
      (x :: r.1, r.2.1, r.2.2)
    else ([], x :: xs, y :: ys)
  | xs, ys => ([], xs, ys)

/-- Longest common suffix of two lists, returning it and both remainders. -/
def commonSuf {α : Type} [DecidableEq α] (xs ys : List α) :
    List α × List α × List α :=
  let r := commonPre xs.reverse ys.reverse
  (r.1.reverse, r.2.1.reverse, r.2.2.reverse)

/-- Modelled from the spec: `Diff::by_line` of the diff module (not among
the staged sources) computes a line-based hunk sequence between two byte
buffers, classifying each hunk as Matching or Different; modelled as the
longest matching prefix and suffix of lines around one differing middle. -/
def diff_by_line (a b : BStr) : List DiffHunk :=
  let p := commonPre (linesWT a) (linesWT b)
  let s := commonSuf p.2.1 p.2.2
  (if p.1 = [] then [] else [⟨DiffHunkKind.Matching, cat p.1, cat p.1⟩])
    ++ (if s.2.1 = [] ∧ s.2.2 = [] then []
        else [⟨DiffHunkKind.Different, cat s.2.1, cat s.2.2⟩])
    ++ (if s.1 = [] then [] else [⟨DiffHunkKind.Matching, cat s.1, cat s.1⟩])

/-- `diff_size` of conflicts.rs: total byte length of the contents of all
`Different` hunks. -/
def diff_size (hunks : List DiffHunk) : Nat :=
  hunks.foldr
    (fun h acc =>
      (match h.kind with
       | DiffHunkKind.Matching => 0
       | DiffHunkKind.Different => h.lhs.length + h.rhs.length) + acc) 0

/-- Decimal digits of a natural number, with fuel. -/
def digitsAux : Nat → Nat → BStr
  | 0, _ => []
  | fuel + 1, n =>
    if n < 10 then [48 + n] else digitsAux fuel (n / 10) ++ [48 + n % 10]

/-- Decimal rendering of a natural number (as in Rust `format!`). -/
def natStr (n : Nat) : BStr := digitsAux (n + 1) n

/-- `write_conflict_marker` of conflicts.rs: the marker byte repeated
`len` times, an optional space-separated suffix, and a newline. -/
def write_conflict_marker (kind : ConflictMarkerLineChar) (len : Nat)
    (suffix_text : BStr) : BStr :=
  List.replicate len kind.to_byte
    ++ (if suffix_text = [] then [] else 32 :: suffix_text) ++ [10]

/-- One rendered diff line: the prefix byte, the line, and a forced
newline when the line lacks one. -/
def renderLinesWith (prefixByte : Nat) (content : BStr) : BStr :=
  cat ((linesWT content).map (fun l => prefixByte :: ensureNl l))

/-- `write_diff_hunks` of conflicts.rs: Matching hunks as space-prefixed
lines, Different hunks as minus-prefixed old lines then plus-prefixed new
lines, each line forced to end in a newline. -/
def write_diff_hunks (hunks : List DiffHunk) : BStr :=
  cat (hunks.map (fun h =>
    match h.kind with
    | DiffHunkKind.Matching => renderLinesWith 32 h.lhs
    | DiffHunkKind.Different =>
      renderLinesWith 45 h.lhs ++ renderLinesWith 43 h.rhs))

/-- `NO_EOL_COMMENT` of conflicts.rs. -/
def no_eol_comment_str : BStr := bs (" (no terminating newline)")

/-- `maybe_no_eol_comment` of conflicts.rs. -/
def maybe_no_eol_comment (slice : BStr) : BStr :=
  if has_no_eol slice then no_eol_comment_str else []

/-- `materialize_git_style_conflict` of conflicts.rs. -/
def materialize_git_style_conflict (left base right : BStr)
    (conflict_info : BStr) (conflict_marker_len : Nat) : BStr :=
  write_conflict_marker ConflictMarkerLineChar.ConflictStart
      conflict_marker_len (bs ("Side #1 (") ++ conflict_info ++ bs (")"))
    ++ ensureNl left
    ++ write_conflict_marker ConflictMarkerLineChar.GitAncestor
      conflict_marker_len (bs ("Base"))
    ++ ensureNl base
    ++ write_conflict_marker ConflictMarkerLineChar.GitSeparator
      conflict_marker_len []
    ++ ensureNl right
    ++ write_conflict_marker ConflictMarkerLineChar.ConflictEnd
      conflict_marker_len (bs ("Side #2 (") ++ conflict_info ++ bs (" ends)"))

/-- The `write_side` closure of `materialize_jj_style_conflict`. -/
def write_side (len add_index : Nat) (data : BStr) : BStr :=
  write_conflict_marker ConflictMarkerLineChar.Add len
      (bs ("Contents of side #") ++ natStr (add_index + 1)
        ++ maybe_no_eol_comment data)
    ++ ensureNl data

/-- The `write_base` closure of `materialize_jj_style_conflict`. -/
def write_base (len : Nat) (base_str : BStr) (data : BStr) : BStr :=
  write_conflict_marker ConflictMarkerLineChar.Remove len
      (bs ("Contents of ") ++ base_str ++ maybe_no_eol_comment data)
    ++ ensureNl data

/-- The no-EOL comment chosen by the `write_diff` closure from the last
diff hunk's sides. -/
def diff_no_eol_comment (diff : List DiffHunk) : BStr :=
  let noEolRemove :=
    match diff.getLast? with
    | some h => has_no_eol h.lhs
    | none => false
  let noEolAdd :=
    match diff.getLast? with
    | some h => has_no_eol h.rhs
    | none => false
  if noEolRemove && noEolAdd then no_eol_comment_str
  else if noEolRemove then bs (" (adds terminating newline)")
  else if noEolAdd then bs (" (removes terminating newline)")
  else []

/-- The `write_diff` closure of `materialize_jj_style_conflict`. -/
def write_diff (len : Nat) (base_str : BStr) (add_index : Nat)
    (diff : List DiffHunk) : BStr :=
  write_conflict_marker ConflictMarkerLineChar.Diff len
      (bs ("Changes from ") ++ base_str ++ bs (" to side #")
        ++ natStr (add_index + 1) ++ diff_no_eol_comment diff)
    ++ write_diff_hunks diff

/-- The `base_str` chosen for a base term. -/
def baseName (nRemoves base_index : Nat) : BStr :=
  if nRemoves = 1 then bs ("base") else bs ("base #") ++ natStr (base_index + 1)

/-- The loop over the removes of `materialize_jj_style_conflict`; returns
the rendered bytes together with the final `add_index`. -/
def jjLoop (style : ConflictMarkerStyle) (len nRemoves : Nat)
    (adds : List BStr) :
    List BStr → Nat → Nat → BStr × Nat
  | [], _, add_index => ([], add_index)
  | left :: rest, base_index, add_index =>
    let bn := baseName nRemoves base_index
    match adds.get? add_index with
    | none =>
      let r := jjLoop style len nRemoves adds rest (base_index + 1) add_index
      (write_base len bn left ++ r.1, r.2)
    | some right1 =>
      if style ≠ ConflictMarkerStyle.Diff then
        let r := jjLoop style len nRemoves adds rest (base_index + 1)
          (add_index + 1)
        (write_side len add_index right1 ++ write_base len bn left ++ r.1, r.2)
      else
        let diff1 := diff_by_line left right1
        match adds.get? (add_index + 1) with
        | some right2 =>
          let diff2 := diff_by_line left right2
          if diff_size diff2 < diff_size diff1 then
            let r := jjLoop style len nRemoves adds rest (base_index + 1)
              (add_index + 2)
            (write_side len add_index right1
              ++ write_diff len bn (add_index + 1) diff2 ++ r.1, r.2)
          else
            let r := jjLoop style len nRemoves adds rest (base_index + 1)
              (add_index + 1)
            (write_diff len bn add_index diff1 ++ r.1, r.2)
        | none =>
          let r := jjLoop style len nRemoves adds rest (base_index + 1)
            (add_index + 1)
          (write_diff len bn add_index diff1 ++ r.1, r.2)

/-- `materialize_jj_style_conflict` of conflicts.rs. -/
def materialize_jj_style_conflict (hunk : Merge BStr) (conflict_info : BStr)
    (style : ConflictMarkerStyle) (len : Nat) : BStr :=
  let removes := hunk.removes
  let adds := hunk.adds
  let r := jjLoop style len removes.length adds removes 0 0
  write_conflict_marker ConflictMarkerLineChar.ConflictStart len conflict_info
    ++ r.1
    ++ cat ((adds.enum.drop r.2).map (fun p => write_side len p.1 p.2))
    ++ write_conflict_marker ConflictMarkerLineChar.ConflictEnd len
      (conflict_info ++ bs (" ends"))

/-- The `Conflict k of N` info string. -/
def conflictInfo (k n : Nat) : BStr :=
  bs ("Conflict ") ++ natStr k ++ bs (" of ") ++ natStr n

/-- The loop of `materialize_conflict_hunks`, carrying the 0-based index
of the last conflict seen. -/
def materializeHunksGo (style : ConflictMarkerStyle)
    (len numConflicts : Nat) :
    List (Merge BStr) → Nat → BStr
  | [], _ => []
  | h :: rest, cIdx =>
    match h.as_resolved with
    | some content =>
      content ++ materializeHunksGo style len numConflicts rest cIdx
    | none =>
      let info := conflictInfo (cIdx + 1) numConflicts
      (match style, h.values with
       | ConflictMarkerStyle.Git, [l, b, r] =>
         materialize_git_style_conflict l b r info len
       | _, _ => materialize_jj_style_conflict h info style len)
        ++ materializeHunksGo style len numConflicts rest (cIdx + 1)

/-- `materialize_conflict_hunks` of conflicts.rs. -/
def materialize_conflict_hunks (hunks : List (Merge BStr))
    (style : ConflictMarkerStyle) (len : Nat) : BStr :=
  materializeHunksGo style len
    (hunks.countP (fun h => h.as_resolved.isNone)) hunks 0

/-- `MergeResult` of the files module. -/
inductive MergeResult
  | Resolved (content : BStr)
  | Conflict (hunks : List (Merge BStr))
deriving DecidableEq, Repr

/-- Longest common prefix of every list in a list of lists. -/
def multiPre {α : Type} [DecidableEq α] : List (List α) → List α
  | [] => []
  | [x] => x
  | x :: y :: rest => (commonPre x (multiPre (y :: rest))).1

/-- Longest common suffix of every list in a list of lists. -/
def multiSuf {α : Type} [DecidableEq α] (ls : List (List α)) : List α :=
  (multiPre (ls.map List.reverse)).reverse

/-- The line lists of the terms of a merge. -/
def spliceLls (m : Merge BStr) : List (List BStr) := m.values.map linesWT

/-- The lines every term of the merge starts with: the resolved splice
before the conflicting region of the line merge. -/
def splicePre (m : Merge BStr) : List BStr := multiPre (spliceLls m)

/-- The per-term line lists with the common prefix stripped. -/
def spliceStripped (m : Merge BStr) : List (List BStr) :=
  (spliceLls m).map (fun l => l.drop (splicePre m).length)

/-- The lines every term of the merge ends with (after the common
prefix): the resolved splice after the conflicting region. -/
def spliceSuf (m : Merge BStr) : List BStr := multiSuf (spliceStripped m)

/-- The per-term line lists of the conflicting middle region. -/
def spliceMids (m : Merge BStr) : List (List BStr) :=
  (spliceStripped m).map (fun l => l.take (l.length - (spliceSuf m).length))

/-- The irreducible conflicting middle region of the line merge. -/
def spliceMid (m : Merge BStr) : Merge BStr := ⟨(spliceMids m).map cat⟩

/-- Modelled from the spec: `files::merge_hunks` of the files module (not
among the staged sources) applies the line merge, auto-resolving the
matching splices of content as resolved hunks that interleave with the
irreducible conflicting regions left as unresolved hunks; modelled as
trivial resolution of the whole file, or the common line prefix and
suffix of all terms emitted as resolved splices around one conflicting
middle region. -/
def merge_hunks (m : Merge BStr) : MergeResult :=
  match m.resolve_trivial with
  | some c => MergeResult.Resolved c
  | none =>
    MergeResult.Conflict
      ((if splicePre m = [] then []
        else [Merge.resolved (cat (splicePre m))])
        ++ [spliceMid m]
        ++ (if spliceSuf m = [] then []
            else [Merge.resolved (cat (spliceSuf m))]))

/-- `materialize_merge_result_to_bytes_with_marker_len` of conflicts.rs. -/
def materialize_merge_result_to_bytes_with_marker_len (m : Merge BStr)
    (style : ConflictMarkerStyle) (len : Nat) : BStr :=
  match merge_hunks m with
  | MergeResult.Resolved content => content
  | MergeResult.Conflict hunks => materialize_conflict_hunks hunks style len

/-- The state of `parse_jj_style_conflict_hunk`. -/
inductive JJState
  | SDiff
  | SRemove
  | SAdd
  | SUnknown
deriving DecidableEq, Repr

/-- Extend the last buffer of the list (`last_mut().unwrap()`; the list is
never empty when this is reached in the source). -/
def appendLastB (ls : List BStr) (x : BStr) : List BStr :=
  match ls with
  | [] => []
  | [a] => [a ++ x]
  | a :: rest => a :: appendLastB rest x

/-- One line of `parse_jj_style_conflict_hunk`; `none` is the source's
early return of a resolved-empty merge, absorbing the rest of the loop. -/
def jjStep (e : Nat) (acc : Option (JJState × List BStr × List BStr))
    (line : BStr) : Option (JJState × List BStr × List BStr) :=
  match acc with
  | none => none
  | some (st, removes, adds) =>
    match parse_conflict_marker line e with
    | some ConflictMarkerLineChar.Diff =>
      some (JJState.SDiff, removes ++ [[]], adds ++ [[]])
    | some ConflictMarkerLineChar.Remove =>
      some (JJState.SRemove, removes ++ [[]], adds)
    | some ConflictMarkerLineChar.Add =>
      some (JJState.SAdd, removes, adds ++ [[]])
    | _ =>
      match st with
      | JJState.SDiff =>
        match line with
        | b :: rest' =>
          if b = 45 then some (JJState.SDiff, appendLastB removes rest', adds)
          else if b = 43 then
            some (JJState.SDiff, removes, appendLastB adds rest')
          else if b = 32 then
            some (JJState.SDiff, appendLastB removes rest',
              appendLastB adds rest')
          else if line = [10] ∨ line = [13, 10] then
            some (JJState.SDiff, appendLastB removes line,
              appendLastB adds line)
          else none
        | [] => none
      | JJState.SRemove =>
        some (JJState.SRemove, appendLastB removes line, adds)
      | JJState.SAdd => some (JJState.SAdd, removes, appendLastB adds line)
      | JJState.SUnknown => none

/-- The line loop of `parse_jj_style_conflict_hunk`. -/
def parseJJGo (e : Nat) (ls : List BStr) (st : JJState)
    (removes adds : List BStr) : Option (JJState × List BStr × List BStr) :=
  ls.foldl (jjStep e) (some (st, removes, adds))

/-- `parse_jj_style_conflict_hunk` of conflicts.rs. -/
def parse_jj_style_conflict_hunk (input : BStr) (expected : Nat) :
    Merge BStr :=
  match parseJJGo expected (linesWT input) JJState.SUnknown [] [] with
  | some (_, removes, adds) =>
    if adds.length = removes.length + 1 then
      Merge.from_removes_adds removes adds
    else Merge.resolved []
  | none => Merge.resolved []

/-- The state of `parse_git_style_conflict_hunk`. -/
inductive GitState
  | GLeft
  | GBase
  | GRight
deriving DecidableEq, Repr

/-- One line of `parse_git_style_conflict_hunk`; `none` is the source's
early return of a resolved-empty merge, absorbing the rest of the loop. -/
def gitStep (e : Nat) (acc : Option (GitState × BStr × BStr × BStr))
    (line : BStr) : Option (GitState × BStr × BStr × BStr) :=
  match acc with
  | none => none
  | some (st, l, b, r) =>
    match parse_conflict_marker line e with
    | some ConflictMarkerLineChar.GitAncestor =>
      if st = GitState.GLeft then some (GitState.GBase, l, b, r) else none
    | some ConflictMarkerLineChar.GitSeparator =>
      if st = GitState.GBase then some (GitState.GRight, l, b, r) else none
    | _ =>
      match st with
      | GitState.GLeft => some (st, l ++ line, b, r)
      | GitState.GBase => some (st, l, b ++ line, r)
      | GitState.GRight => some (st, l, b, r ++ line)

/-- The line loop of `parse_git_style_conflict_hunk`. -/
def parseGitGo (e : Nat) (ls : List BStr) (st : GitState) (l b r : BStr) :
    Option (GitState × BStr × BStr × BStr) :=
  ls.foldl (gitStep e) (some (st, l, b, r))

/-- `parse_git_style_conflict_hunk` of conflicts.rs. -/
def parse_git_style_conflict_hunk (input : BStr) (expected : Nat) :
    Merge BStr :=
  match parseGitGo expected (linesWT input) GitState.GLeft [] [] [] with
  | some (GitState.GRight, l, b, r) => Merge.from_vec [l, b, r]
  | _ => Merge.resolved []

/-- `parse_conflict_hunk` of conflicts.rs: dispatch on the first line. -/
def parse_conflict_hunk (input : BStr) (expected : Nat) : Merge BStr :=
  match (linesWT input).head?.bind
      (fun line => parse_conflict_marker line expected) with
  | some ConflictMarkerLineChar.Diff
  | some ConflictMarkerLineChar.Remove
  | some ConflictMarkerLineChar.Add =>
    parse_jj_style_conflict_hunk input expected
  | none
  | some ConflictMarkerLineChar.GitAncestor =>
    parse_git_style_conflict_hunk input expected
  | some _ => Merge.resolved []

/-- Slice `input[a..b]` of a byte string. -/
def extract (input : BStr) (a b : Nat) : BStr := (input.drop a).take (b - a)

/-- The scan state of `parse_conflict`. -/
structure PCState where
  pos : Nat
  resolvedStart : Nat
  conflictStart : Option Nat
  conflictStartLen : Nat
  hunks : List (Merge BStr)
deriving Repr

/-- One line of the scan of `parse_conflict`. -/
def pcStep (input : BStr) (numSides expected : Nat) (s : PCState)
    (line : BStr) : PCState :=
  let s' :=
    match parse_conflict_marker line expected with
    | some ConflictMarkerLineChar.ConflictStart =>
      { s with conflictStart := some s.pos,
               conflictStartLen := line.length }
    | some ConflictMarkerLineChar.ConflictEnd =>
      match s.conflictStart with
      | some csIdx =>
        let body := extract input (csIdx + s.conflictStartLen) s.pos
        let hunk := parse_conflict_hunk body expected
        if hunk.num_sides = numSides then
          let resolvedSlice := extract input s.resolvedStart csIdx
          { s with
            conflictStart := none,
            hunks := s.hunks
              ++ (if resolvedSlice = [] then []
                  else [Merge.resolved resolvedSlice])
              ++ [hunk],
            resolvedStart := s.pos + line.length }
        else { s with conflictStart := none }
      | none => s
    | _ => s
  { s' with pos := s.pos + line.length }

/-- The line loop of `parse_conflict`. -/
def parseConflictGo (input : BStr) (numSides expected : Nat)
    (ls : List BStr) (s : PCState) : PCState :=
  ls.foldl (pcStep input numSides expected) s

/-- `parse_conflict` of conflicts.rs. -/
def parse_conflict (input : BStr) (num_sides expected_marker_len : Nat) :
    Option (List (Merge BStr)) :=
  if input = [] then none
  else
    let s := parseConflictGo input num_sides expected_marker_len
      (linesWT input) ⟨0, 0, none, 0, []⟩
    if s.hunks = [] then none
    else
      some (s.hunks
        ++ (if s.resolvedStart < input.length then
              [Merge.resolved (extract input s.resolvedStart input.length)]
            else []))

/-- File ids of the content-addressed store, modelled as naturals. -/
abbrev FileId : Type := Nat

/-- Modelled from the spec: the store contract of the backend (not among
the staged sources): `read` returns a blob's bytes, `writeId` is the
content-addressed id `write_file` would return. Writes performed by the
engine are recorded separately by `update_from_content`. -/
structure Store where
  read : FileId → BStr
  writeId : BStr → FileId

/-- `extract_as_single_hunk` / `get_file_contents` of conflicts.rs: read
every term, an absent term becoming the empty byte string. -/
def extract_as_single_hunk (m : Merge (Option FileId)) (store : Store) :
    Merge BStr :=
  ⟨m.values.map (fun t =>
    match t with
    | some id => store.read id
    | none => [])⟩

/-- Remove the first pair whose value equals `x` from a tagged list. -/
def removeFirstT {α : Type} [DecidableEq α] (x : α) :
    List (α × Nat) → List (α × Nat)
  | [] => []
  | y :: ys => if y.1 = x then ys else y :: removeFirstT x ys

/-- `cancelOne` on tagged lists, comparing values only. -/
def cancelOneT {α : Type} [DecidableEq α] :
    List (α × Nat) → List (α × Nat) → Option (List (α × Nat) × List (α × Nat))
  | [], _ => none
  | r :: rs, adds =>
    if adds.any (fun a => a.1 = r.1) then
      some (rs, removeFirstT r.1 adds)
    else
      match cancelOneT rs adds with
      | some p => some (r :: p.1, p.2)
      | none => none

/-- `simplifyAux` on tagged lists. -/
def simplifyAuxT {α : Type} [DecidableEq α] :
    Nat → List (α × Nat) × List (α × Nat) →
      List (α × Nat) × List (α × Nat)
  | 0, p => p
  | fuel + 1, p =>
    match cancelOneT p.1 p.2 with
    | some p' => simplifyAuxT fuel p'
    | none => p

/-- Modelled from the spec: `Merge::update_from_simplified` of the merge
module (not among the staged sources) re-expands a simplified merge to
the original merge's shape, substituting the new values at the term
positions that simplification kept. -/
def Merge.update_from_simplified {α : Type} [DecidableEq α]
    (orig new : Merge α) : Merge α :=
  let tagAdds := orig.adds.enum.map (fun p => (p.2, 2 * p.1))
  let tagRemoves := orig.removes.enum.map (fun p => (p.2, 2 * p.1 + 1))
  let p := simplifyAuxT tagRemoves.length (tagRemoves, tagAdds)
  let keptPos := Merge.ilv (p.2.map Prod.snd) (p.1.map Prod.snd)
  let repl := keptPos.zip new.values
  ⟨orig.values.enum.map (fun q =>
    match repl.find? (fun rp => rp.1 = q.1) with
    | some rp => rp.2
    | none => q.2)⟩

/-- One term of the EOL fixup of `update_from_content`: strip the newline
a parsed term gained when the original term lacked one. -/
def fixTerm (original parsed : BStr) : BStr :=
  if parsed.getLast? = some 10 ∧ has_no_eol original then parsed.dropLast
  else parsed

/-- The EOL fixup of `update_from_content`, applied to the last hunk when
it is unresolved. -/
def fixupLast (mh : Merge BStr) (hunks : List (Merge BStr)) :
    List (Merge BStr) :=
  match hunks.getLast? with
  | some last =>
    if last.is_resolved then hunks
    else
      hunks.dropLast
        ++ [⟨(mh.values.zip last.values).map (fun p => fixTerm p.1 p.2)⟩]
  | none => hunks

/-- One step of the per-term content accumulation of
`update_from_content`: a resolved hunk extends every term, an unresolved
hunk extends each term with its own slice. -/
def accStep (contents : List BStr) (h : Merge BStr) : List BStr :=
  match h.as_resolved with
  | some s => contents.map (fun c => c ++ s)
  | none => (contents.zip h.values).map (fun p => p.1 ++ p.2)

/-- The accumulated per-term contents of `update_from_content` after the
EOL fixup. -/
def ufcContents (simplified : Merge (Option FileId)) (mh : Merge BStr)
    (hunks : List (Merge BStr)) : List BStr :=
  (fixupLast mh hunks).foldl accStep (simplified.values.map (fun _ => []))

/-- `update_from_content` of conflicts.rs; the second component records
the blobs written to the store, in order. -/
def update_from_content (file_ids : Merge (Option FileId)) (store : Store)
    (content : BStr) (style : ConflictMarkerStyle) (len : Nat) :
    Merge (Option FileId) × List BStr :=
  let simplified := file_ids.simplify
  let mh := extract_as_single_hunk simplified store
  let old := materialize_merge_result_to_bytes_with_marker_len mh style len
  if content = old then (file_ids, [])
  else
    match parse_conflict content simplified.num_sides len with
    | none => (Merge.normal (store.writeId content), [content])
    | some hunks =>
      let contents := ufcContents simplified mh hunks
      if (contents.zip simplified.values).any
          (fun p => p.2.isNone && !p.1.isEmpty) then
        (Merge.normal (store.writeId content), [content])
      else
        let newIds := (contents.zip simplified.values).map (fun p =>
          match p.2 with
          | some _ => some (store.writeId p.1)
          | none => none)
        let writes := (contents.zip simplified.values).filterMap (fun p =>
          match p.2 with
          | some _ => some p.1
          | none => none)
        let result :=
          if newIds.length ≠ file_ids.values.length then
            file_ids.update_from_simplified (Merge.from_vec newIds)
          else Merge.from_vec newIds
        (result, writes)

/-! ### Concrete inputs used by the claims -/

/-- The merge of the spec's end-to-end example:
`removes=["foo\n"]`, `adds=["foo\nbar\n", "foo\n"]`. -/
def mC1 : Merge BStr :=
  Merge.from_removes_adds [bs ("foo\n")] [bs ("foo\nbar\n"), bs ("foo\n")]

/-- The output bytes the spec's end-to-end example claims. -/
def c1Claimed : BStr :=
  bs ("<<<<<<< Conflict 1 of 1\n%%%%%%% Changes from base to side #1\n foo\n+bar\n+++++++ Contents of side #2\nfoo\n>>>>>>> Conflict 1 of 1 ends\n")

/-- The output bytes the code actually produces for the example: side #1
as a snapshot, then the (smaller) diff from the base to side #2. -/
def c1Actual : BStr :=
  bs ("<<<<<<< Conflict 1 of 1\n+++++++ Contents of side #1\nfoo\nbar\n%%%%%%% Changes from base to side #2\n foo\n>>>>>>> Conflict 1 of 1 ends\n")

/-- C1 (counterexample): materializing the example conflict region with
Diff style and marker length 7 does not produce the bytes the claim
states. -/
theorem C1_counterexample :
    materialize_conflict_hunks [mC1] ConflictMarkerStyle.Diff 7 ≠ c1Claimed := by
  decide

/-- C1 (amended): materializing the example conflict region with Diff
style and marker length 7 produces a snapshot of side #1 followed by the
diff from the base to side #2, because side #2's diff against the base
(empty) is smaller than side #1's one-line insertion. -/
theorem C1_materialization :
    materialize_conflict_hunks [mC1] ConflictMarkerStyle.Diff 7 = c1Actual
      ∧ diff_size (diff_by_line (bs ("foo\n")) (bs ("foo\n")))
          < diff_size (diff_by_line (bs ("foo\n")) (bs ("foo\nbar\n"))) := by
  decide

/-! ### Marker grammar lemmas -/

/-- A `takeWhile` by equality is a replicate of its own length. -/
theorem takeWhile_eq_replicate (b : Nat) (l : BStr) :
    l.takeWhile (fun x => x = b)
      = List.replicate (l.takeWhile (fun x => x = b)).length b := by
  induction l with
  | nil => rfl
  | cons c l' ih =>
    by_cases h : c = b
    · simp [List.takeWhile, h, List.replicate]
      exact ih
    · simp [List.takeWhile, h]

/-- Taking as many elements as `takeWhile` keeps recovers `takeWhile`. -/
theorem take_length_takeWhile (p : Nat → Bool) (l : BStr) :
    l.take (l.takeWhile p).length = l.takeWhile p := by
  induction l with
  | nil => rfl
  | cons c l' ih =>
    by_cases h : p c
    · simp [List.takeWhile, h, ih]
    · simp [List.takeWhile, h]

/-- Dropping as many elements as `takeWhile` keeps leaves `dropWhile`. -/
theorem drop_length_takeWhile (p : Nat → Bool) (l : BStr) :
    l.drop (l.takeWhile p).length = l.dropWhile p := by
  induction l with
  | nil => rfl
  | cons c l' ih =>
    by_cases h : p c
    · simp [List.takeWhile, List.dropWhile, h, ih]
    · simp [List.takeWhile, List.dropWhile, h]

/-- The head of `dropWhile`, if any, falsifies the predicate. -/
theorem head_dropWhile_not {α : Type} (p : α → Bool) (l : List α) :
    ∀ c, (l.dropWhile p).head? = some c → ¬ p c := by
  induction l with
  | nil => intro c h; simp [List.dropWhile] at h
  | cons d l' ih =>
    intro c h
    by_cases hd : p d
    · exact ih c (by simpa [List.dropWhile, hd] using h)
    · simp [List.dropWhile, hd] at h
      subst h
      exact fun hc => hd (by simpa using hc)

/-- A `gitStep` on a structural `|` or `=` marker line. -/
theorem gitStep_mark (e : Nat) (m : BStr) (st : GitState) (l b r : BStr) :
    (parse_conflict_marker m e = some ConflictMarkerLineChar.GitAncestor →
      gitStep e (some (st, l, b, r)) m
        = if st = GitState.GLeft then some (GitState.GBase, l, b, r)
          else none)
    ∧ (parse_conflict_marker m e = some ConflictMarkerLineChar.GitSeparator →
      gitStep e (some (st, l, b, r)) m
        = if st = GitState.GBase then some (GitState.GRight, l, b, r)
          else none) := by
  constructor <;> intro hm <;> unfold gitStep <;> rw [hm]

/-- If the first `n` elements are all `b` and the element at position `n`
(if any) is not `b`, then the `b`-run has length exactly `n`. -/
theorem takeWhile_length_of_run (b : Nat) (n : Nat) (l : BStr)
    (h1 : l.take n = List.replicate n b)
    (h2 : ∀ c, (l.drop n).head? = some c → ¬ c = b) :
    (l.takeWhile (fun x => x = b)).length = n := by
  induction n generalizing l with
  | zero =>
    cases l with
    | nil => rfl
    | cons c l' =>
      have := h2 c (by simp)
      simp [List.takeWhile, this]
  | succ n ih =>
    cases l with
    | nil => simp at h1
    | cons c l' =>
      simp [List.replicate] at h1
      obtain ⟨hc, htl⟩ := h1
      subst hc
      have := ih l' htl (by simpa using h2)
      simp [List.takeWhile, this]

/-- Reserved marker bytes are not ASCII whitespace. -/
theorem parse_byte_not_whitespace (b : Nat) (k : ConflictMarkerLineChar)
    (h : ConflictMarkerLineChar.parse_byte b = some k) :
    ¬ is_ascii_whitespace b = true := by
  unfold ConflictMarkerLineChar.parse_byte at h
  split_ifs at h with h1 h2 h3 h4 h5 h6 h7 <;> subst_vars <;> decide

/-- Unfolding equation of `parse_conflict_marker_any_len` on a nonempty
line. -/
theorem parse_any_cons (fb : Nat) (rest : BStr) :
    parse_conflict_marker_any_len (fb :: rest) =
      match ConflictMarkerLineChar.parse_byte fb with
      | none => none
      | some kind =>
        let len := ((fb :: rest).takeWhile (fun x => x = fb)).length
        match ((fb :: rest).drop len).head? with
        | some nb =>
          if is_ascii_whitespace nb then some ⟨kind, len⟩ else none
        | none => some ⟨kind, len⟩ := rfl

/-- C4: a line parses as a marker of kind `k` and length `L` iff its
first byte is one of the seven reserved bytes, decoding to `k`, that byte
repeats contiguously from position 0 for length `L ≥ 1`, and the byte at
position `L`, when present, is ASCII whitespace; in particular `"----x"`
is not a marker while `"---- text"` is one of length 4. -/
theorem C4_marker_line_grammar :
    (∀ (line : BStr) (k : ConflictMarkerLineChar) (L : Nat),
      parse_conflict_marker_any_len line = some ⟨k, L⟩ ↔
        ∃ b, line.head? = some b
          ∧ ConflictMarkerLineChar.parse_byte b = some k
          ∧ 1 ≤ L
          ∧ line.take L = List.replicate L b
          ∧ ∀ c, (line.drop L).head? = some c → is_ascii_whitespace c = true)
    ∧ parse_conflict_marker_any_len (bs ("----x")) = none
    ∧ parse_conflict_marker_any_len (bs ("---- text"))
        = some ⟨ConflictMarkerLineChar.Remove, 4⟩ := by
  refine ⟨?_, by decide, by decide⟩
  intro line k L
  constructor
  · intro h
    cases line with
    | nil => simp [parse_conflict_marker_any_len] at h
    | cons fb rest =>
      rw [parse_any_cons] at h
      cases hpb : ConflictMarkerLineChar.parse_byte fb with
      | none => rw [hpb] at h; cases h
      | some k' =>
        rw [hpb] at h
        simp only at h
        refine ⟨fb, rfl, ?_⟩
        have hfirst : (fb :: rest).takeWhile (fun x => x = fb) ≠ [] := by
          simp [List.takeWhile]
        have hpos :
            1 ≤ ((fb :: rest).takeWhile (fun x => x = fb)).length := by
          exact Nat.one_le_iff_ne_zero.mpr
            (by simp [List.length_eq_zero, hfirst])
        have htake :
            (fb :: rest).take
                ((fb :: rest).takeWhile (fun x => x = fb)).length
              = List.replicate
                ((fb :: rest).takeWhile (fun x => x = fb)).length fb := by
          rw [take_length_takeWhile]
          exact takeWhile_eq_replicate fb (fb :: rest)
        cases hd :
            ((fb :: rest).drop
              ((fb :: rest).takeWhile (fun x => x = fb)).length).head? with
        | none =>
          rw [hd] at h
          dsimp only at h
          injection h with h
          injection h with hk hL
          subst hk
          subst hL
          exact ⟨hpb, hpos, htake, fun c hc => by rw [hd] at hc; cases hc⟩
        | some nb =>
          rw [hd] at h
          dsimp only at h
          by_cases hw : is_ascii_whitespace nb = true
          · rw [if_pos hw] at h
            injection h with h
            injection h with hk hL
            subst hk
            subst hL
            refine ⟨hpb, hpos, htake, fun c hc => ?_⟩
            rw [hd] at hc
            injection hc with hc
            subst hc
            exact hw
          · rw [if_neg hw] at h
            cases h
  · rintro ⟨b, hhead, hpb, hpos, htake, hwhite⟩
    cases line with
    | nil => cases hhead
    | cons fb rest =>
      simp only [List.head?, Option.some.injEq] at hhead
      subst hhead
      rw [parse_any_cons, hpb]
      simp only
      have hrun : ((fb :: rest).takeWhile (fun x => x = fb)).length = L := by
        refine takeWhile_length_of_run fb L _ htake ?_
        intro c hc hcb
        subst hcb
        exact parse_byte_not_whitespace c k hpb (hwhite c hc)
      rw [hrun]
      cases hd : ((fb :: rest).drop L).head? with
      | none => rfl
      | some nb =>
        dsimp only
        rw [hwhite nb hd]
        rfl

/-! ### Marker length selection (C3) -/

/-- The lengths of all marker-like lines of all terms, in order. -/
def markerRunLens (m : Merge BStr) : List Nat :=
  m.values.foldr
    (fun t acc =>
      (linesWT t).filterMap
        (fun l => (parse_conflict_marker_any_len l).map ConflictMarkerLine.len)
        ++ acc)
    []

/-- The longest pre-existing marker-like run, as the spec phrases it. -/
def maxRunSpec (m : Merge BStr) : Nat := (markerRunLens m).foldr Nat.max 0

/-- `Nat.max` with zero on the right is the identity. -/
theorem natmax_zero (a : Nat) : Nat.max a 0 = a :=
  Nat.max_eq_left (Nat.zero_le a)

/-- Folding `Nat.max` from a seed equals the max of the zero-seeded fold
and the seed. -/
theorem foldmax_seed (A : List Nat) (z : Nat) :
    A.foldr Nat.max z = Nat.max (A.foldr Nat.max 0) z := by
  induction A with
  | nil => simp
  | cons a A' ih => simp [List.foldr, ih, Nat.max_assoc]

/-- The source's fold over lines computes the max of the filtered run
lengths, relative to any seed. -/
theorem foldr_marker_max (L : List BStr) (z : Nat) :
    L.foldr
      (fun l acc =>
        match parse_conflict_marker_any_len l with
        | some mk => Nat.max mk.len acc
        | none => acc) z
    = Nat.max
        ((L.filterMap
          (fun l =>
            (parse_conflict_marker_any_len l).map ConflictMarkerLine.len)).foldr
          Nat.max 0) z := by
  induction L with
  | nil => simp
  | cons l rest ih =>
    cases hp : parse_conflict_marker_any_len l with
    | none => simp [List.filterMap_cons, hp, ih]
    | some mk => simp [List.filterMap_cons, hp, ih, Nat.max_assoc]

/-- `maxMarkerLen` equals the spec-side maximum run length. -/
theorem maxMarkerLen_eq_spec (m : Merge BStr) :
    maxMarkerLen m = maxRunSpec m := by
  unfold maxMarkerLen maxRunSpec markerRunLens
  induction m.values with
  | nil => rfl
  | cons t rest ih =>
    simp only [List.map, List.foldr, List.foldr_append]
    rw [ih, foldr_marker_max]
    conv_rhs => rw [foldmax_seed]

/-- A member of a list is bounded by the fold of `Nat.max` over it. -/
theorem le_foldr_max (a : Nat) (L : List Nat) (h : a ∈ L) :
    a ≤ L.foldr Nat.max 0 := by
  induction L with
  | nil => cases h
  | cons x rest ih =>
    rcases List.mem_cons.mp h with h1 | h2
    · subst h1; exact Nat.le_max_left _ _
    · exact Nat.le_trans (ih h2) (Nat.le_max_right _ _)

/-- The run length of any marker-like line of any term appears in
`markerRunLens`. -/
theorem mem_markerRunLens (m : Merge BStr) (t : BStr) (l : BStr)
    (mk : ConflictMarkerLine) (ht : t ∈ m.values) (hl : l ∈ linesWT t)
    (hp : parse_conflict_marker_any_len l = some mk) :
    mk.len ∈ markerRunLens m := by
  unfold markerRunLens
  generalize hvs : m.values = vs at ht
  clear hvs
  induction vs with
  | nil => cases ht
  | cons v rest ih =>
    simp only [List.foldr]
    rcases List.mem_cons.mp ht with h1 | h2
    · subst h1
      exact List.mem_append_left _
        (List.mem_filterMap.mpr ⟨l, hl, by rw [hp]; rfl⟩)
    · exact List.mem_append_right _ (ih h2)

/-- Any marker-like line of any term has run length at most
`maxRunSpec`. -/
theorem marker_len_le_maxRunSpec (m : Merge BStr) (t : BStr) (l : BStr)
    (mk : ConflictMarkerLine) (ht : t ∈ m.values) (hl : l ∈ linesWT t)
    (hp : parse_conflict_marker_any_len l = some mk) :
    mk.len ≤ maxRunSpec m :=
  le_foldr_max _ _ (mem_markerRunLens m t l mk ht hl hp)

/-- The C3 counterexample merge: a term whose 10-dash run does not start
a line. -/
def mC3 : Merge BStr :=
  Merge.resolved ([120] ++ List.replicate 10 45 ++ [32, 10])

/-- C3 (counterexample): this merge contains a run of 10 `-` bytes
followed by whitespace, yet the chosen marker length is 7, not ≥ 14 —
the run does not start a line, so it is not marker-like. -/
theorem C3_counterexample :
    choose_materialized_conflict_marker_len mC3 = 7
      ∧ (∃ s u, s ++ (List.replicate 10 45 ++ [32]) ++ u
          = [120] ++ List.replicate 10 45 ++ [32, 10])
      ∧ ¬ 14 ≤ choose_materialized_conflict_marker_len mC3 := by
  refine ⟨by decide, ⟨[120], [10], by decide⟩, by decide⟩

/-- C3 (amended): the chosen marker length is `max(7, L + 4)` with `L`
the longest marker-like line run over all terms; a term line starting
with a run of 10 `-` bytes followed by whitespace (or end of line)
forces a length of at least 14; and the chosen length strictly exceeds
every pre-existing marker-like run length. -/
theorem C3_marker_len_selection :
    (∀ m : Merge BStr,
      choose_materialized_conflict_marker_len m
        = Nat.max 7 (maxRunSpec m + 4))
    ∧ (∀ m : Merge BStr, ∀ t ∈ m.values, ∀ l ∈ linesWT t,
        l.take 10 = List.replicate 10 45 →
        (∀ c, (l.drop 10).head? = some c → is_ascii_whitespace c = true) →
        14 ≤ choose_materialized_conflict_marker_len m)
    ∧ (∀ m : Merge BStr, ∀ t ∈ m.values, ∀ l ∈ linesWT t,
        ∀ mk : ConflictMarkerLine,
          parse_conflict_marker_any_len l = some mk →
          mk.len < choose_materialized_conflict_marker_len m) := by
  refine ⟨?_, ?_, ?_⟩
  · intro m
    unfold choose_materialized_conflict_marker_len
    rw [maxMarkerLen_eq_spec]
    exact Nat.max_comm _ _
  · intro m t ht l hl htake hwhite
    have hmk : ∃ mk : ConflictMarkerLine,
        parse_conflict_marker_any_len l = some mk ∧ mk.len = 10 := by
      cases l with
      | nil => simp at htake
      | cons fb rest =>
        have hfb : fb = 45 := by
          have := congrArg (fun x => x.head?) htake
          simpa [List.replicate] using this
        subst hfb
        have hrun : ((45 :: rest).takeWhile (fun x => x = 45)).length = 10 := by
          refine takeWhile_length_of_run 45 10 _ htake ?_
          intro c hc hcb
          subst hcb
          have := hwhite 45 hc
          simp [is_ascii_whitespace] at this
        rw [parse_any_cons]
        simp only [show ConflictMarkerLineChar.parse_byte 45
          = some ConflictMarkerLineChar.Remove from rfl]
        rw [hrun]
        cases hd : ((45 :: rest).drop 10).head? with
        | none => exact ⟨⟨ConflictMarkerLineChar.Remove, 10⟩, rfl, rfl⟩
        | some nb =>
          refine ⟨⟨ConflictMarkerLineChar.Remove, 10⟩, ?_, rfl⟩
          dsimp only
          rw [hwhite nb hd]
          rfl
    obtain ⟨mk, hp, hlen⟩ := hmk
    have h10 : 10 ≤ maxRunSpec m :=
      hlen ▸ marker_len_le_maxRunSpec m t l mk ht hl hp
    unfold choose_materialized_conflict_marker_len
    rw [maxMarkerLen_eq_spec]
    exact Nat.le_trans (by omega) (Nat.le_max_left _ _)
  · intro m t ht l hl mk hp
    have := marker_len_le_maxRunSpec m t l mk ht hl hp
    unfold choose_materialized_conflict_marker_len
    rw [maxMarkerLen_eq_spec]
    exact Nat.lt_of_lt_of_le (by omega) (Nat.le_max_left _ _)

/-! ### Resolved-hunk invariant of the outer parser (C10) -/

/-- A merge with at least two sides is not resolved. -/
theorem as_resolved_none_of_sides (m : Merge BStr) (h : 2 ≤ m.num_sides) :
    m.as_resolved = none := by
  obtain ⟨vs⟩ := m
  match vs with
  | [] => simp [Merge.num_sides, Merge.adds, everyOther] at h
  | [v] => simp [Merge.num_sides, Merge.adds, everyOther] at h
  | v :: w :: rest => rfl

/-- A nonempty final slice: `extract` to the end of a longer input is
nonempty. -/
theorem extract_to_end_ne_nil (input : BStr) (a : Nat)
    (h : a < input.length) : extract input a input.length ≠ [] := by
  unfold extract
  intro hc
  have hd : (input.drop a).length = input.length - a := List.length_drop a input
  have : ((input.drop a).take (input.length - a)).length
      = min (input.length - a) (input.drop a).length := List.length_take _ _
  rw [hc] at this
  simp [hd] at this
  omega

/-- A fold preserves any invariant its step preserves. -/
theorem foldl_preserve {α β : Type} (P : α → Prop) (f : α → β → α)
    (h : ∀ a b, P a → P (f a b)) :
    ∀ (ls : List β) (a : α), P a → P (ls.foldl f a) := by
  intro ls
  induction ls with
  | nil => intro a ha; exact ha
  | cons x rest ih => intro a ha; exact ih (f a x) (h a x ha)

/-- One step of `parse_conflict` preserves the invariant that every
resolved hunk collected so far is nonempty (for `num_sides ≥ 2`). -/
theorem pcStep_resolved_ne_nil (input : BStr) (ns e : Nat)
    (hns : 2 ≤ ns) (s : PCState) (line : BStr)
    (hs : ∀ h ∈ s.hunks, ∀ v, h.as_resolved = some v → v ≠ []) :
    ∀ h ∈ (pcStep input ns e s line).hunks, ∀ v,
      h.as_resolved = some v → v ≠ [] := by
  unfold pcStep
  cases hm : parse_conflict_marker line e with
  | none => exact hs
  | some k =>
    cases k with
    | ConflictStart => exact hs
    | ConflictEnd =>
      cases hcs : s.conflictStart with
      | none => exact hs
      | some csIdx =>
        dsimp only
        by_cases harity :
            (parse_conflict_hunk
              (extract input (csIdx + s.conflictStartLen) s.pos) e).num_sides
              = ns
        · rw [if_pos harity]
          intro h hh v hv
          simp only [List.mem_append] at hh
          rcases hh with (hh | hh) | hh
          · exact hs h hh v hv
          · by_cases hres :
                extract input s.resolvedStart csIdx = ([] : BStr)
            · rw [if_pos hres] at hh
              cases hh
            · rw [if_neg hres] at hh
              simp only [List.mem_singleton] at hh
              subst hh
              unfold Merge.resolved Merge.as_resolved at hv
              simp only at hv
              injection hv with hv
              subst hv
              exact hres
          · simp only [List.mem_singleton] at hh
            subst hh
            rw [as_resolved_none_of_sides _ (harity ▸ hns)] at hv
            cases hv
        · rw [if_neg harity]
          exact hs
    | _ => exact hs

/-- The scan of `parse_conflict` preserves the invariant that every
resolved hunk collected so far is nonempty (for `num_sides ≥ 2`). -/
theorem parseConflictGo_resolved_ne_nil (input : BStr) (ns e : Nat)
    (hns : 2 ≤ ns) (ls : List BStr) :
    ∀ s : PCState,
      (∀ h ∈ s.hunks, ∀ v, h.as_resolved = some v → v ≠ []) →
      ∀ h ∈ (parseConflictGo input ns e ls s).hunks, ∀ v,
        h.as_resolved = some v → v ≠ [] := by
  intro s hs
  exact foldl_preserve
    (fun s => ∀ h ∈ s.hunks, ∀ v, h.as_resolved = some v → v ≠ [])
    (pcStep input ns e)
    (fun a b ha => pcStep_resolved_ne_nil input ns e hns a b ha) ls s hs

/-- The input of the C10 counterexample: a marker-delimited block whose
body is not a valid conflict. -/
def c10Input : BStr := bs ("<<<<<<<\nx\n>>>>>>>\n")

/-- C10 (counterexample): with `num_sides = 1`, `parse_conflict` can
return a list containing an empty resolved hunk. -/
theorem C10_counterexample :
    parse_conflict c10Input 1 7 = some [Merge.resolved []]
      ∧ (Merge.resolved ([] : BStr)).as_resolved = some [] := by
  decide

/-- C10 (amended): whenever `parse_conflict` returns a hunk list and the
expected number of sides is at least 2, every resolved hunk in it is a
nonempty byte string; and `parse_conflict` of empty input returns
`none`. (With `num_sides = 1` an empty resolved hunk is possible.) -/
theorem C10_resolved_hunks_nonempty :
    (∀ (input : BStr) (ns len : Nat) (hunks : List (Merge BStr)),
      2 ≤ ns → parse_conflict input ns len = some hunks →
      ∀ h ∈ hunks, ∀ v, h.as_resolved = some v → v ≠ [])
    ∧ ∀ ns len, parse_conflict [] ns len = none := by
  constructor
  · intro input ns len hunks hns hp h hh v hv
    unfold parse_conflict at hp
    by_cases hin : input = ([] : BStr)
    · rw [if_pos hin] at hp; cases hp
    · rw [if_neg hin] at hp
      dsimp only at hp
      set s := parseConflictGo input ns len (linesWT input) ⟨0, 0, none, 0, []⟩
        with hsdef
      by_cases hh0 : s.hunks = ([] : List (Merge BStr))
      · rw [if_pos hh0] at hp; cases hp
      · rw [if_neg hh0] at hp
        injection hp with hp
        subst hp
        simp only [List.mem_append] at hh
        rcases hh with hh | hh
        · exact parseConflictGo_resolved_ne_nil input ns len hns
            (linesWT input) ⟨0, 0, none, 0, []⟩ (by intro h hh; cases hh)
            h hh v hv
        · by_cases hlt : s.resolvedStart < input.length
          · rw [if_pos hlt] at hh
            simp only [List.mem_singleton] at hh
            subst hh
            unfold Merge.resolved Merge.as_resolved at hv
            simp only at hv
            injection hv with hv
            subst hv
            exact extract_to_end_ne_nil input s.resolvedStart hlt
          · rw [if_neg hlt] at hh
            cases hh
  · intro ns len
    rfl

/-! ### Update-from-content (C8, C9) -/

/-- C8: when the edited content equals the re-materialization of the
simplified original merge (same style, same marker length),
`update_from_content` returns the original unsimplified merge unchanged
and writes nothing to the store. -/
theorem C8_unchanged_content_is_noop (file_ids : Merge (Option FileId))
    (store : Store) (content : BStr) (style : ConflictMarkerStyle)
    (len : Nat)
    (h : content = materialize_merge_result_to_bytes_with_marker_len
      (extract_as_single_hunk file_ids.simplify store) style len) :
    update_from_content file_ids store content style len = (file_ids, []) := by
  unfold update_from_content
  rw [if_pos h]

/-- A concrete three-term file-id merge for the C8 witness. -/
def c8FileIds : Merge (Option FileId) := ⟨[some 1, some 0, some 2]⟩

/-- A concrete store for the C8 witness. -/
def c8Store : Store :=
  ⟨fun id => if id = 0 then bs ("base\n")
    else if id = 1 then bs ("a\n") else bs ("b\n"),
   fun c => c.length⟩

/-- The freshly materialized bytes of the C8 witness merge. -/
def c8Content : BStr :=
  materialize_merge_result_to_bytes_with_marker_len
    (extract_as_single_hunk c8FileIds.simplify c8Store)
    ConflictMarkerStyle.Diff 7

/-- C8 (witness): saving the freshly materialized content back returns
the original merge with zero writes. -/
theorem C8_witness :
    update_from_content c8FileIds c8Store c8Content
      ConflictMarkerStyle.Diff 7 = (c8FileIds, []) :=
  C8_unchanged_content_is_noop c8FileIds c8Store c8Content
    ConflictMarkerStyle.Diff 7 rfl

/-- `everyOther` reads the doubled index of the original list. -/
theorem everyOther_get {α : Type} (l : List α) (i : Nat) :
    (everyOther l).get? i = l.get? (2 * i) := by
  match l with
  | [] => simp [everyOther]
  | [x] =>
    match i with
    | 0 => rfl
    | i + 1 => simp [everyOther, List.get?]
  | x :: y :: rest =>
    match i with
    | 0 => rfl
    | i + 1 =>
      have ih := everyOther_get rest i
      simp only [everyOther]
      rw [show 2 * (i + 1) = (2 * i) + 1 + 1 by omega]
      simpa using ih

/-- `zip` at an index both lists populate. -/
theorem zip_get {α β : Type} (l1 : List α) (l2 : List β) (k : Nat)
    (a : α) (b : β) (h1 : l1.get? k = some a) (h2 : l2.get? k = some b) :
    (l1.zip l2).get? k = some (a, b) := by
  induction l1 generalizing l2 k with
  | nil => cases h1
  | cons x xs ih =>
    cases l2 with
    | nil => cases h2
    | cons y ys =>
      cases k with
      | zero =>
        injection h1 with h1
        injection h2 with h2
        subst h1; subst h2; rfl
      | succ k => exact ih ys k h1 h2

/-- `any` holds when some index satisfies the predicate. -/
theorem any_of_get {α : Type} (l : List α) (p : α → Bool) (k : Nat)
    (x : α) (h : l.get? k = some x) (hx : p x = true) : l.any p = true :=
  List.any_eq_true.mpr ⟨x, List.get?_mem h, hx⟩

/-- C9: if, after parsing and per-term concatenation, some side whose
simplified original file id was absent has non-empty content, the whole
edited content is written as exactly one blob and a resolved single-term
merge of its id is returned. -/
theorem C9_absent_side_resolves (file_ids : Merge (Option FileId))
    (store : Store) (content : BStr) (style : ConflictMarkerStyle)
    (len : Nat) (hunks : List (Merge BStr)) (i : Nat) (c : BStr)
    (hne : content ≠ materialize_merge_result_to_bytes_with_marker_len
      (extract_as_single_hunk file_ids.simplify store) style len)
    (hp : parse_conflict content file_ids.simplify.num_sides len
      = some hunks)
    (hside : file_ids.simplify.adds.get? i = some none)
    (hc : (everyOther (ufcContents file_ids.simplify
        (extract_as_single_hunk file_ids.simplify store) hunks)).get? i
      = some c)
    (hcne : c ≠ []) :
    update_from_content file_ids store content style len
      = (Merge.normal (store.writeId content), [content]) := by
  unfold update_from_content
  rw [if_neg hne, hp]
  dsimp only
  have hval : file_ids.simplify.values.get? (2 * i) = some none := by
    have := everyOther_get file_ids.simplify.values i
    unfold Merge.adds at hside
    rw [hside] at this
    exact this.symm
  have hcontent : (ufcContents file_ids.simplify
      (extract_as_single_hunk file_ids.simplify store) hunks).get? (2 * i)
      = some c := by
    have := everyOther_get (ufcContents file_ids.simplify
      (extract_as_single_hunk file_ids.simplify store) hunks) i
    rw [hc] at this
    exact this.symm
  have hpair := zip_get _ _ (2 * i) c (none : Option FileId)
    hcontent hval
  have hany : ((ufcContents file_ids.simplify
        (extract_as_single_hunk file_ids.simplify store) hunks).zip
      file_ids.simplify.values).any
      (fun p => p.2.isNone && !p.1.isEmpty) = true := by
    refine any_of_get _ _ (2 * i) (c, none) hpair ?_
    have : c.isEmpty = false := by
      cases c with
      | nil => exact absurd rfl hcne
      | cons a l => rfl
    simp [this]
  rw [if_pos hany]

/-- The file-id merge of the C9 witness: side #2 is absent. -/
def c9FileIds : Merge (Option FileId) := ⟨[some 1, some 0, none]⟩

/-- The store of the C9 witness. -/
def c9Store : Store :=
  ⟨fun id => if id = 0 then bs ("base\n") else bs ("left\n"),
   fun c => c.length⟩

/-- The edited content of the C9 witness: the user typed `hi` into the
(previously empty) absent side #2. -/
def c9Content : BStr :=
  bs ("<<<<<<<\n+++++++\nleft\n-------\nbase\n+++++++\nhi\n>>>>>>>\n")

/-- C9 (witness): editing the placeholder of the absent side resolves
the file to a single blob of the whole edited content. -/
theorem C9_witness :
    update_from_content c9FileIds c9Store c9Content
      ConflictMarkerStyle.Diff 7
      = (Merge.normal (c9Store.writeId c9Content), [c9Content]) :=
  C9_absent_side_resolves c9FileIds c9Store c9Content
    ConflictMarkerStyle.Diff 7
    [Merge.from_removes_adds [bs ("base\n")] [bs ("left\n"), bs ("hi\n")]]
    1 (bs ("hi\n")) (by decide) (by decide) (by decide) (by decide)
    (by decide)

/-! ### Git-style sub-parser characterization (C7) -/

/-- A line that is a structural `|` or `=` marker at the expected
length. -/
def isGitMarkLine (expected : Nat) (l : BStr) : Bool :=
  match parse_conflict_marker l expected with
  | some ConflictMarkerLineChar.GitAncestor => true
  | some ConflictMarkerLineChar.GitSeparator => true
  | _ => false

/-- The claim's description of the Git-style sub-parser: the subsequence
of `|`/`=` marker lines must be exactly one `|` followed by one `=`;
lines before the `|` form the left buffer, lines between form the base,
lines after the `=` form the right; anything else is resolved-empty. -/
def gitSpecFun (input : BStr) (expected : Nat) : Merge BStr :=
  let ls := linesWT input
  let notMark := fun l => !isGitMarkLine expected l
  let l1 := ls.takeWhile notMark
  match ls.dropWhile notMark with
  | m1 :: rest1 =>
    if parse_conflict_marker m1 expected
        = some ConflictMarkerLineChar.GitAncestor then
      let l2 := rest1.takeWhile notMark
      match rest1.dropWhile notMark with
      | m2 :: rest2 =>
        if parse_conflict_marker m2 expected
              = some ConflictMarkerLineChar.GitSeparator
            ∧ (∀ x ∈ rest2, isGitMarkLine expected x = false) then
          Merge.from_vec [cat l1, cat l2, cat rest2]
        else Merge.resolved []
      | [] => Merge.resolved []
    else Merge.resolved []
  | [] => Merge.resolved []

/-- A dead git parse stays dead. -/
theorem parseGitGo_none (e : Nat) (ls : List BStr) :
    ls.foldl (gitStep e) none = none := by
  induction ls with
  | nil => rfl
  | cons x rest ih => exact ih

/-- Running the git sub-parser over marker-free lines appends their
concatenation to the active buffer. -/
theorem parseGitGo_content (e : Nat) (ls : List BStr) :
    (∀ x ∈ ls, isGitMarkLine e x = false) →
    ∀ (st : GitState) (l b r : BStr),
      parseGitGo e ls st l b r
        = some (match st with
          | GitState.GLeft => (GitState.GLeft, l ++ cat ls, b, r)
          | GitState.GBase => (GitState.GBase, l, b ++ cat ls, r)
          | GitState.GRight => (GitState.GRight, l, b, r ++ cat ls)) := by
  induction ls with
  | nil =>
    intro _ st l b r
    cases st <;> simp [parseGitGo, cat]
  | cons x rest ih =>
    intro h st l b r
    have hx : isGitMarkLine e x = false := h x (List.mem_cons_self x rest)
    have hrest : ∀ y ∈ rest, isGitMarkLine e y = false :=
      fun y hy => h y (List.mem_cons_of_mem x hy)
    have hstep : ∀ st' l' b' r', gitStep e (some (st', l', b', r')) x
        = some (match st' with
          | GitState.GLeft => (GitState.GLeft, l' ++ x, b', r')
          | GitState.GBase => (GitState.GBase, l', b' ++ x, r')
          | GitState.GRight => (GitState.GRight, l', b', r' ++ x)) := by
      intro st' l' b' r'
      unfold gitStep
      unfold isGitMarkLine at hx
      cases hm : parse_conflict_marker x e with
      | none => cases st' <;> rfl
      | some k =>
        rw [hm] at hx
        cases k <;> dsimp only at hx <;>
          first
          | (exact absurd hx (by decide))
          | (cases st' <;> rfl)
    show (x :: rest).foldl (gitStep e) (some (st, l, b, r)) = _
    rw [List.foldl_cons, hstep]
    cases st with
    | GLeft =>
      have := ih hrest GitState.GLeft (l ++ x) b r
      unfold parseGitGo at this
      dsimp only
      rw [this]
      simp [cat, List.append_assoc]
    | GBase =>
      have := ih hrest GitState.GBase l (b ++ x) r
      unfold parseGitGo at this
      dsimp only
      rw [this]
      simp [cat, List.append_assoc]
    | GRight =>
      have := ih hrest GitState.GRight l b (r ++ x)
      unfold parseGitGo at this
      dsimp only
      rw [this]
      simp [cat, List.append_assoc]

/-- `parseGitGo` over an append folds the second part from the first
part's result. -/
theorem parseGitGo_append (e : Nat) (A B : List BStr) (st : GitState)
    (l b r : BStr) :
    parseGitGo e (A ++ B) st l b r
      = B.foldl (gitStep e) (parseGitGo e A st l b r) := by
  unfold parseGitGo
  exact List.foldl_append _ _ _ _

/-- C7: the Git-style sub-parser accepts exactly the spans whose
`|`/`=` marker subsequence is one `|` then one `=`, strictly in that
order, splitting the content lines into left, base and right buffers;
anything else yields a resolved-empty merge. -/
theorem C7_git_hunk_characterization :
    ∀ (input : BStr) (expected : Nat),
      parse_git_style_conflict_hunk input expected
        = gitSpecFun input expected := by
  intro input e
  unfold parse_git_style_conflict_hunk gitSpecFun
  generalize linesWT input = ls
  dsimp only
  have hsplit := List.takeWhile_append_dropWhile
    (p := fun l => !isGitMarkLine e l) (l := ls)
  have hl1 : ∀ x ∈ ls.takeWhile (fun l => !isGitMarkLine e l),
      isGitMarkLine e x = false := by
    intro x hx
    have := List.mem_takeWhile_imp hx
    simpa using this
  cases hdrop : ls.dropWhile (fun l => !isGitMarkLine e l) with
  | nil =>
    dsimp only
    have hlseq : ls.takeWhile (fun l => !isGitMarkLine e l) = ls := by
      have h2 := hsplit
      rw [hdrop, List.append_nil] at h2
      exact h2
    have hallls : ∀ x ∈ ls, isGitMarkLine e x = false := by
      intro x hx
      rw [← hlseq] at hx
      exact hl1 x hx
    rw [parseGitGo_content e ls hallls GitState.GLeft [] [] []]
  | cons m1 rest1 =>
    dsimp only
    have hm1mark : isGitMarkLine e m1 = true := by
      have hh := head_dropWhile_not (fun l => !isGitMarkLine e l) ls m1
        (by rw [hdrop]; rfl)
      simpa using hh
    have hls1 : ls = ls.takeWhile (fun l => !isGitMarkLine e l)
        ++ m1 :: rest1 := by rw [← hdrop, hsplit]
    have hfold1 : parseGitGo e ls GitState.GLeft [] [] []
        = (m1 :: rest1).foldl (gitStep e)
            (some (GitState.GLeft,
              [] ++ cat (ls.takeWhile (fun l => !isGitMarkLine e l)),
              [], [])) := by
      conv_lhs => rw [hls1]
      rw [parseGitGo_append, parseGitGo_content e _ hl1]
    unfold isGitMarkLine at hm1mark
    cases hm1 : parse_conflict_marker m1 e with
    | none => rw [hm1] at hm1mark; cases hm1mark
    | some k1 =>
      rw [hm1] at hm1mark
      cases k1 <;> dsimp only at hm1mark <;> try cases hm1mark
      case cons.some.GitSeparator.refl =>
        rw [if_neg (by simp)]
        rw [hfold1, List.foldl_cons,
          (gitStep_mark e m1 GitState.GLeft _ _ _).2 hm1]
        rw [if_neg (by decide)]
        rw [parseGitGo_none]
      case cons.some.GitAncestor.refl =>
        rw [if_pos rfl]
        rw [hfold1, List.foldl_cons,
          (gitStep_mark e m1 GitState.GLeft _ _ _).1 hm1,
          if_pos rfl]
        have hsplit2 := List.takeWhile_append_dropWhile
          (p := fun l => !isGitMarkLine e l) (l := rest1)
        have hl2 : ∀ x ∈ rest1.takeWhile (fun l => !isGitMarkLine e l),
            isGitMarkLine e x = false := by
          intro x hx
          have := List.mem_takeWhile_imp hx
          simpa using this
        cases hdrop2 : rest1.dropWhile (fun l => !isGitMarkLine e l) with
        | nil =>
          dsimp only
          have hr1eq : rest1.takeWhile (fun l => !isGitMarkLine e l)
              = rest1 := by
            have h2 := hsplit2
            rw [hdrop2, List.append_nil] at h2
            exact h2
          have hallr1 : ∀ x ∈ rest1, isGitMarkLine e x = false := by
            intro x hx
            rw [← hr1eq] at hx
            exact hl2 x hx
          have := parseGitGo_content e rest1 hallr1 GitState.GBase
            ([] ++ cat (ls.takeWhile (fun l => !isGitMarkLine e l))) [] []
          unfold parseGitGo at this
          rw [this]
        | cons m2 rest2 =>
          dsimp only
          have hm2mark : isGitMarkLine e m2 = true := by
            have hh := head_dropWhile_not (fun l => !isGitMarkLine e l)
              rest1 m2 (by rw [hdrop2]; rfl)
            simpa using hh
          have hr1 : rest1 = rest1.takeWhile (fun l => !isGitMarkLine e l)
              ++ m2 :: rest2 := by rw [← hdrop2, hsplit2]
          have hfold2 : rest1.foldl (gitStep e)
              (some (GitState.GBase,
                [] ++ cat (ls.takeWhile (fun l => !isGitMarkLine e l)),
                [], []))
              = (m2 :: rest2).foldl (gitStep e)
                  (some (GitState.GBase,
                    [] ++ cat (ls.takeWhile (fun l => !isGitMarkLine e l)),
                    [] ++ cat (rest1.takeWhile (fun l => !isGitMarkLine e l)),
                    [])) := by
            conv_lhs => rw [hr1]
            rw [List.foldl_append]
            have := parseGitGo_content e
              (rest1.takeWhile (fun l => !isGitMarkLine e l)) hl2
              GitState.GBase
              ([] ++ cat (ls.takeWhile (fun l => !isGitMarkLine e l))) [] []
            unfold parseGitGo at this
            rw [this]
          rw [hfold2, List.foldl_cons]
          unfold isGitMarkLine at hm2mark
          cases hm2 : parse_conflict_marker m2 e with
          | none => rw [hm2] at hm2mark; cases hm2mark
          | some k2 =>
            rw [hm2] at hm2mark
            cases k2 <;> dsimp only at hm2mark <;> try cases hm2mark
            case cons.some.GitAncestor.refl =>
              rw [(gitStep_mark e m2 GitState.GBase _ _ _).1 hm2,
                if_neg (by decide), parseGitGo_none]
              rw [if_neg (by simp)]
            case cons.some.GitSeparator.refl =>
              rw [(gitStep_mark e m2 GitState.GBase _ _ _).2 hm2,
                if_pos rfl]
              by_cases hall2 : ∀ x ∈ rest2, isGitMarkLine e x = false
              · have := parseGitGo_content e rest2 hall2 GitState.GRight
                  ([] ++ cat (ls.takeWhile (fun l => !isGitMarkLine e l)))
                  ([] ++ cat (rest1.takeWhile (fun l => !isGitMarkLine e l)))
                  []
                unfold parseGitGo at this
                rw [this, if_pos ⟨rfl, hall2⟩]
                simp [Merge.from_vec]
              · rw [if_neg (by intro hc; exact hall2 hc.2)]
                have hsplit3 := List.takeWhile_append_dropWhile
                  (p := fun l => !isGitMarkLine e l) (l := rest2)
                have hl3 : ∀ x ∈ rest2.takeWhile
                    (fun l => !isGitMarkLine e l),
                    isGitMarkLine e x = false := by
                  intro x hx
                  have := List.mem_takeWhile_imp hx
                  simpa using this
                cases hdrop3 : rest2.dropWhile (fun l => !isGitMarkLine e l)
                  with
                | nil =>
                  exfalso
                  apply hall2
                  intro x hx
                  have := List.dropWhile_eq_nil_iff.mp hdrop3 x hx
                  simpa using this
                | cons m3 rest3 =>
                  have hm3mark : isGitMarkLine e m3 = true := by
                    have hh := head_dropWhile_not
                      (fun l => !isGitMarkLine e l) rest2 m3
                      (by rw [hdrop3]; rfl)
                    simpa using hh
                  have hr2 : rest2
                      = rest2.takeWhile (fun l => !isGitMarkLine e l)
                        ++ m3 :: rest3 := by rw [← hdrop3, hsplit3]
                  conv_lhs => rw [hr2]
                  rw [List.foldl_append]
                  have := parseGitGo_content e
                    (rest2.takeWhile (fun l => !isGitMarkLine e l)) hl3
                    GitState.GRight
                    ([] ++ cat (ls.takeWhile (fun l => !isGitMarkLine e l)))
                    ([] ++ cat (rest1.takeWhile
                      (fun l => !isGitMarkLine e l)))
                    []
                  unfold parseGitGo at this
                  rw [this, List.foldl_cons]
                  unfold isGitMarkLine at hm3mark
                  cases hm3 : parse_conflict_marker m3 e with
                  | none => rw [hm3] at hm3mark; cases hm3mark
                  | some k3 =>
                    rw [hm3] at hm3mark
                    cases k3 <;> dsimp only at hm3mark <;> try cases hm3mark
                    · rw [(gitStep_mark e m3 GitState.GRight _ _ _).1 hm3,
                        if_neg (by decide), parseGitGo_none]
                    · rw [(gitStep_mark e m3 GitState.GRight _ _ _).2 hm3,
                        if_neg (by decide), parseGitGo_none]

/-! ### JJ-style sub-parser characterization (C6) -/

/-- The `%`/`-`/`+` marker kind of a line at the expected length, if
any. -/
def jjMarkOf (e : Nat) (l : BStr) : Option ConflictMarkerLineChar :=
  match parse_conflict_marker l e with
  | some ConflictMarkerLineChar.Diff => some ConflictMarkerLineChar.Diff
  | some ConflictMarkerLineChar.Remove =>
    some ConflictMarkerLineChar.Remove
  | some ConflictMarkerLineChar.Add => some ConflictMarkerLineChar.Add
  | _ => none

/-- A line acceptable inside a `%` (diff) section: starts with `-`, `+`
or a space, or is a bare line terminator. -/
def diffLineOk (l : BStr) : Bool :=
  match l with
  | [] => false
  | b :: _ =>
    if b = 45 then true
    else if b = 43 then true
    else if b = 32 then true
    else decide (l = [10] ∨ l = [13, 10])

/-- The contribution of a diff-section body to the remove buffer. -/
def diffRemovePart (body : List BStr) : BStr :=
  cat (body.filterMap (fun l =>
    match l with
    | [] => none
    | b :: r =>
      if b = 45 then some r
      else if b = 43 then none
      else if b = 32 then some r
      else if l = [10] ∨ l = [13, 10] then some l else none))

/-- The contribution of a diff-section body to the add buffer. -/
def diffAddPart (body : List BStr) : BStr :=
  cat (body.filterMap (fun l =>
    match l with
    | [] => none
    | b :: r =>
      if b = 45 then none
      else if b = 43 then some r
      else if b = 32 then some r
      else if l = [10] ∨ l = [13, 10] then some l else none))

/-- `dropWhile` never lengthens a list. -/
theorem length_dropWhile_le' {α : Type} (p : α → Bool) (l : List α) :
    (l.dropWhile p).length ≤ l.length := by
  induction l with
  | nil => simp [List.dropWhile]
  | cons x rest ih =>
    by_cases hx : p x
    · simp only [List.dropWhile, hx]
      exact Nat.le_trans ih (Nat.le_succ _)
    · simp [List.dropWhile, hx]

/-- Split a span's lines into sections, each a `%`/`-`/`+` marker line
followed by its marker-free body; `none` when a content line precedes
the first marker. -/
def jjSections (e : Nat) : List BStr →
    Option (List (ConflictMarkerLineChar × List BStr))
  | [] => some []
  | l :: rest =>
    match jjMarkOf e l with
    | some k =>
      let body := rest.takeWhile (fun x => (jjMarkOf e x).isNone)
      let rest' := rest.dropWhile (fun x => (jjMarkOf e x).isNone)
      match jjSections e rest' with
      | some secs => some ((k, body) :: secs)
      | none => none
    | none => none
termination_by ls => ls.length
decreasing_by
  simp only [List.length_cons]
  exact Nat.lt_succ_of_le (length_dropWhile_le' _ _)

/-- The remove buffers a section list builds, in order. -/
def secRemovesOf (secs : List (ConflictMarkerLineChar × List BStr)) :
    List BStr :=
  secs.filterMap (fun s =>
    match s.1 with
    | ConflictMarkerLineChar.Diff => some (diffRemovePart s.2)
    | ConflictMarkerLineChar.Remove => some (cat s.2)
    | _ => none)

/-- The add buffers a section list builds, in order. -/
def secAddsOf (secs : List (ConflictMarkerLineChar × List BStr)) :
    List BStr :=
  secs.filterMap (fun s =>
    match s.1 with
    | ConflictMarkerLineChar.Diff => some (diffAddPart s.2)
    | ConflictMarkerLineChar.Add => some (cat s.2)
    | _ => none)

/-- The claim's description of the JJ-style sub-parser: the span splits
into marker-led sections with no leading content line; every diff
section's lines must be diff-shaped; the parsed buffers are collected
per section, and the result is the merge of those buffers iff there is
exactly one more add buffer than remove buffers. -/
def jjSpecFun (input : BStr) (e : Nat) : Merge BStr :=
  match jjSections e (linesWT input) with
  | none => Merge.resolved []
  | some secs =>
    if secs.all (fun s =>
        match s.1 with
        | ConflictMarkerLineChar.Diff => s.2.all diffLineOk
        | _ => true) then
      if (secAddsOf secs).length = (secRemovesOf secs).length + 1 then
        Merge.from_removes_adds (secRemovesOf secs) (secAddsOf secs)
      else Merge.resolved []
    else Merge.resolved []

/-- `appendLastB` of a nonempty list is nonempty. -/
theorem appendLastB_ne_nil (l : List BStr) (x : BStr) (h : l ≠ []) :
    appendLastB l x ≠ [] := by
  match l with
  | [] => exact absurd rfl h
  | [a] => simp [appendLastB]
  | a :: b :: rest => simp [appendLastB]

/-- `appendLastB` skips over the head when the tail is nonempty. -/
theorem appendLastB_cons_of_ne (a : BStr) (L : List BStr) (y : BStr)
    (h : L ≠ []) : appendLastB (a :: L) y = a :: appendLastB L y := by
  match L with
  | [] => exact absurd rfl h
  | b :: rest => rfl

/-- Appending to the last buffer twice appends the concatenation. -/
theorem appendLastB_append (l : List BStr) (x y : BStr) :
    appendLastB (appendLastB l x) y = appendLastB l (x ++ y) := by
  induction l with
  | nil => rfl
  | cons a rest ih =>
    cases rest with
    | nil => simp [appendLastB, List.append_assoc]
    | cons b rest' =>
      rw [appendLastB_cons_of_ne a (b :: rest') x (by simp),
        appendLastB_cons_of_ne a (appendLastB (b :: rest') x) y
          (appendLastB_ne_nil _ x (by simp)),
        ih, appendLastB_cons_of_ne a (b :: rest') (x ++ y) (by simp)]

/-- Appending an empty buffer is the identity. -/
theorem appendLastB_nilR (l : List BStr) : appendLastB l [] = l := by
  induction l with
  | nil => rfl
  | cons a rest ih =>
    cases rest with
    | nil => simp [appendLastB]
    | cons b rest' =>
      rw [appendLastB_cons_of_ne a (b :: rest') [] (by simp), ih]

/-- `appendLastB` onto a freshly pushed empty buffer. -/
theorem appendLastB_snoc_nil (xs : List BStr) (y : BStr) :
    appendLastB (xs ++ [[]]) y = xs ++ [y] := by
  induction xs with
  | nil => simp [appendLastB]
  | cons a rest ih =>
    rw [List.cons_append,
      appendLastB_cons_of_ne a (rest ++ [[]]) y (by simp), ih]
    simp

/-- A dead jj parse stays dead. -/
theorem parseJJ_none (e : Nat) (ls : List BStr) :
    ls.foldl (jjStep e) none = none := by
  induction ls with
  | nil => rfl
  | cons x rest ih => exact ih

/-- `jjMarkOf` only yields the three JJ marker kinds. -/
theorem jjMarkOf_kinds (e : Nat) (l : BStr) (k : ConflictMarkerLineChar)
    (h : jjMarkOf e l = some k) :
    k = ConflictMarkerLineChar.Diff ∨ k = ConflictMarkerLineChar.Remove
      ∨ k = ConflictMarkerLineChar.Add := by
  unfold jjMarkOf at h
  cases hm : parse_conflict_marker l e with
  | none => rw [hm] at h; cases h
  | some k' =>
    rw [hm] at h
    cases k' <;> dsimp only at h <;> (try cases h) <;> simp

/-- `jjStep` on a `%`, `-` or `+` marker line pushes fresh buffers. -/
theorem jjStep_mark (e : Nat) (line : BStr) (st : JJState)
    (r a : List BStr) :
    (jjMarkOf e line = some ConflictMarkerLineChar.Diff →
      jjStep e (some (st, r, a)) line
        = some (JJState.SDiff, r ++ [[]], a ++ [[]]))
    ∧ (jjMarkOf e line = some ConflictMarkerLineChar.Remove →
      jjStep e (some (st, r, a)) line
        = some (JJState.SRemove, r ++ [[]], a))
    ∧ (jjMarkOf e line = some ConflictMarkerLineChar.Add →
      jjStep e (some (st, r, a)) line
        = some (JJState.SAdd, r, a ++ [[]])) := by
  unfold jjMarkOf
  refine ⟨?_, ?_, ?_⟩ <;>
    intro h <;>
    unfold jjStep <;>
    cases hm : parse_conflict_marker line e <;>
    rw [hm] at h <;>
    first
    | cases h
    | (rename_i k'
       cases k' <;> dsimp only at h <;> first
        | rfl
        | cases h)

/-- `jjStep` on a marker-free line in each content state. -/
theorem jjStep_content (e : Nat) (line : BStr) (r a : List BStr)
    (h : jjMarkOf e line = none) :
    (jjStep e (some (JJState.SRemove, r, a)) line
      = some (JJState.SRemove, appendLastB r line, a))
    ∧ (jjStep e (some (JJState.SAdd, r, a)) line
      = some (JJState.SAdd, r, appendLastB a line))
    ∧ (jjStep e (some (JJState.SUnknown, r, a)) line = none) := by
  unfold jjMarkOf at h
  refine ⟨?_, ?_, ?_⟩ <;>
    unfold jjStep <;>
    cases hm : parse_conflict_marker line e <;>
    rw [hm] at h <;>
    first
    | rfl
    | (rename_i k'
       cases k' <;> dsimp only at h <;> first
        | rfl
        | cases h)

/-- `jjStep` on a marker-free, diff-shaped line in the Diff state. -/
theorem jjStep_content_diff (e : Nat) (line : BStr) (r a : List BStr)
    (h : jjMarkOf e line = none) (hok : diffLineOk line = true) :
    jjStep e (some (JJState.SDiff, r, a)) line
      = some (JJState.SDiff, appendLastB r (diffRemovePart [line]),
          appendLastB a (diffAddPart [line])) := by
  cases line with
  | nil => simp [diffLineOk] at hok
  | cons b rest' =>
    suffices hgoal :
        (if b = 45 then some (JJState.SDiff, appendLastB r rest', a)
         else if b = 43 then some (JJState.SDiff, r, appendLastB a rest')
         else if b = 32 then
           some (JJState.SDiff, appendLastB r rest', appendLastB a rest')
         else if b :: rest' = [10] ∨ b :: rest' = [13, 10] then
           some (JJState.SDiff, appendLastB r (b :: rest'),
             appendLastB a (b :: rest'))
         else none)
        = some (JJState.SDiff, appendLastB r (diffRemovePart [b :: rest']),
            appendLastB a (diffAddPart [b :: rest'])) by
      unfold jjMarkOf at h
      unfold jjStep
      cases hm : parse_conflict_marker (b :: rest') e with
      | none => dsimp only; exact hgoal
      | some k' =>
        rw [hm] at h
        cases k' <;> dsimp only at h <;> first
          | (dsimp only; exact hgoal)
          | cases h
    by_cases h45 : b = 45
    · subst h45
      simp [diffRemovePart, diffAddPart, cat, appendLastB_nilR]
    · by_cases h43 : b = 43
      · subst h43
        simp [diffRemovePart, diffAddPart, cat, appendLastB_nilR]
      · by_cases h32 : b = 32
        · subst h32
          simp [diffRemovePart, diffAddPart, cat, appendLastB_nilR]
        · have hbare : b :: rest' = [10] ∨ b :: rest' = [13, 10] := by
            unfold diffLineOk at hok
            dsimp only at hok
            rw [if_neg h45, if_neg h43, if_neg h32] at hok
            exact of_decide_eq_true hok
          rcases hbare with hb | hb <;>
            (rw [hb]
             injection hb with hb1 hb2
             subst hb1
             subst hb2
             simp [diffRemovePart, diffAddPart, cat, appendLastB_nilR])

/-- `jjStep` on a marker-free, non-diff-shaped line in the Diff state
invalidates the parse. -/
theorem jjStep_content_diff_bad (e : Nat) (line : BStr) (r a : List BStr)
    (h : jjMarkOf e line = none) (hbad : diffLineOk line = false) :
    jjStep e (some (JJState.SDiff, r, a)) line = none := by
  cases line with
  | nil =>
    suffices hgoal : (none : Option (JJState × List BStr × List BStr))
        = none by
      unfold jjMarkOf at h
      unfold jjStep
      cases hm : parse_conflict_marker ([] : BStr) e with
      | none => rfl
      | some k' =>
        rw [hm] at h
        cases k' <;> dsimp only at h <;> first
          | rfl
          | cases h
    rfl
  | cons b rest' =>
    have hb45 : ¬ b = 45 := by
      intro hc; subst hc; simp [diffLineOk] at hbad
    have hb43 : ¬ b = 43 := by
      intro hc; subst hc; simp [diffLineOk] at hbad
    have hb32 : ¬ b = 32 := by
      intro hc; subst hc; simp [diffLineOk] at hbad
    have hnb : ¬ (b :: rest' = [10] ∨ b :: rest' = [13, 10]) := by
      intro hc
      unfold diffLineOk at hbad
      dsimp only at hbad
      rw [if_neg hb45, if_neg hb43, if_neg hb32] at hbad
      rw [decide_eq_true hc] at hbad
      cases hbad
    suffices hgoal :
        (if b = 45 then some (JJState.SDiff, appendLastB r rest', a)
         else if b = 43 then some (JJState.SDiff, r, appendLastB a rest')
         else if b = 32 then
           some (JJState.SDiff, appendLastB r rest', appendLastB a rest')
         else if b :: rest' = [10] ∨ b :: rest' = [13, 10] then
           some (JJState.SDiff, appendLastB r (b :: rest'),
             appendLastB a (b :: rest'))
         else none)
        = (none : Option (JJState × List BStr × List BStr)) by
      unfold jjMarkOf at h
      unfold jjStep
      cases hm : parse_conflict_marker (b :: rest') e with
      | none => dsimp only; exact hgoal
      | some k' =>
        rw [hm] at h
        cases k' <;> dsimp only at h <;> first
          | (dsimp only; exact hgoal)
          | cases h
    rw [if_neg hb45, if_neg hb43, if_neg hb32, if_neg hnb]

/-- A run of marker-free lines in the Remove state appends their
concatenation to the last remove buffer. -/
theorem jjRun_remove (e : Nat) (ls : List BStr)
    (h : ∀ x ∈ ls, jjMarkOf e x = none) :
    ∀ r a, ls.foldl (jjStep e) (some (JJState.SRemove, r, a))
      = some (JJState.SRemove, appendLastB r (cat ls), a) := by
  induction ls with
  | nil => intro r a; simp [cat, appendLastB_nilR]
  | cons x rest ih =>
    intro r a
    rw [List.foldl_cons,
      (jjStep_content e x r a (h x (List.mem_cons_self x rest))).1,
      ih (fun y hy => h y (List.mem_cons_of_mem x hy))]
    rw [appendLastB_append]
    rfl

/-- A run of marker-free lines in the Add state appends their
concatenation to the last add buffer. -/
theorem jjRun_add (e : Nat) (ls : List BStr)
    (h : ∀ x ∈ ls, jjMarkOf e x = none) :
    ∀ r a, ls.foldl (jjStep e) (some (JJState.SAdd, r, a))
      = some (JJState.SAdd, r, appendLastB a (cat ls)) := by
  induction ls with
  | nil => intro r a; simp [cat, appendLastB_nilR]
  | cons x rest ih =>
    intro r a
    rw [List.foldl_cons,
      (jjStep_content e x r a (h x (List.mem_cons_self x rest))).2.1,
      ih (fun y hy => h y (List.mem_cons_of_mem x hy))]
    rw [appendLastB_append]
    rfl

/-- `cat` of a `filterMap` splits off the head's contribution. -/
theorem cat_filterMap_cons (f : BStr → Option BStr) (x : BStr)
    (ls : List BStr) :
    cat (List.filterMap f (x :: ls))
      = cat (List.filterMap f [x]) ++ cat (List.filterMap f ls) := by
  rw [List.filterMap_cons]
  cases hfx : f x with
  | none => simp [cat, List.filterMap, hfx]
  | some c => simp [cat, List.filterMap, hfx, List.append_assoc]

/-- The single-line contributions concatenate over a body. -/
theorem diffParts_cons (x : BStr) (ls : List BStr) :
    diffRemovePart (x :: ls) = diffRemovePart [x] ++ diffRemovePart ls
      ∧ diffAddPart (x :: ls) = diffAddPart [x] ++ diffAddPart ls := by
  constructor
  · unfold diffRemovePart
    exact cat_filterMap_cons _ x ls
  · unfold diffAddPart
    exact cat_filterMap_cons _ x ls

/-- A run of marker-free, diff-shaped lines in the Diff state appends
the two per-side extractions to the last buffers. -/
theorem jjRun_diff (e : Nat) (ls : List BStr)
    (h : ∀ x ∈ ls, jjMarkOf e x = none)
    (hok : ∀ x ∈ ls, diffLineOk x = true) :
    ∀ r a, ls.foldl (jjStep e) (some (JJState.SDiff, r, a))
      = some (JJState.SDiff, appendLastB r (diffRemovePart ls),
          appendLastB a (diffAddPart ls)) := by
  induction ls with
  | nil =>
    intro r a
    simp [diffRemovePart, diffAddPart, cat, appendLastB_nilR]
  | cons x rest ih =>
    intro r a
    rw [List.foldl_cons,
      jjStep_content_diff e x r a (h x (List.mem_cons_self x rest))
        (hok x (List.mem_cons_self x rest)),
      ih (fun y hy => h y (List.mem_cons_of_mem x hy))
        (fun y hy => hok y (List.mem_cons_of_mem x hy)),
      appendLastB_append, appendLastB_append,
      ← (diffParts_cons x rest).1, ← (diffParts_cons x rest).2]

/-- A diff-state run containing a non-diff-shaped line invalidates the
parse. -/
theorem jjRun_diff_bad (e : Nat) (ls : List BStr)
    (h : ∀ x ∈ ls, jjMarkOf e x = none)
    (hbad : ¬ ∀ x ∈ ls, diffLineOk x = true) :
    ∀ r a, ls.foldl (jjStep e) (some (JJState.SDiff, r, a)) = none := by
  intro r a
  cases hdw : ls.dropWhile diffLineOk with
  | nil =>
    exact absurd
      (fun x hx => List.dropWhile_eq_nil_iff.mp hdw x hx) hbad
  | cons bad rest2 =>
    have hls : ls = ls.takeWhile diffLineOk ++ bad :: rest2 := by
      rw [← hdw, List.takeWhile_append_dropWhile]
    have htok : ∀ x ∈ ls.takeWhile diffLineOk, diffLineOk x = true :=
      fun x hx => List.mem_takeWhile_imp hx
    have htmem : ∀ x ∈ ls.takeWhile diffLineOk, jjMarkOf e x = none := by
      intro x hx
      refine h x ?_
      rw [hls]
      exact List.mem_append_left _ hx
    have hbadline : diffLineOk bad = false := by
      have hh := head_dropWhile_not diffLineOk ls bad (by rw [hdw]; rfl)
      simpa using hh
    have hbmark : jjMarkOf e bad = none := by
      refine h bad ?_
      rw [hls]
      exact List.mem_append_right _ (List.mem_cons_self _ _)
    conv_lhs => rw [hls]
    rw [List.foldl_append, jjRun_diff e _ htmem htok r a, List.foldl_cons,
      jjStep_content_diff_bad e bad _ _ hbmark hbadline]
    exact parseJJ_none e rest2

/-- Walking the rendered sections accumulates exactly the per-section
remove and add buffers, from any start state and buffers. -/
theorem jjRunSections (e : Nat)
    (secs : List (ConflictMarkerLineChar × List BStr)) :
    ∀ ls, jjSections e ls = some secs →
    (∀ s ∈ secs, s.1 = ConflictMarkerLineChar.Diff →
      ∀ x ∈ s.2, diffLineOk x = true) →
    ∀ st r a, ∃ st', ls.foldl (jjStep e) (some (st, r, a))
      = some (st', r ++ secRemovesOf secs, a ++ secAddsOf secs) := by
  induction secs with
  | nil =>
    intro ls hsec hok st r a
    cases ls with
    | nil => exact ⟨st, by simp [secRemovesOf, secAddsOf]⟩
    | cons l rest =>
      exfalso
      unfold jjSections at hsec
      cases hmk : jjMarkOf e l with
      | none => rw [hmk] at hsec; cases hsec
      | some k =>
        rw [hmk] at hsec
        dsimp only at hsec
        cases hrec : jjSections e
            (rest.dropWhile (fun x => (jjMarkOf e x).isNone)) with
        | none => rw [hrec] at hsec; cases hsec
        | some s2 =>
          rw [hrec] at hsec
          dsimp only at hsec
          injection hsec with hsec
          cases hsec
  | cons sec secs' ih =>
    intro ls hsec hok st r a
    cases ls with
    | nil =>
      exfalso
      unfold jjSections at hsec
      injection hsec with hsec
      cases hsec
    | cons l rest =>
      unfold jjSections at hsec
      cases hmk : jjMarkOf e l with
      | none => rw [hmk] at hsec; cases hsec
      | some k =>
        rw [hmk] at hsec
        dsimp only at hsec
        cases hrec : jjSections e
            (rest.dropWhile (fun x => (jjMarkOf e x).isNone)) with
        | none => rw [hrec] at hsec; cases hsec
        | some s2 =>
          rw [hrec] at hsec
          dsimp only at hsec
          injection hsec with hsec
          injection hsec with hsec1 hsec2
          rw [hsec2] at hrec
          rw [← hsec1] at hok ⊢
          have hbody_nm : ∀ x ∈ rest.takeWhile
              (fun x => (jjMarkOf e x).isNone), jjMarkOf e x = none := by
            intro x hx
            have := List.mem_takeWhile_imp hx
            simpa [Option.isNone_iff_eq_none] using this
          have hsplit : rest
              = rest.takeWhile (fun x => (jjMarkOf e x).isNone)
                ++ rest.dropWhile (fun x => (jjMarkOf e x).isNone) :=
            (List.takeWhile_append_dropWhile _ _).symm
          have hoktail : ∀ s ∈ secs',
              s.1 = ConflictMarkerLineChar.Diff →
              ∀ x ∈ s.2, diffLineOk x = true :=
            fun s hs => hok s (List.mem_cons_of_mem _ hs)
          rcases jjMarkOf_kinds e l k hmk with hk | hk | hk
          · subst hk
            have hstep1 : List.foldl (jjStep e)
                (some (JJState.SDiff, r ++ [[]], a ++ [[]])) rest
                = List.foldl (jjStep e)
                    (some (JJState.SDiff,
                      r ++ [diffRemovePart (rest.takeWhile
                        (fun x => (jjMarkOf e x).isNone))],
                      a ++ [diffAddPart (rest.takeWhile
                        (fun x => (jjMarkOf e x).isNone))]))
                    (rest.dropWhile (fun x => (jjMarkOf e x).isNone)) := by
              conv_lhs => rw [hsplit]
              rw [List.foldl_append,
                jjRun_diff e _ hbody_nm
                  (hok _ (List.mem_cons_self _ _) rfl),
                appendLastB_snoc_nil, appendLastB_snoc_nil]
            obtain ⟨st', hrest⟩ := ih _ hrec hoktail JJState.SDiff
              (r ++ [diffRemovePart
                (rest.takeWhile (fun x => (jjMarkOf e x).isNone))])
              (a ++ [diffAddPart
                (rest.takeWhile (fun x => (jjMarkOf e x).isNone))])
            refine ⟨st', ?_⟩
            rw [List.foldl_cons, (jjStep_mark e l st r a).1 hmk, hstep1,
              hrest]
            simp [secRemovesOf, secAddsOf, List.filterMap_cons,
              List.append_assoc]
          · subst hk
            have hstep1 : List.foldl (jjStep e)
                (some (JJState.SRemove, r ++ [[]], a)) rest
                = List.foldl (jjStep e)
                    (some (JJState.SRemove,
                      r ++ [cat (rest.takeWhile
                        (fun x => (jjMarkOf e x).isNone))], a))
                    (rest.dropWhile (fun x => (jjMarkOf e x).isNone)) := by
              conv_lhs => rw [hsplit]
              rw [List.foldl_append, jjRun_remove e _ hbody_nm,
                appendLastB_snoc_nil]
            obtain ⟨st', hrest⟩ := ih _ hrec hoktail JJState.SRemove
              (r ++ [cat (rest.takeWhile (fun x => (jjMarkOf e x).isNone))])
              a
            refine ⟨st', ?_⟩
            rw [List.foldl_cons, (jjStep_mark e l st r a).2.1 hmk, hstep1,
              hrest]
            simp [secRemovesOf, secAddsOf, List.filterMap_cons,
              List.append_assoc]
          · subst hk
            have hstep1 : List.foldl (jjStep e)
                (some (JJState.SAdd, r, a ++ [[]])) rest
                = List.foldl (jjStep e)
                    (some (JJState.SAdd, r,
                      a ++ [cat (rest.takeWhile
                        (fun x => (jjMarkOf e x).isNone))]))
                    (rest.dropWhile (fun x => (jjMarkOf e x).isNone)) := by
              conv_lhs => rw [hsplit]
              rw [List.foldl_append, jjRun_add e _ hbody_nm,
                appendLastB_snoc_nil]
            obtain ⟨st', hrest⟩ := ih _ hrec hoktail JJState.SAdd
              r
              (a ++ [cat (rest.takeWhile (fun x => (jjMarkOf e x).isNone))])
            refine ⟨st', ?_⟩
            rw [List.foldl_cons, (jjStep_mark e l st r a).2.2 hmk, hstep1,
              hrest]
            simp [secRemovesOf, secAddsOf, List.filterMap_cons,
              List.append_assoc]

/-- If some diff section contains a non-diff-shaped line, the whole
parse dies. -/
theorem jjRunSectionsBad (e : Nat)
    (secs : List (ConflictMarkerLineChar × List BStr)) :
    ∀ ls, jjSections e ls = some secs →
    ¬ (∀ s ∈ secs, s.1 = ConflictMarkerLineChar.Diff →
        ∀ x ∈ s.2, diffLineOk x = true) →
    ∀ st r a, ls.foldl (jjStep e) (some (st, r, a)) = none := by
  induction secs with
  | nil =>
    intro ls hsec hbad
    exact absurd (fun s hs => absurd hs (List.not_mem_nil s)) hbad
  | cons sec secs' ih =>
    intro ls hsec hbad st r a
    cases ls with
    | nil =>
      exfalso
      unfold jjSections at hsec
      injection hsec with hsec
      cases hsec
    | cons l rest =>
      unfold jjSections at hsec
      cases hmk : jjMarkOf e l with
      | none => rw [hmk] at hsec; cases hsec
      | some k =>
        rw [hmk] at hsec
        dsimp only at hsec
        cases hrec : jjSections e
            (rest.dropWhile (fun x => (jjMarkOf e x).isNone)) with
        | none => rw [hrec] at hsec; cases hsec
        | some s2 =>
          rw [hrec] at hsec
          dsimp only at hsec
          injection hsec with hsec
          injection hsec with hsec1 hsec2
          rw [hsec2] at hrec
          rw [← hsec1] at hbad
          have hbody_nm : ∀ x ∈ rest.takeWhile
              (fun x => (jjMarkOf e x).isNone), jjMarkOf e x = none := by
            intro x hx
            have := List.mem_takeWhile_imp hx
            simpa [Option.isNone_iff_eq_none] using this
          have hsplit : rest
              = rest.takeWhile (fun x => (jjMarkOf e x).isNone)
                ++ rest.dropWhile (fun x => (jjMarkOf e x).isNone) :=
            (List.takeWhile_append_dropWhile _ _).symm
          by_cases hheadok : k = ConflictMarkerLineChar.Diff →
              ∀ x ∈ rest.takeWhile (fun x => (jjMarkOf e x).isNone),
                diffLineOk x = true
          · have hbadtail : ¬ (∀ s ∈ secs',
                s.1 = ConflictMarkerLineChar.Diff →
                ∀ x ∈ s.2, diffLineOk x = true) := by
              intro hps
              apply hbad
              intro s hs
              rcases List.mem_cons.mp hs with hh | hh
              · subst hh
                exact hheadok
              · exact hps s hh
            rcases jjMarkOf_kinds e l k hmk with hk | hk | hk
            · subst hk
              rw [List.foldl_cons, (jjStep_mark e l st r a).1 hmk]
              conv_lhs => rw [hsplit]
              rw [List.foldl_append,
                jjRun_diff e _ hbody_nm (hheadok rfl)]
              exact ih _ hrec hbadtail JJState.SDiff _ _
            · subst hk
              rw [List.foldl_cons, (jjStep_mark e l st r a).2.1 hmk]
              conv_lhs => rw [hsplit]
              rw [List.foldl_append, jjRun_remove e _ hbody_nm]
              exact ih _ hrec hbadtail JJState.SRemove _ _
            · subst hk
              rw [List.foldl_cons, (jjStep_mark e l st r a).2.2 hmk]
              conv_lhs => rw [hsplit]
              rw [List.foldl_append, jjRun_add e _ hbody_nm]
              exact ih _ hrec hbadtail JJState.SAdd _ _
          · have hkd : k = ConflictMarkerLineChar.Diff := by
              by_contra hkd
              exact hheadok (fun hc => absurd hc hkd)
            subst hkd
            have hbadbody : ¬ ∀ x ∈ rest.takeWhile
                (fun x => (jjMarkOf e x).isNone), diffLineOk x = true :=
              fun hc => hheadok (fun _ => hc)
            rw [List.foldl_cons, (jjStep_mark e l st r a).1 hmk]
            conv_lhs => rw [hsplit]
            rw [List.foldl_append,
              jjRun_diff_bad e _ hbody_nm hbadbody _ _]
            exact parseJJ_none e _

/-- `jjSections` succeeds whenever the span is empty or starts with a
`%`/`-`/`+` marker line. -/
theorem jjSections_isSome (e : Nat) :
    ∀ (n : Nat) (ls : List BStr), ls.length ≤ n →
      (∀ m rest, ls = m :: rest → (jjMarkOf e m).isSome = true) →
      (jjSections e ls).isSome = true := by
  intro n
  induction n with
  | zero =>
    intro ls hlen _
    cases ls with
    | nil => simp [jjSections]
    | cons m rest => simp at hlen
  | succ n ih =>
    intro ls hlen hhead
    cases ls with
    | nil => simp [jjSections]
    | cons m rest =>
      have hm := hhead m rest rfl
      unfold jjSections
      cases hmk : jjMarkOf e m with
      | none => rw [hmk] at hm; cases hm
      | some k =>
        dsimp only
        have hrec : (jjSections e
            (rest.dropWhile (fun x => (jjMarkOf e x).isNone))).isSome
            = true := by
          apply ih
          · have h1 := length_dropWhile_le'
              (fun x => (jjMarkOf e x).isNone) rest
            have h2 : rest.length ≤ n := by
              simpa using Nat.le_of_succ_le_succ (by simpa using hlen)
            omega
          · intro m2 rest2 heq
            have hh := head_dropWhile_not
              (fun x => (jjMarkOf e x).isNone) rest m2
              (by rw [heq]; rfl)
            cases hmk2 : jjMarkOf e m2 with
            | none => exact absurd (by simp [hmk2]) hh
            | some k2 => rfl
        cases hd : jjSections e
            (rest.dropWhile (fun x => (jjMarkOf e x).isNone)) with
        | none => rw [hd] at hrec; cases hrec
        | some s2 => rfl

/-- C6 (counterexample): a span with one `+` section and no remove
sections satisfies the claim's conditions (one more add buffer than
remove buffers, no invalidating line), yet the sub-parser returns a
RESOLVED merge holding the buffer — neither a conflicted merge nor the
empty resolved merge. -/
theorem C6_counterexample :
    parse_jj_style_conflict_hunk (bs ("+++++++\nfoo\n")) 7
        = Merge.resolved (bs ("foo\n"))
      ∧ (Merge.resolved (bs ("foo\n"))).is_resolved = true
      ∧ Merge.resolved (bs ("foo\n")) ≠ Merge.resolved ([] : BStr) := by
  decide

/-- C6 (amended): the JJ-style sub-parser returns the merge built from
its parsed remove/add buffers iff the span splits into marker-led
sections (no content line in the Unknown state), every line of a diff
section starts with `-`, `+` or a space or is a bare line terminator,
and there is exactly one more add buffer than remove buffers (the
result being resolved rather than conflicted when no remove buffer
exists); in every other case it returns the empty resolved merge. -/
theorem C6_jj_hunk_characterization :
    ∀ (input : BStr) (expected : Nat),
      parse_jj_style_conflict_hunk input expected
        = jjSpecFun input expected := by
  intro input e
  unfold parse_jj_style_conflict_hunk jjSpecFun parseJJGo
  generalize linesWT input = ls
  cases hsec : jjSections e ls with
  | none =>
    dsimp only
    have hne : ∃ m rest, ls = m :: rest ∧ jjMarkOf e m = none := by
      cases ls with
      | nil =>
        exfalso
        rw [show jjSections e ([] : List BStr) = some [] from by
          simp [jjSections]] at hsec
        cases hsec
      | cons m rest =>
        refine ⟨m, rest, rfl, ?_⟩
        cases hmk : jjMarkOf e m with
        | none => rfl
        | some k =>
          exfalso
          have hs := jjSections_isSome e (m :: rest).length (m :: rest)
            (Nat.le_refl _)
            (by
              intro m2 r2 heq
              injection heq with h1 h2
              subst h1
              rw [hmk]
              rfl)
          rw [hsec] at hs
          cases hs
    obtain ⟨m, rest, hls, hm⟩ := hne
    subst hls
    rw [List.foldl_cons, (jjStep_content e m [] [] hm).2.2, parseJJ_none]
  | some secs =>
    dsimp only
    by_cases hok : ∀ s ∈ secs, s.1 = ConflictMarkerLineChar.Diff →
        ∀ x ∈ s.2, diffLineOk x = true
    · obtain ⟨st', hrun⟩ := jjRunSections e secs ls hsec hok
        JJState.SUnknown [] []
      rw [hrun]
      have hallb : (secs.all (fun s =>
          match s.1 with
          | ConflictMarkerLineChar.Diff => s.2.all diffLineOk
          | _ => true)) = true := by
        rw [List.all_eq_true]
        intro s hs
        cases hknd : s.1 <;> try rfl
        exact List.all_eq_true.mpr (hok s hs hknd)
      rw [if_pos hallb]
      dsimp only
      simp only [List.nil_append]
    · have hnone := jjRunSectionsBad e secs ls hsec hok
        JJState.SUnknown [] []
      rw [hnone]
      rw [if_neg ?hneg]
      case hneg =>
        intro hc
        apply hok
        intro s hs hknd x hx
        have hcs := List.all_eq_true.mp hc s hs
        rw [hknd] at hcs
        exact List.all_eq_true.mp hcs x hx

/-! ### Line structure lemmas -/

/-- The aux split concatenates back to the prefix plus remainder. -/
theorem catAux_linesWT (s : BStr) :
    ∀ cur, cat (linesWTAux cur s) = cur ++ s := by
  induction s with
  | nil =>
    intro cur
    by_cases h : cur = ([] : BStr)
    · subst h; rfl
    · simp [linesWTAux, h, cat]
  | cons b rest ih =>
    intro cur
    by_cases h : b = 10
    · subst h
      simp only [linesWTAux, if_pos rfl, cat, List.foldr]
      rw [show List.foldr (fun a b => a ++ b) ([] : BStr)
        (linesWTAux [] rest) = cat (linesWTAux [] rest) from rfl, ih []]
      simp
    · simp only [linesWTAux, if_neg h]
      rw [ih (cur ++ [b])]
      simp

/-- Splitting into lines and concatenating recovers the input. -/
theorem cat_linesWT (s : BStr) : cat (linesWT s) = s :=
  catAux_linesWT s []

/-- A line: nonempty, with no interior newline byte. -/
def NlLine (l : BStr) : Prop := l ≠ [] ∧ ∀ x ∈ l.dropLast, x ≠ 10

/-- A list of lines: each a line, all but the last newline-terminated. -/
def LinesOk (ls : List BStr) : Prop :=
  (∀ l ∈ ls, NlLine l) ∧ ∀ l ∈ ls.dropLast, l.getLast? = some 10

/-- The aux split never returns an empty list for nonempty input. -/
theorem linesWTAux_ne_nil (s : BStr) (hs : s ≠ []) :
    ∀ cur, linesWTAux cur s ≠ [] := by
  induction s with
  | nil => exact absurd rfl hs
  | cons b rest ih =>
    intro cur
    by_cases h : b = 10
    · subst h; simp [linesWTAux]
    · simp only [linesWTAux, if_neg h]
      by_cases hr : rest = ([] : BStr)
      · subst hr; simp [linesWTAux]
      · exact ih hr (cur ++ [b])

/-- Unfolding equation for the aux line split. -/
theorem linesWTAux_cons (cur : BStr) (b : Nat) (rest : BStr) :
    linesWTAux cur (b :: rest) =
      if b = 10 then (cur ++ [10]) :: linesWTAux [] rest
      else linesWTAux (cur ++ [b]) rest := rfl

/-- Splitting a newline-terminated prefix splits the line lists. -/
theorem linesWT_append (x y : BStr)
    (h : x = [] ∨ x.getLast? = some 10) :
    linesWT (x ++ y) = linesWT x ++ linesWT y := by
  rcases h with h | h
  · subst h; rfl
  · show linesWTAux [] (x ++ y) = linesWTAux [] x ++ linesWT y
    have main : ∀ (x : BStr), x.getLast? = some 10 →
        ∀ cur, linesWTAux cur (x ++ y)
          = linesWTAux cur x ++ linesWT y := by
      intro x
      induction x with
      | nil => intro hx; cases hx
      | cons b rest ih =>
        intro hx cur
        by_cases hrn : rest = ([] : BStr)
        · subst hrn
          simp only [List.getLast?] at hx
          injection hx with hx
          subst hx
          simp [linesWTAux, linesWT]
        · have hx' : rest.getLast? = some 10 := by
            cases rest with
            | nil => exact absurd rfl hrn
            | cons c rest2 =>
              rw [List.getLast?_cons_cons] at hx
              exact hx
          by_cases hb : b = 10
          · subst hb
            rw [List.cons_append, linesWTAux_cons, linesWTAux_cons,
              if_pos rfl, if_pos rfl, ih hx' []]
            rfl
          · rw [List.cons_append, linesWTAux_cons, linesWTAux_cons,
              if_neg hb, if_neg hb, ih hx' (cur ++ [b])]
    exact main x h []

/-- A single proper line splits into itself. -/
theorem linesWT_single (l : BStr) (h : NlLine l) : linesWT l = [l] := by
  obtain ⟨hne, hint⟩ := h
  show linesWTAux [] l = [l]
  have main : ∀ (l : BStr), l ≠ [] → (∀ x ∈ l.dropLast, x ≠ 10) →
      ∀ cur, linesWTAux cur l = [cur ++ l] := by
    intro l
    induction l with
    | nil => intro hne; exact absurd rfl hne
    | cons b rest ih =>
      intro _ hint cur
      by_cases hrn : rest = ([] : BStr)
      · subst hrn
        by_cases hb : b = 10
        · subst hb; simp [linesWTAux]
        · simp [linesWTAux, hb]
      · have hb : b ≠ 10 := by
          apply hint
          cases rest with
          | nil => exact absurd rfl hrn
          | cons c r2 => exact List.mem_cons_self _ _
        have hint' : ∀ x ∈ rest.dropLast, x ≠ 10 := by
          intro x hx
          apply hint
          cases rest with
          | nil => exact absurd rfl hrn
          | cons c r2 => exact List.mem_cons_of_mem _ hx
        rw [linesWTAux_cons, if_neg hb, ih hrn hint' (cur ++ [b])]
        simp
  simpa using main l hne hint []

/-- A byte string free of newline bytes. -/
def NoNl (s : BStr) : Prop := ∀ b ∈ s, b ≠ 10

instance (s : BStr) : Decidable (NoNl s) := List.decidableBAll _ s

/-- No line of the term is marker-like with a run reaching within 4 of
`e`; automatically true of every term at the chosen marker length. -/
def cleanT (e : Nat) (v : BStr) : Prop :=
  ∀ l ∈ linesWT v, ∀ mk, parse_conflict_marker_any_len l = some mk →
    mk.len + 4 ≤ e

/-- `LinesOk` distributes over append. -/
theorem LinesOk_append (xs ys : List BStr) (h : LinesOk (xs ++ ys)) :
    LinesOk xs ∧ LinesOk ys := by
  obtain ⟨hel, hterm⟩ := h
  by_cases hy : ys = []
  · subst hy
    simp only [List.append_nil] at hel hterm
    exact ⟨⟨hel, hterm⟩, ⟨fun l hl => absurd hl (List.not_mem_nil l),
      fun l hl => absurd hl (by simp)⟩⟩
  · have hdl : (xs ++ ys).dropLast = xs ++ ys.dropLast :=
      List.dropLast_append_of_ne_nil _ hy
    constructor
    · refine ⟨fun l hl => hel l (List.mem_append_left _ hl), ?_⟩
      intro l hl
      apply hterm
      rw [hdl]
      exact List.mem_append_left _ (List.dropLast_subset _ hl)
    · refine ⟨fun l hl => hel l (List.mem_append_right _ hl), ?_⟩
      intro l hl
      apply hterm
      rw [hdl]
      exact List.mem_append_right _ hl

/-- `ensureNl` keeps a newline-terminated string unchanged. -/
theorem ensureNl_of_nl (l : BStr) (h : l.getLast? = some 10) :
    ensureNl l = l := by
  unfold ensureNl has_no_eol
  rw [h]
  simp

/-- `ensureNl` appends a newline to a string that lacks one. -/
theorem ensureNl_of_no (l : BStr) (c : Nat) (h : l.getLast? = some c)
    (hc : c ≠ 10) : ensureNl l = l ++ [10] := by
  unfold ensureNl has_no_eol
  rw [h]
  simp [hc]

/-- `getLast?` of an append with a nonempty right part. -/
theorem getLast_append_ne {α : Type} (A B : List α) (h : B ≠ []) :
    (A ++ B).getLast? = B.getLast? := by
  rcases List.eq_nil_or_concat B with hB | ⟨B', b, hB⟩
  · exact absurd hB h
  · rw [List.concat_eq_append] at hB
    subst hB
    rw [← List.append_assoc, List.getLast?_concat, List.getLast?_concat]

/-- The last byte of `ensureNl` is a newline, unless the input is empty. -/
theorem ensureNl_last (d : BStr) :
    ensureNl d = [] ∨ (ensureNl d).getLast? = some 10 := by
  cases d with
  | nil => left; rfl
  | cons x xs =>
    right
    by_cases h10 : (x :: xs).getLast? = some 10
    · rw [ensureNl_of_nl _ h10]; exact h10
    · have hc : (x :: xs).getLast? = some ((x :: xs).getLast (by simp)) :=
        List.getLast?_eq_getLast _ (by simp)
      have hcne : (x :: xs).getLast (by simp) ≠ 10 := by
        intro he
        exact h10 (by rw [hc, he])
      rw [ensureNl_of_no _ _ hc hcne]
      exact List.getLast?_concat _

/-- A map fixing every member is the identity. -/
theorem map_self {α : Type} (f : α → α) (l : List α)
    (h : ∀ x ∈ l, f x = x) : l.map f = l := by
  induction l with
  | nil => rfl
  | cons x rest ih =>
    rw [List.map_cons, h x (List.mem_cons_self x rest),
      ih (fun y hy => h y (List.mem_cons_of_mem x hy))]

/-- Unfolding `cat` on a cons cell. -/
theorem cat_cons (x : BStr) (L : List BStr) : cat (x :: L) = x ++ cat L :=
  rfl

/-- `cat` distributes over append. -/
theorem cat_append (A B : List BStr) : cat (A ++ B) = cat A ++ cat B := by
  induction A with
  | nil => rfl
  | cons x rest ih =>
    show x ++ cat (rest ++ B) = (x ++ cat rest) ++ cat B
    rw [ih, List.append_assoc]

/-- `cat` of empty-or-newline-terminated pieces is empty or ends in a
newline. -/
theorem cat_last_nl (ls : List BStr)
    (h : ∀ l ∈ ls, l = [] ∨ l.getLast? = some 10) :
    cat ls = [] ∨ (cat ls).getLast? = some 10 := by
  induction ls with
  | nil => left; rfl
  | cons x rest ih =>
    rcases ih (fun l hl => h l (List.mem_cons_of_mem x hl)) with hr | hr
    · rw [cat_cons, hr, List.append_nil]
      exact h x (List.mem_cons_self x rest)
    · right
      have hne : cat rest ≠ [] := by
        intro he
        rw [he] at hr
        cases hr
      rw [cat_cons, getLast_append_ne _ _ hne]
      exact hr

/-- The empty line list is well-formed. -/
theorem LinesOk_nil : LinesOk [] :=
  ⟨fun l hl => absurd hl (List.not_mem_nil l),
   fun l hl => absurd hl (by simp)⟩

/-- Extending a well-formed line list with a head line. -/
theorem LinesOk_cons (l : BStr) (ls : List BStr) (h1 : NlLine l)
    (h2 : l.getLast? = some 10 ∨ ls = []) (h3 : LinesOk ls) :
    LinesOk (l :: ls) := by
  refine ⟨?_, ?_⟩
  · intro x hx
    rcases List.mem_cons.mp hx with h | h
    · subst h; exact h1
    · exact h3.1 x h
  · intro x hx
    cases ls with
    | nil => simp [List.dropLast] at hx
    | cons y ys =>
      rcases List.mem_cons.mp hx with h | h
      · subst h
        rcases h2 with h2 | h2
        · exact h2
        · cases h2
      · exact h3.2 x h

/-- The line lists produced by the aux split are well-formed. -/
theorem linesWTAux_ok (s : BStr) :
    ∀ cur, (∀ b ∈ cur, b ≠ 10) → LinesOk (linesWTAux cur s) := by
  induction s with
  | nil =>
    intro cur hcur
    by_cases h : cur = ([] : BStr)
    · subst h
      simp only [linesWTAux, if_pos rfl]
      exact LinesOk_nil
    · simp only [linesWTAux, if_neg h]
      exact LinesOk_cons cur []
        ⟨h, fun x hx => hcur x (List.dropLast_subset _ hx)⟩
        (Or.inr rfl) LinesOk_nil
  | cons b rest ih =>
    intro cur hcur
    by_cases hb : b = 10
    · subst hb
      rw [linesWTAux_cons, if_pos rfl]
      refine LinesOk_cons _ _ ⟨by simp, ?_⟩
        (Or.inl (List.getLast?_concat _)) (ih [] (by simp))
      rw [List.dropLast_concat]
      exact hcur
    · rw [linesWTAux_cons, if_neg hb]
      refine ih (cur ++ [b]) ?_
      intro x hx
      rcases List.mem_append.mp hx with h | h
      · exact hcur x h
      · simp at h; subst h; exact hb

/-- The line list of any byte string is well-formed. -/
theorem linesOk_linesWT (x : BStr) : LinesOk (linesWT x) :=
  linesWTAux_ok x [] (by simp)

/-- When the input ends in a newline, every split line ends in one. -/
theorem linesWTAux_all_nl (s : BStr) (h : s.getLast? = some 10) :
    ∀ cur, ∀ l ∈ linesWTAux cur s, l.getLast? = some 10 := by
  induction s with
  | nil => simp [List.getLast?] at h
  | cons b rest ih =>
    intro cur l hl
    by_cases hrn : rest = ([] : BStr)
    · subst hrn
      have hb : b = 10 := by simpa [List.getLast?] using h
      subst hb
      rw [linesWTAux_cons, if_pos rfl] at hl
      rcases List.mem_cons.mp hl with h1 | h1
      · subst h1; exact List.getLast?_concat _
      · simp [linesWTAux] at h1
    · have h' : rest.getLast? = some 10 := by
        cases rest with
        | nil => exact absurd rfl hrn
        | cons c r2 => rw [List.getLast?_cons_cons] at h; exact h
      by_cases hb : b = 10
      · subst hb
        rw [linesWTAux_cons, if_pos rfl] at hl
        rcases List.mem_cons.mp hl with h1 | h1
        · subst h1; exact List.getLast?_concat _
        · exact ih h' [] l h1
      · rw [linesWTAux_cons, if_neg hb] at hl
        exact ih h' (cur ++ [b]) l hl

/-- When the input ends in a newline, every line ends in one. -/
theorem linesWT_all_nl (x : BStr) (h : x.getLast? = some 10) :
    ∀ l ∈ linesWT x, l.getLast? = some 10 :=
  fun l hl => linesWTAux_all_nl x h [] l hl

/-- Splitting the concatenation of a well-formed line list recovers it. -/
theorem linesWT_cat (ls : List BStr) (h : LinesOk ls) :
    linesWT (cat ls) = ls := by
  induction ls with
  | nil => rfl
  | cons l rest ih =>
    by_cases hr : rest = []
    · subst hr
      show linesWT (l ++ cat []) = [l]
      rw [show cat ([] : List BStr) = [] from rfl, List.append_nil]
      exact linesWT_single l (h.1 l (List.mem_cons_self _ _))
    · have hl10 : l.getLast? = some 10 := by
        refine h.2 l ?_
        cases rest with
        | nil => exact absurd rfl hr
        | cons y ys => exact List.mem_cons_self _ _
      rw [cat_cons, linesWT_append l (cat rest) (Or.inr hl10),
        linesWT_single l (h.1 l (List.mem_cons_self _ _)),
        ih (LinesOk_append [l] rest h).2]
      rfl

/-- Splitting `ensureNl` forces the newline onto the last line. -/
theorem linesWT_ensureNl (x : BStr) :
    linesWT (ensureNl x) = (linesWT x).map ensureNl := by
  by_cases hxne : x = []
  · subst hxne; rfl
  · have hx : x.getLast? = some (x.getLast hxne) :=
      List.getLast?_eq_getLast _ hxne
    by_cases hc : x.getLast hxne = 10
    · rw [hc] at hx
      rw [ensureNl_of_nl x hx]
      exact (map_self _ _
        (fun l hl => ensureNl_of_nl l (linesWT_all_nl x hx l hl))).symm
    · rw [ensureNl_of_no x _ hx hc]
      have hlne : linesWT x ≠ [] := linesWTAux_ne_nil x hxne []
      rcases List.eq_nil_or_concat (linesWT x) with h0 | ⟨init, lastl, hsplit⟩
      · exact absurd h0 hlne
      · rw [List.concat_eq_append] at hsplit
        have hok := linesOk_linesWT x
        rw [hsplit] at hok
        have hinit : LinesOk init := (LinesOk_append init [lastl] hok).1
        have hlastok : NlLine lastl := hok.1 lastl (by simp)
        have hinitnl : ∀ l ∈ init, l.getLast? = some 10 := by
          intro l hl
          refine hok.2 l ?_
          rw [List.dropLast_concat]
          exact hl
        have hcatx : cat init ++ lastl = x := by
          have hcx := cat_linesWT x
          rw [hsplit, cat_append] at hcx
          simpa [cat] using hcx
        have hlastlast : lastl.getLast? = some (x.getLast hxne) := by
          rw [← hx, ← hcatx, getLast_append_ne _ _ hlastok.1]
        have hkey : x ++ [10] = cat init ++ (lastl ++ [10]) := by
          rw [← hcatx, List.append_assoc]
        have hll : lastl.dropLast ++ [lastl.getLast hlastok.1] = lastl :=
          List.dropLast_append_getLast hlastok.1
        have hgl : lastl.getLast hlastok.1 = x.getLast hxne := by
          have hq := List.getLast?_eq_getLast lastl hlastok.1
          rw [hlastlast] at hq
          injection hq with hq2
          exact hq2.symm
        have hnll : NlLine (lastl ++ [10]) := by
          refine ⟨by simp, ?_⟩
          rw [List.dropLast_concat]
          intro y hy
          conv at hy => rw [← hll]
          rcases List.mem_append.mp hy with h | h
          · exact hlastok.2 y h
          · simp at h
            subst h
            rw [hgl]
            exact hc
        rw [hkey, linesWT_append _ _
            (cat_last_nl init (fun l hl => Or.inr (hinitnl l hl))),
          linesWT_cat init hinit, linesWT_single (lastl ++ [10]) hnll,
          hsplit, List.map_append,
          map_self _ init (fun l hl => ensureNl_of_nl l (hinitnl l hl))]
        simp only [List.map_cons, List.map_nil]
        rw [ensureNl_of_no lastl _ hlastlast hc]

/-- Concatenating the newline-forced lines yields `ensureNl`. -/
theorem cat_map_ensureNl (x : BStr) :
    cat ((linesWT x).map ensureNl) = ensureNl x := by
  rw [← linesWT_ensureNl, cat_linesWT]

/-! ### Written marker lines -/

/-- `parse_byte` decodes `to_byte`. -/
theorem parse_byte_to_byte (k : ConflictMarkerLineChar) :
    ConflictMarkerLineChar.parse_byte k.to_byte = some k := by
  cases k <;> rfl

/-- Marker bytes are neither newline nor space. -/
theorem to_byte_props (k : ConflictMarkerLineChar) :
    k.to_byte ≠ 10 ∧ k.to_byte ≠ 32 := by
  cases k <;> exact ⟨by decide, by decide⟩

/-- Introduction rule for `parse_conflict_marker_any_len`. -/
theorem parse_any_intro (line : BStr) (k : ConflictMarkerLineChar)
    (L : Nat) (b : Nat) (hhead : line.head? = some b)
    (hpb : ConflictMarkerLineChar.parse_byte b = some k)
    (htake : line.take L = List.replicate L b)
    (hwhite : ∀ c, (line.drop L).head? = some c →
      is_ascii_whitespace c = true) :
    parse_conflict_marker_any_len line = some ⟨k, L⟩ := by
  cases line with
  | nil => cases hhead
  | cons fb rest =>
    simp only [List.head?, Option.some.injEq] at hhead
    subst hhead
    rw [parse_any_cons, hpb]
    simp only
    have hrun : ((fb :: rest).takeWhile (fun x => x = fb)).length = L := by
      refine takeWhile_length_of_run fb L _ htake ?_
      intro c hc hcb
      subst hcb
      exact parse_byte_not_whitespace c k hpb (hwhite c hc)
    rw [hrun]
    cases hd : ((fb :: rest).drop L).head? with
    | none => rfl
    | some nb =>
      dsimp only
      rw [hwhite nb hd]
      rfl

/-- A marker-byte run followed by a whitespace-headed (or empty) tail
parses as a marker of the run's length. -/
theorem parse_any_run (b : Nat) (k : ConflictMarkerLineChar)
    (hpb : ConflictMarkerLineChar.parse_byte b = some k) (e : Nat)
    (he : 1 ≤ e) (tail : BStr)
    (htail : ∀ c, tail.head? = some c →
      is_ascii_whitespace c = true ∧ ¬ c = b) :
    parse_conflict_marker_any_len (List.replicate e b ++ tail)
      = some ⟨k, e⟩ := by
  have hlen : (List.replicate e b).length = e := List.length_replicate e b
  refine parse_any_intro _ k e b ?_ hpb ?_ ?_
  · obtain ⟨e', rfl⟩ : ∃ e', e = e' + 1 := ⟨e - 1, by omega⟩
    rfl
  · rw [List.take_left' hlen]
  · intro c hc
    rw [List.drop_left' hlen] at hc
    exact (htail c hc).1

/-- A written conflict marker parses with its exact length. -/
theorem wcm_parse_any (k : ConflictMarkerLineChar) (e : Nat) (he : 1 ≤ e)
    (suf : BStr) :
    parse_conflict_marker_any_len (write_conflict_marker k e suf)
      = some ⟨k, e⟩ := by
  unfold write_conflict_marker
  rw [List.append_assoc]
  refine parse_any_run k.to_byte k (parse_byte_to_byte k) e he _ ?_
  intro c hc
  by_cases hsuf : suf = []
  · rw [if_pos hsuf, List.nil_append, List.head?_cons] at hc
    injection hc with hc
    subst hc
    exact ⟨by decide, fun h => (to_byte_props k).1 h.symm⟩
  · rw [if_neg hsuf, List.cons_append, List.head?_cons] at hc
    injection hc with hc
    subst hc
    exact ⟨by decide, fun h => (to_byte_props k).2 h.symm⟩

/-- A written conflict marker is recognized at its own length. -/
theorem wcm_parse (k : ConflictMarkerLineChar) (e : Nat) (he : 1 ≤ e)
    (suf : BStr) :
    parse_conflict_marker (write_conflict_marker k e suf) e = some k := by
  unfold parse_conflict_marker
  rw [wcm_parse_any k e he suf]
  simp

/-- A written marker line ends in a newline. -/
theorem wcm_last (k : ConflictMarkerLineChar) (e : Nat) (suf : BStr) :
    (write_conflict_marker k e suf).getLast? = some 10 := by
  unfold write_conflict_marker
  exact List.getLast?_concat _

/-- A written marker line with a newline-free suffix is a proper line. -/
theorem wcm_nlline (k : ConflictMarkerLineChar) (e : Nat) (suf : BStr)
    (hsuf : NoNl suf) : NlLine (write_conflict_marker k e suf) := by
  refine ⟨?_, ?_⟩
  · unfold write_conflict_marker; simp
  · unfold write_conflict_marker
    intro y hy
    rw [List.dropLast_concat] at hy
    rcases List.mem_append.mp hy with h | h
    · rw [List.eq_of_mem_replicate h]
      exact (to_byte_props k).1
    · by_cases hs : suf = []
      · rw [if_pos hs] at h; cases h
      · rw [if_neg hs] at h
        rcases List.mem_cons.mp h with h | h
        · subst h; decide
        · exact hsuf y h

/-- A written marker line with a newline-free suffix is one line. -/
theorem linesWT_wcm (k : ConflictMarkerLineChar) (e : Nat) (suf : BStr)
    (hsuf : NoNl suf) :
    linesWT (write_conflict_marker k e suf)
      = [write_conflict_marker k e suf] :=
  linesWT_single _ (wcm_nlline k e suf hsuf)

/-- `takeWhile` never lengthens a list. -/
theorem length_takeWhile_le' {α : Type} (p : α → Bool) (l : List α) :
    (l.takeWhile p).length ≤ l.length := by
  induction l with
  | nil => simp [List.takeWhile]
  | cons x rest ih =>
    by_cases hx : p x
    · simp only [List.takeWhile, hx, List.length_cons]
      omega
    · simp [List.takeWhile, hx]

/-- Appending a final newline does not change marker recognition. -/
theorem parse_any_snoc_nl (l : BStr) :
    parse_conflict_marker_any_len (l ++ [10])
      = parse_conflict_marker_any_len l := by
  cases l with
  | nil => rfl
  | cons fb rest =>
    cases hpb : ConflictMarkerLineChar.parse_byte fb with
    | none =>
      rw [List.cons_append, parse_any_cons, parse_any_cons, hpb]
    | some k =>
      have hfb10 : fb ≠ 10 := by
        intro h
        subst h
        cases hpb
      have hlt : ((fb :: rest).takeWhile (fun x => x = fb)).length
          ≤ (fb :: rest).length := length_takeWhile_le' _ _
      have hsub : ((fb :: rest).takeWhile (fun x => x = fb)).length
          - (fb :: rest).length = 0 := by omega
      have hdropA : ((fb :: rest) ++ [10]).drop
            ((fb :: rest).takeWhile (fun x => x = fb)).length
          = (fb :: rest).dropWhile (fun x => x = fb) ++ [10] := by
        rw [List.drop_append_eq_append_drop, hsub, drop_length_takeWhile]
        rfl
      have hrunA : (((fb :: rest) ++ [10]).takeWhile
          (fun x => x = fb)).length
          = ((fb :: rest).takeWhile (fun x => x = fb)).length := by
        refine takeWhile_length_of_run fb _ _ ?_ ?_
        · rw [List.take_append_eq_append_take, hsub, take_length_takeWhile]
          rw [show List.take 0 [10] = [] from rfl, List.append_nil]
          exact takeWhile_eq_replicate fb (fb :: rest)
        · intro c hc
          rw [hdropA] at hc
          cases hdw : (fb :: rest).dropWhile (fun x => x = fb) with
          | nil =>
            rw [hdw, List.nil_append, List.head?_cons] at hc
            injection hc with hc
            subst hc
            exact fun h => hfb10 h.symm
          | cons c0 d' =>
            rw [hdw, List.cons_append, List.head?_cons] at hc
            injection hc with hc
            subst hc
            have := head_dropWhile_not (fun x => x = fb) (fb :: rest) c0
              (by rw [hdw]; rfl)
            simpa using this
      rw [show (fb :: rest) ++ [10] = fb :: (rest ++ [10]) from rfl]
        at hdropA hrunA
      rw [List.cons_append, parse_any_cons, parse_any_cons, hpb]
      simp only
      rw [hrunA, hdropA, drop_length_takeWhile]
      cases hdw : (fb :: rest).dropWhile (fun x => x = fb) with
      | nil => rfl
      | cons c0 d' => rfl

/-- `ensureNl` does not change marker recognition. -/
theorem parse_any_ensureNl (l : BStr) :
    parse_conflict_marker_any_len (ensureNl l)
      = parse_conflict_marker_any_len l := by
  unfold ensureNl
  by_cases h : has_no_eol l = true
  · rw [if_pos h]
    exact parse_any_snoc_nl l
  · rw [if_neg h, List.append_nil]

/-- A content line whose marker-like runs stay 4 short of `e` is not a
structural marker at `e`, even after the forced newline. -/
theorem content_not_marker (e : Nat) (l : BStr)
    (hc : ∀ mk, parse_conflict_marker_any_len l = some mk →
      mk.len + 4 ≤ e) :
    parse_conflict_marker (ensureNl l) e = none := by
  unfold parse_conflict_marker
  rw [parse_any_ensureNl]
  cases hm : parse_conflict_marker_any_len l with
  | none => rfl
  | some mk =>
    have hb := hc mk hm
    have hlt : ¬ e ≤ mk.len := by omega
    simp [hlt]

/-- Marker parsing through a prefixed first byte: either the run stops
immediately, or the rest of the line parses with a one-shorter run. -/
theorem parse_any_cons_pfx (p : Nat) (k : ConflictMarkerLineChar)
    (hp : ConflictMarkerLineChar.parse_byte p = some k) (y : BStr)
    (mk : ConflictMarkerLine)
    (h : parse_conflict_marker_any_len (p :: y) = some mk) :
    mk.kind = k ∧ (mk.len = 1 ∨
      parse_conflict_marker_any_len y = some ⟨k, mk.len - 1⟩) := by
  rw [parse_any_cons, hp] at h
  simp only at h
  have htw : (p :: y).takeWhile (fun x => x = p)
      = p :: y.takeWhile (fun x => x = p) := by
    simp [List.takeWhile]
  rw [htw, List.length_cons, List.drop_succ_cons, drop_length_takeWhile]
    at h
  have hyshape : y = List.replicate
        ((y.takeWhile (fun x => x = p)).length) p
      ++ y.dropWhile (fun x => x = p) := by
    conv_lhs => rw [← List.takeWhile_append_dropWhile
      (p := fun x => x = p) (l := y)]
    rw [← takeWhile_eq_replicate]
  cases hdw : y.dropWhile (fun x => x = p) with
  | nil =>
    rw [hdw, List.head?_nil] at h
    simp only at h
    have hmk : mk = ⟨k, (y.takeWhile (fun x => x = p)).length + 1⟩ := by
      injection h with h2
      exact h2.symm
    subst hmk
    refine ⟨rfl, ?_⟩
    by_cases h0 : (y.takeWhile (fun x => x = p)).length = 0
    · left
      simp only [h0]
    · right
      rw [hdw, List.append_nil] at hyshape
      have key := parse_any_run p k hp
        ((y.takeWhile (fun x => x = p)).length) (by omega) []
        (fun c hc => by simp at hc)
      rw [List.append_nil] at key
      conv_lhs => rw [hyshape]
      rw [key]
      simp only [Nat.add_sub_cancel]
  | cons c d' =>
    rw [hdw, List.head?_cons] at h
    simp only at h
    by_cases hws : is_ascii_whitespace c = true
    · rw [if_pos hws] at h
      have hmk : mk = ⟨k, (y.takeWhile (fun x => x = p)).length + 1⟩ := by
        injection h with h2
        exact h2.symm
      subst hmk
      refine ⟨rfl, ?_⟩
      by_cases h0 : (y.takeWhile (fun x => x = p)).length = 0
      · left
        simp only [h0]
      · right
        have hcp : ¬ c = p := by
          have hh := head_dropWhile_not (fun x => x = p) y c
            (by rw [hdw]; rfl)
          simpa using hh
        rw [hdw] at hyshape
        have key := parse_any_run p k hp
          ((y.takeWhile (fun x => x = p)).length) (by omega) (c :: d')
          (fun c0 hc0 => by
            rw [List.head?_cons] at hc0
            injection hc0 with hc0
            subst hc0
            exact ⟨hws, hcp⟩)
        conv_lhs => rw [hyshape]
        rw [key]
        simp only [Nat.add_sub_cancel]
    · rw [if_neg hws] at h
      cases h

/-- A `-` or `+` prefixed rendered diff line is not a structural marker
at `e` when the content's marker-like runs stay 4 short of `e`. -/
theorem pfx_line_not_marker (e : Nat) (he : 2 ≤ e) (p : Nat)
    (hp : p = 45 ∨ p = 43) (l : BStr)
    (hc : ∀ mk, parse_conflict_marker_any_len l = some mk →
      mk.len + 4 ≤ e) :
    parse_conflict_marker (p :: ensureNl l) e = none := by
  have hpk : ∃ k, ConflictMarkerLineChar.parse_byte p = some k := by
    rcases hp with h | h <;> subst h
    · exact ⟨ConflictMarkerLineChar.Remove, rfl⟩
    · exact ⟨ConflictMarkerLineChar.Add, rfl⟩
  obtain ⟨k, hk⟩ := hpk
  unfold parse_conflict_marker
  cases hm : parse_conflict_marker_any_len (p :: ensureNl l) with
  | none => rfl
  | some mk =>
    obtain ⟨_, hlen⟩ := parse_any_cons_pfx p k hk (ensureNl l) mk hm
    have hlt : ¬ e ≤ mk.len := by
      rcases hlen with h1 | h1
      · omega
      · rw [parse_any_ensureNl] at h1
        have hb := hc _ h1
        dsimp only at hb
        omega
    simp [hlt]

/-- A space-prefixed line is never a marker. -/
theorem space_line_not_marker (e : Nat) (y : BStr) :
    parse_conflict_marker (32 :: y) e = none := by
  unfold parse_conflict_marker
  rw [parse_any_cons]
  rfl

/-- `jjMarkOf` of a line that is no structural marker. -/
theorem jjMarkOf_none_of (e : Nat) (l : BStr)
    (h : parse_conflict_marker l e = none) : jjMarkOf e l = none := by
  unfold jjMarkOf
  rw [h]

/-- `jjMarkOf` of a recognized jj-kind marker line. -/
theorem jjMarkOf_some_of (e : Nat) (l : BStr) (k : ConflictMarkerLineChar)
    (h : parse_conflict_marker l e = some k)
    (hk : k = ConflictMarkerLineChar.Diff
      ∨ k = ConflictMarkerLineChar.Remove
      ∨ k = ConflictMarkerLineChar.Add) : jjMarkOf e l = some k := by
  unfold jjMarkOf
  rw [h]
  rcases hk with h1 | h1 | h1 <;> subst h1 <;> rfl

/-- `isGitMarkLine` of a line that is no structural marker. -/
theorem gitMark_false_of_none (e : Nat) (l : BStr)
    (h : parse_conflict_marker l e = none) : isGitMarkLine e l = false := by
  unfold isGitMarkLine
  rw [h]

/-! ### Rendered diff bodies -/

/-- `ensureNl` of a nonempty string is nonempty. -/
theorem ensureNl_ne_nil (l : BStr) (h : l ≠ []) : ensureNl l ≠ [] := by
  intro he
  unfold ensureNl at he
  exact h (List.append_eq_nil.mp he).1

/-- The interior of `ensureNl` of a proper line has no newline. -/
theorem ensureNl_interior (l : BStr) (h : NlLine l) :
    ∀ x ∈ (ensureNl l).dropLast, x ≠ 10 := by
  have hx : l.getLast? = some (l.getLast h.1) :=
    List.getLast?_eq_getLast _ h.1
  by_cases hc : l.getLast h.1 = 10
  · rw [hc] at hx
    rw [ensureNl_of_nl l hx]
    exact h.2
  · rw [ensureNl_of_no l _ hx hc, List.dropLast_concat]
    intro x hmem
    have hll := List.dropLast_append_getLast h.1
    conv at hmem => rw [← hll]
    rcases List.mem_append.mp hmem with h1 | h1
    · exact h.2 x h1
    · simp at h1
      subst h1
      exact hc

/-- A prefixed, newline-forced content line is a proper line. -/
theorem nlline_render (p : Nat) (hp : p ≠ 10) (l : BStr) (h : NlLine l) :
    NlLine (p :: ensureNl l) := by
  have hene : ensureNl l ≠ [] := ensureNl_ne_nil l h.1
  refine ⟨by simp, ?_⟩
  intro y hy
  rw [List.dropLast_cons_of_ne_nil hene] at hy
  rcases List.mem_cons.mp hy with h1 | h1
  · subst h1; exact hp
  · exact ensureNl_interior l h y h1

/-- A prefixed, newline-forced content line ends in a newline. -/
theorem render_last (p : Nat) (l : BStr) (h : NlLine l) :
    (p :: ensureNl l).getLast? = some 10 := by
  have hene : ensureNl l ≠ [] := ensureNl_ne_nil l h.1
  have hel : (ensureNl l).getLast? = some 10 := by
    rcases ensureNl_last l with h1 | h1
    · exact absurd h1 hene
    · exact h1
  rw [show p :: ensureNl l = [p] ++ ensureNl l from rfl,
    getLast_append_ne _ _ hene]
  exact hel

/-- A rendered region is empty or ends in a newline. -/
theorem render_lastnl (p : Nat) (c : BStr) :
    renderLinesWith p c = [] ∨ (renderLinesWith p c).getLast? = some 10 := by
  unfold renderLinesWith
  refine cat_last_nl _ ?_
  intro l hl
  rcases List.mem_map.mp hl with ⟨l0, hl0, rfl⟩
  exact Or.inr (render_last p l0 ((linesOk_linesWT c).1 l0 hl0))

/-- The lines of a rendered region are the prefixed content lines. -/
theorem linesWT_render (p : Nat) (hp : p ≠ 10) (c : BStr) :
    linesWT (renderLinesWith p c)
      = (linesWT c).map (fun l => p :: ensureNl l) := by
  unfold renderLinesWith
  refine linesWT_cat _ ⟨?_, ?_⟩
  · intro x hx
    rcases List.mem_map.mp hx with ⟨l, hl, rfl⟩
    exact nlline_render p hp l ((linesOk_linesWT c).1 l hl)
  · intro x hx
    have hx' := List.dropLast_subset _ hx
    rcases List.mem_map.mp hx' with ⟨l, hl, rfl⟩
    exact render_last p l ((linesOk_linesWT c).1 l hl)

/-- Rendering the concatenation of a well-formed line list. -/
theorem render_cat (p : Nat) (L : List BStr) (h : LinesOk L) :
    renderLinesWith p (cat L)
      = cat (L.map (fun l => p :: ensureNl l)) := by
  unfold renderLinesWith
  rw [linesWT_cat L h]

/-- The diff-section extractions distribute over appended line lists. -/
theorem diffParts_append (A B : List BStr) :
    diffRemovePart (A ++ B) = diffRemovePart A ++ diffRemovePart B
    ∧ diffAddPart (A ++ B) = diffAddPart A ++ diffAddPart B := by
  constructor
  · unfold diffRemovePart
    rw [List.filterMap_append, cat_append]
  · unfold diffAddPart
    rw [List.filterMap_append, cat_append]

/-- Extractions from minus-prefixed rendered lines. -/
theorem diffParts_map45 (ls : List BStr) :
    diffRemovePart (ls.map (fun l => 45 :: ensureNl l))
      = cat (ls.map ensureNl)
    ∧ diffAddPart (ls.map (fun l => 45 :: ensureNl l)) = [] := by
  induction ls with
  | nil => exact ⟨rfl, rfl⟩
  | cons x rest ih =>
    constructor
    · rw [List.map_cons, (diffParts_cons _ _).1, ih.1, List.map_cons,
        cat_cons]
      congr 1
      simp [diffRemovePart, List.filterMap_cons, cat]
    · rw [List.map_cons, (diffParts_cons _ _).2, ih.2]
      simp [diffAddPart, List.filterMap_cons, cat]

/-- Extractions from plus-prefixed rendered lines. -/
theorem diffParts_map43 (ls : List BStr) :
    diffRemovePart (ls.map (fun l => 43 :: ensureNl l)) = []
    ∧ diffAddPart (ls.map (fun l => 43 :: ensureNl l))
      = cat (ls.map ensureNl) := by
  induction ls with
  | nil => exact ⟨rfl, rfl⟩
  | cons x rest ih =>
    constructor
    · rw [List.map_cons, (diffParts_cons _ _).1, ih.1]
      simp [diffRemovePart, List.filterMap_cons, cat]
    · rw [List.map_cons, (diffParts_cons _ _).2, ih.2, List.map_cons,
        cat_cons]
      congr 1
      simp [diffAddPart, List.filterMap_cons, cat]

/-- Extractions from space-prefixed rendered lines. -/
theorem diffParts_map32 (ls : List BStr) :
    diffRemovePart (ls.map (fun l => 32 :: ensureNl l))
      = cat (ls.map ensureNl)
    ∧ diffAddPart (ls.map (fun l => 32 :: ensureNl l))
      = cat (ls.map ensureNl) := by
  induction ls with
  | nil => exact ⟨rfl, rfl⟩
  | cons x rest ih =>
    constructor
    · rw [List.map_cons, (diffParts_cons _ _).1, ih.1, List.map_cons,
        cat_cons]
      congr 1
      simp [diffRemovePart, List.filterMap_cons, cat]
    · rw [List.map_cons, (diffParts_cons _ _).2, ih.2, List.map_cons,
        cat_cons]
      congr 1
      simp [diffAddPart, List.filterMap_cons, cat]

/-- Unfolding `commonPre` on two cons cells. -/
theorem commonPre_cons {α : Type} [DecidableEq α] (x y : α)
    (xs ys : List α) :
    commonPre (x :: xs) (y :: ys)
      = if x = y then
          ((x :: (commonPre xs ys).1, (commonPre xs ys).2.1,
            (commonPre xs ys).2.2) : List α × List α × List α)
        else ([], x :: xs, y :: ys) := rfl

/-- `commonPre` with an empty left list. -/
theorem commonPre_nil_left {α : Type} [DecidableEq α] (ys : List α) :
    commonPre ([] : List α) ys = ([], [], ys) := by
  cases ys <;> rfl

/-- `commonPre` with an empty right list. -/
theorem commonPre_nil_right {α : Type} [DecidableEq α] (xs : List α) :
    commonPre xs ([] : List α) = ([], xs, []) := by
  cases xs <;> rfl

/-- `commonPre` decomposes both inputs around the shared prefix. -/
theorem commonPre_spec {α : Type} [DecidableEq α] :
    ∀ xs ys : List α,
      xs = (commonPre xs ys).1 ++ (commonPre xs ys).2.1
        ∧ ys = (commonPre xs ys).1 ++ (commonPre xs ys).2.2
  | [], ys => by rw [commonPre_nil_left]; exact ⟨rfl, rfl⟩
  | x :: xs', [] => by rw [commonPre_nil_right]; exact ⟨rfl, rfl⟩
  | x :: xs', y :: ys' => by
    rw [commonPre_cons]
    by_cases hxy : x = y
    · subst hxy
      rw [if_pos rfl]
      obtain ⟨h1, h2⟩ := commonPre_spec xs' ys'
      constructor
      · dsimp only
        rw [List.cons_append, ← h1]
      · dsimp only
        rw [List.cons_append, ← h2]
    · rw [if_neg hxy]
      exact ⟨rfl, rfl⟩

/-- `commonSuf` decomposes both inputs around the shared suffix. -/
theorem commonSuf_spec {α : Type} [DecidableEq α] (xs ys : List α) :
    xs = (commonSuf xs ys).2.1 ++ (commonSuf xs ys).1
      ∧ ys = (commonSuf xs ys).2.2 ++ (commonSuf xs ys).1 := by
  unfold commonSuf
  obtain ⟨h1, h2⟩ := commonPre_spec xs.reverse ys.reverse
  constructor
  · dsimp only
    rw [← List.reverse_append, ← h1, List.reverse_reverse]
  · dsimp only
    rw [← List.reverse_append, ← h2, List.reverse_reverse]

/-- Appending empty-or-newline-terminated pieces. -/
theorem lastnl_append (A B : BStr) (hA : A = [] ∨ A.getLast? = some 10)
    (hB : B = [] ∨ B.getLast? = some 10) :
    A ++ B = [] ∨ (A ++ B).getLast? = some 10 := by
  rcases hB with h | h
  · subst h
    rw [List.append_nil]
    exact hA
  · right
    have hne : B ≠ [] := by
      intro he
      rw [he] at h
      cases h
    rw [getLast_append_ne _ _ hne]
    exact h

/-- Core facts about a rendered diff body over a given line
decomposition of the two sides. -/
theorem diff_body_core (e : Nat) (he : 2 ≤ e) (la lb : List BStr)
    (pre xm ym suf : List BStr)
    (hla : la = pre ++ (xm ++ suf)) (hlb : lb = pre ++ (ym ++ suf))
    (hoka : LinesOk la) (hokb : LinesOk lb)
    (D : List DiffHunk)
    (hD : D = (if pre = [] then []
          else [⟨DiffHunkKind.Matching, cat pre, cat pre⟩])
        ++ (if xm = [] ∧ ym = [] then []
          else [⟨DiffHunkKind.Different, cat xm, cat ym⟩])
        ++ (if suf = [] then []
          else [⟨DiffHunkKind.Matching, cat suf, cat suf⟩]))
    (hca : ∀ l ∈ la, ∀ mk, parse_conflict_marker_any_len l = some mk →
      mk.len + 4 ≤ e)
    (hcb : ∀ l ∈ lb, ∀ mk, parse_conflict_marker_any_len l = some mk →
      mk.len + 4 ≤ e) :
    diffRemovePart (linesWT (write_diff_hunks D)) = cat (la.map ensureNl)
    ∧ diffAddPart (linesWT (write_diff_hunks D)) = cat (lb.map ensureNl)
    ∧ (∀ l ∈ linesWT (write_diff_hunks D),
        diffLineOk l = true ∧ parse_conflict_marker l e = none)
    ∧ (write_diff_hunks D = []
        ∨ (write_diff_hunks D).getLast? = some 10) := by
  subst hla
  subst hlb
  have hokpre := (LinesOk_append _ _ hoka).1
  have hokxs := (LinesOk_append _ _ hoka).2
  have hokxm := (LinesOk_append _ _ hokxs).1
  have hoksuf := (LinesOk_append _ _ hokxs).2
  have hokym := (LinesOk_append _ _ (LinesOk_append _ _ hokb).2).1
  have hbytes : write_diff_hunks D
      = renderLinesWith 32 (cat pre)
        ++ (renderLinesWith 45 (cat xm) ++ renderLinesWith 43 (cat ym))
        ++ renderLinesWith 32 (cat suf) := by
    subst hD
    unfold write_diff_hunks
    rw [List.map_append, List.map_append, cat_append, cat_append]
    congr 1
    · congr 1
      · by_cases h1 : pre = []
        · rw [if_pos h1, h1]
          rfl
        · rw [if_neg h1]
          simp [cat]
      · by_cases h2 : xm = [] ∧ ym = []
        · rw [if_pos h2, h2.1, h2.2]
          rfl
        · rw [if_neg h2]
          simp [cat]
    · by_cases h3 : suf = []
      · rw [if_pos h3, h3]
        rfl
      · rw [if_neg h3]
        simp [cat]
  have hlines : linesWT (write_diff_hunks D)
      = pre.map (fun l => 32 :: ensureNl l)
        ++ ((xm.map (fun l => 45 :: ensureNl l))
          ++ (ym.map (fun l => 43 :: ensureNl l)))
        ++ suf.map (fun l => 32 :: ensureNl l) := by
    rw [hbytes,
      linesWT_append _ _ (lastnl_append _ _ (render_lastnl 32 (cat pre))
        (lastnl_append _ _ (render_lastnl 45 (cat xm))
          (render_lastnl 43 (cat ym)))),
      linesWT_append _ _ (render_lastnl 32 (cat pre)),
      linesWT_append _ _ (render_lastnl 45 (cat xm)),
      linesWT_render 32 (by decide) (cat pre), linesWT_cat pre hokpre,
      linesWT_render 45 (by decide) (cat xm), linesWT_cat xm hokxm,
      linesWT_render 43 (by decide) (cat ym), linesWT_cat ym hokym,
      linesWT_render 32 (by decide) (cat suf), linesWT_cat suf hoksuf]
  refine ⟨?_, ?_, ?_, ?_⟩
  · rw [hlines, (diffParts_append _ _).1, (diffParts_append _ _).1,
      (diffParts_append _ _).1, (diffParts_map32 pre).1,
      (diffParts_map45 xm).1, (diffParts_map43 ym).1,
      (diffParts_map32 suf).1, List.append_nil]
    conv_rhs => rw [List.map_append, List.map_append, cat_append,
      cat_append]
    rw [List.append_assoc]
  · rw [hlines, (diffParts_append _ _).2, (diffParts_append _ _).2,
      (diffParts_append _ _).2, (diffParts_map32 pre).2,
      (diffParts_map45 xm).2, (diffParts_map43 ym).2,
      (diffParts_map32 suf).2, List.nil_append]
    conv_rhs => rw [List.map_append, List.map_append, cat_append,
      cat_append]
    rw [List.append_assoc]
  · intro l hl
    rw [hlines] at hl
    rcases List.mem_append.mp hl with hl1 | hl1
    · rcases List.mem_append.mp hl1 with hl2 | hl2
      · rcases List.mem_map.mp hl2 with ⟨l0, hl0, rfl⟩
        exact ⟨rfl, space_line_not_marker e _⟩
      · rcases List.mem_append.mp hl2 with hl3 | hl3
        · rcases List.mem_map.mp hl3 with ⟨l0, hl0, rfl⟩
          refine ⟨rfl, pfx_line_not_marker e he 45 (Or.inl rfl) l0 ?_⟩
          exact hca l0
            (List.mem_append_right _ (List.mem_append_left _ hl0))
        · rcases List.mem_map.mp hl3 with ⟨l0, hl0, rfl⟩
          refine ⟨rfl, pfx_line_not_marker e he 43 (Or.inr rfl) l0 ?_⟩
          exact hcb l0
            (List.mem_append_right _ (List.mem_append_left _ hl0))
    · rcases List.mem_map.mp hl1 with ⟨l0, hl0, rfl⟩
      exact ⟨rfl, space_line_not_marker e _⟩
  · rw [hbytes]
    exact lastnl_append _ _
      (lastnl_append _ _ (render_lastnl _ _)
        (lastnl_append _ _ (render_lastnl _ _) (render_lastnl _ _)))
      (render_lastnl _ _)

/-- Facts about the rendered diff body of `diff_by_line`: the two
per-side extractions recover the newline-forced inputs, every line is
diff-shaped and unmarked, and the body is newline-terminated. -/
theorem diff_body_facts (a b : BStr) (e : Nat) (he : 2 ≤ e)
    (hca : ∀ l ∈ linesWT a, ∀ mk,
      parse_conflict_marker_any_len l = some mk → mk.len + 4 ≤ e)
    (hcb : ∀ l ∈ linesWT b, ∀ mk,
      parse_conflict_marker_any_len l = some mk → mk.len + 4 ≤ e) :
    diffRemovePart (linesWT (write_diff_hunks (diff_by_line a b)))
      = ensureNl a
    ∧ diffAddPart (linesWT (write_diff_hunks (diff_by_line a b)))
      = ensureNl b
    ∧ (∀ l ∈ linesWT (write_diff_hunks (diff_by_line a b)),
        diffLineOk l = true ∧ parse_conflict_marker l e = none)
    ∧ (write_diff_hunks (diff_by_line a b) = []
        ∨ (write_diff_hunks (diff_by_line a b)).getLast? = some 10) := by
  obtain ⟨hp1, hp2⟩ := commonPre_spec (linesWT a) (linesWT b)
  obtain ⟨hs1, hs2⟩ := commonSuf_spec
    (commonPre (linesWT a) (linesWT b)).2.1
    (commonPre (linesWT a) (linesWT b)).2.2
  have hcore := diff_body_core e he (linesWT a) (linesWT b)
    (commonPre (linesWT a) (linesWT b)).1
    (commonSuf (commonPre (linesWT a) (linesWT b)).2.1
      (commonPre (linesWT a) (linesWT b)).2.2).2.1
    (commonSuf (commonPre (linesWT a) (linesWT b)).2.1
      (commonPre (linesWT a) (linesWT b)).2.2).2.2
    (commonSuf (commonPre (linesWT a) (linesWT b)).2.1
      (commonPre (linesWT a) (linesWT b)).2.2).1
    (by conv_lhs => rw [hp1, hs1])
    (by conv_lhs => rw [hp2, hs2])
    (linesOk_linesWT a) (linesOk_linesWT b)
    (diff_by_line a b) rfl hca hcb
  rw [cat_map_ensureNl, cat_map_ensureNl] at hcore
  exact hcore

/-! ### Section-structured jj materialization -/

/-- A rendered jj-style section: a side snapshot, a base snapshot, or a
diff of a base against a side. -/
inductive JJSec
  | sideS (i : Nat) (data : BStr)
  | baseS (bn : BStr) (data : BStr)
  | diffS (bn : BStr) (i : Nat) (left right : BStr)
deriving DecidableEq, Repr

/-- The bytes of a rendered section. -/
def renderSec (e : Nat) : JJSec → BStr
  | JJSec.sideS i d => write_side e i d
  | JJSec.baseS bn d => write_base e bn d
  | JJSec.diffS bn i l r => write_diff e bn i (diff_by_line l r)

/-- The remove buffers a parsed section contributes. -/
def secRemC : JJSec → List BStr
  | JJSec.sideS _ _ => []
  | JJSec.baseS _ d => [ensureNl d]
  | JJSec.diffS _ _ l _ => [ensureNl l]

/-- The add buffers a parsed section contributes. -/
def secAddC : JJSec → List BStr
  | JJSec.sideS _ d => [ensureNl d]
  | JJSec.baseS _ _ => []
  | JJSec.diffS _ _ _ r => [ensureNl r]

/-- The parser state after a section. -/
def stOf : JJSec → JJState
  | JJSec.sideS _ _ => JJState.SAdd
  | JJSec.baseS _ _ => JJState.SRemove
  | JJSec.diffS _ _ _ _ => JJState.SDiff

/-- Per-section remove buffers of a section list. -/
def secsRem : List JJSec → List BStr
  | [] => []
  | s :: t => secRemC s ++ secsRem t

/-- Per-section add buffers of a section list. -/
def secsAdd : List JJSec → List BStr
  | [] => []
  | s :: t => secAddC s ++ secsAdd t

/-- Cleanliness of the data carried by a section. -/
def SecOk (e : Nat) : JJSec → Prop
  | JJSec.sideS _ d => cleanT e d
  | JJSec.baseS bn d => NoNl bn ∧ cleanT e d
  | JJSec.diffS bn _ l r => NoNl bn ∧ cleanT e l ∧ cleanT e r

/-- Rendered decimal digits carry no newline byte. -/
theorem digitsAux_no_nl (fuel : Nat) :
    ∀ n, ∀ b ∈ digitsAux fuel n, b ≠ 10 := by
  induction fuel with
  | zero => intro n b hb; simp [digitsAux] at hb
  | succ f ih =>
    intro n b hb
    unfold digitsAux at hb
    by_cases h : n < 10
    · rw [if_pos h] at hb
      simp at hb
      subst hb
      omega
    · rw [if_neg h] at hb
      rcases List.mem_append.mp hb with h1 | h1
      · exact ih (n / 10) b h1
      · simp at h1
        subst h1
        omega

/-- `natStr` carries no newline byte. -/
theorem natStr_no_nl (n : Nat) : NoNl (natStr n) :=
  fun b hb => digitsAux_no_nl _ _ b hb

/-- `NoNl` is closed under append. -/
theorem NoNl_append (A B : BStr) (hA : NoNl A) (hB : NoNl B) :
    NoNl (A ++ B) := by
  intro b hb
  rcases List.mem_append.mp hb with h | h
  · exact hA b h
  · exact hB b h

/-- The optional no-EOL comment carries no newline byte. -/
theorem NoNl_maybe_no_eol (d : BStr) : NoNl (maybe_no_eol_comment d) := by
  unfold maybe_no_eol_comment
  by_cases h : has_no_eol d = true
  · rw [if_pos h]; decide
  · rw [if_neg h]; decide

/-- The diff no-EOL comment carries no newline byte. -/
theorem NoNl_diff_no_eol (D : List DiffHunk) :
    NoNl (diff_no_eol_comment D) := by
  intro b hb
  unfold diff_no_eol_comment at hb
  simp only [] at hb
  split_ifs at hb
  · exact (by decide : NoNl no_eol_comment_str) b hb
  · exact (by decide : NoNl (bs (" (adds terminating newline)"))) b hb
  · exact (by decide : NoNl (bs (" (removes terminating newline)"))) b hb
  · cases hb

/-- A written marker followed by an empty-or-terminated body ends in a
newline. -/
theorem lastnl_wcm_append (k : ConflictMarkerLineChar) (e : Nat)
    (suf X : BStr) (hX : X = [] ∨ X.getLast? = some 10) :
    (write_conflict_marker k e suf ++ X).getLast? = some 10 := by
  rcases hX with h | h
  · rw [h, List.append_nil]
    exact wcm_last _ _ _
  · have hne : X ≠ [] := by
      intro he
      rw [he] at h
      cases h
    rw [getLast_append_ne _ _ hne]
    exact h

/-- `write_diff_hunks` is empty or ends in a newline. -/
theorem wdh_lastnl (D : List DiffHunk) :
    write_diff_hunks D = []
      ∨ (write_diff_hunks D).getLast? = some 10 := by
  unfold write_diff_hunks
  refine cat_last_nl _ ?_
  intro x hx
  rcases List.mem_map.mp hx with ⟨h, hh, rfl⟩
  cases hk : h.kind with
  | Matching =>
    exact render_lastnl _ _
  | Different =>
    exact lastnl_append _ _ (render_lastnl _ _) (render_lastnl _ _)

/-- A rendered section is empty or ends in a newline. -/
theorem renderSec_lastnl (e : Nat) (s : JJSec) :
    renderSec e s = [] ∨ (renderSec e s).getLast? = some 10 := by
  cases s with
  | sideS i d =>
    exact Or.inr (lastnl_wcm_append _ _ _ _ (ensureNl_last d))
  | baseS bn d =>
    exact Or.inr (lastnl_wcm_append _ _ _ _ (ensureNl_last d))
  | diffS bn i l r =>
    exact Or.inr (lastnl_wcm_append _ _ _ _ (wdh_lastnl _))

/-- The line list of a rendered side snapshot. -/
theorem side_lines (e i : Nat) (d : BStr) :
    linesWT (write_side e i d)
      = write_conflict_marker ConflictMarkerLineChar.Add e
          (bs ("Contents of side #") ++ natStr (i + 1)
            ++ maybe_no_eol_comment d)
        :: (linesWT d).map ensureNl := by
  unfold write_side
  rw [linesWT_append _ _ (Or.inr (wcm_last _ _ _)),
    linesWT_wcm _ _ _ (NoNl_append _ _
      (NoNl_append _ _ (by decide) (natStr_no_nl _))
      (NoNl_maybe_no_eol d)),
    linesWT_ensureNl]
  rfl

/-- The line list of a rendered base snapshot. -/
theorem base_lines (e : Nat) (bn : BStr) (d : BStr) (hbn : NoNl bn) :
    linesWT (write_base e bn d)
      = write_conflict_marker ConflictMarkerLineChar.Remove e
          (bs ("Contents of ") ++ bn ++ maybe_no_eol_comment d)
        :: (linesWT d).map ensureNl := by
  unfold write_base
  rw [linesWT_append _ _ (Or.inr (wcm_last _ _ _)),
    linesWT_wcm _ _ _ (NoNl_append _ _
      (NoNl_append _ _ (by decide) hbn)
      (NoNl_maybe_no_eol d)),
    linesWT_ensureNl]
  rfl

/-- The line list of a rendered diff section. -/
theorem write_diff_lines (e : Nat) (bn : BStr) (i : Nat)
    (D : List DiffHunk) (hbn : NoNl bn) :
    linesWT (write_diff e bn i D)
      = write_conflict_marker ConflictMarkerLineChar.Diff e
          (bs ("Changes from ") ++ bn ++ bs (" to side #")
            ++ natStr (i + 1) ++ diff_no_eol_comment D)
        :: linesWT (write_diff_hunks D) := by
  unfold write_diff
  rw [linesWT_append _ _ (Or.inr (wcm_last _ _ _)),
    linesWT_wcm _ _ _ (NoNl_append _ _
      (NoNl_append _ _
        (NoNl_append _ _ (NoNl_append _ _ (by decide) hbn) (by decide))
        (natStr_no_nl _))
      (NoNl_diff_no_eol D))]
  rfl

/-- Folding the jj parser across one rendered section. -/
theorem secFold (e : Nat) (he : 2 ≤ e) (s : JJSec) (hok : SecOk e s) :
    ∀ (st : JJState) (r a : List BStr),
      (linesWT (renderSec e s)).foldl (jjStep e) (some (st, r, a))
        = some (stOf s, r ++ secRemC s, a ++ secAddC s) := by
  cases s with
  | sideS i d =>
    intro st r a
    have hmarks : ∀ x ∈ (linesWT d).map ensureNl, jjMarkOf e x = none := by
      intro x hx
      rcases List.mem_map.mp hx with ⟨l0, hl0, rfl⟩
      exact jjMarkOf_none_of e _ (content_not_marker e l0 (hok l0 hl0))
    rw [show renderSec e (JJSec.sideS i d) = write_side e i d from rfl,
      side_lines e i d, List.foldl_cons,
      (jjStep_mark e _ st r a).2.2 (jjMarkOf_some_of _ _ _
        (wcm_parse _ _ (by omega) _) (by simp)),
      jjRun_add e _ hmarks r (a ++ [[]]),
      appendLastB_snoc_nil, cat_map_ensureNl]
    simp [stOf, secRemC, secAddC]
  | baseS bn d =>
    intro st r a
    have hmarks : ∀ x ∈ (linesWT d).map ensureNl, jjMarkOf e x = none := by
      intro x hx
      rcases List.mem_map.mp hx with ⟨l0, hl0, rfl⟩
      exact jjMarkOf_none_of e _ (content_not_marker e l0 (hok.2 l0 hl0))
    rw [show renderSec e (JJSec.baseS bn d) = write_base e bn d from rfl,
      base_lines e bn d hok.1, List.foldl_cons,
      (jjStep_mark e _ st r a).2.1 (jjMarkOf_some_of _ _ _
        (wcm_parse _ _ (by omega) _) (by simp)),
      jjRun_remove e _ hmarks (r ++ [[]]) a,
      appendLastB_snoc_nil, cat_map_ensureNl]
    simp [stOf, secRemC, secAddC]
  | diffS bn i l0 r0 =>
    intro st r a
    obtain ⟨hrem, hadd, hcls, _⟩ :=
      diff_body_facts l0 r0 e he hok.2.1 hok.2.2
    have hmarks : ∀ x ∈ linesWT (write_diff_hunks (diff_by_line l0 r0)),
        jjMarkOf e x = none :=
      fun x hx => jjMarkOf_none_of e _ (hcls x hx).2
    have hlok : ∀ x ∈ linesWT (write_diff_hunks (diff_by_line l0 r0)),
        diffLineOk x = true :=
      fun x hx => (hcls x hx).1
    rw [show renderSec e (JJSec.diffS bn i l0 r0)
        = write_diff e bn i (diff_by_line l0 r0) from rfl,
      write_diff_lines e bn i _ hok.1, List.foldl_cons,
      (jjStep_mark e _ st r a).1 (jjMarkOf_some_of _ _ _
        (wcm_parse _ _ (by omega) _) (by simp)),
      jjRun_diff e _ hmarks hlok (r ++ [[]]) (a ++ [[]]),
      appendLastB_snoc_nil, appendLastB_snoc_nil, hrem, hadd]
    simp [stOf, secRemC, secAddC]

/-- Folding the jj parser across a rendered section list accumulates
the per-section buffers. -/
theorem secsFold (e : Nat) (he : 2 ≤ e) :
    ∀ (L : List JJSec), (∀ s ∈ L, SecOk e s) →
    ∀ (st : JJState) (r a : List BStr),
      ∃ st', (linesWT (cat (L.map (renderSec e)))).foldl (jjStep e)
          (some (st, r, a))
        = some (st', r ++ secsRem L, a ++ secsAdd L) := by
  intro L
  induction L with
  | nil =>
    intro _ st r a
    exact ⟨st, by simp [secsRem, secsAdd, cat, linesWT, linesWTAux]⟩
  | cons s rest ih =>
    intro hok st r a
    rw [List.map_cons, cat_cons,
      linesWT_append _ _ (renderSec_lastnl e s), List.foldl_append,
      secFold e he s (hok s (List.mem_cons_self _ _)) st r a]
    obtain ⟨st', hst'⟩ :=
      ih (fun x hx => hok x (List.mem_cons_of_mem s hx))
        (stOf s) (r ++ secRemC s) (a ++ secAddC s)
    refine ⟨st', ?_⟩
    rw [hst']
    simp [secsRem, secsAdd, List.append_assoc]

/-- Every line of a rendered section is a jj marker of the section's
kind or no structural marker at all. -/
theorem secLines_class (e : Nat) (he : 2 ≤ e) (s : JJSec)
    (hok : SecOk e s) :
    ∀ l ∈ linesWT (renderSec e s),
      parse_conflict_marker l e = none
      ∨ parse_conflict_marker l e = some ConflictMarkerLineChar.Diff
      ∨ parse_conflict_marker l e = some ConflictMarkerLineChar.Remove
      ∨ parse_conflict_marker l e = some ConflictMarkerLineChar.Add := by
  cases s with
  | sideS i d =>
    intro l hl
    rw [show renderSec e (JJSec.sideS i d) = write_side e i d from rfl,
      side_lines e i d] at hl
    rcases List.mem_cons.mp hl with h | h
    · subst h
      exact Or.inr (Or.inr (Or.inr (wcm_parse _ _ (by omega) _)))
    · rcases List.mem_map.mp h with ⟨l0, hl0, rfl⟩
      exact Or.inl (content_not_marker e l0 (hok l0 hl0))
  | baseS bn d =>
    intro l hl
    rw [show renderSec e (JJSec.baseS bn d) = write_base e bn d from rfl,
      base_lines e bn d hok.1] at hl
    rcases List.mem_cons.mp hl with h | h
    · subst h
      exact Or.inr (Or.inr (Or.inl (wcm_parse _ _ (by omega) _)))
    · rcases List.mem_map.mp h with ⟨l0, hl0, rfl⟩
      exact Or.inl (content_not_marker e l0 (hok.2 l0 hl0))
  | diffS bn i l0 r0 =>
    intro l hl
    rw [show renderSec e (JJSec.diffS bn i l0 r0)
        = write_diff e bn i (diff_by_line l0 r0) from rfl,
      write_diff_lines e bn i _ hok.1] at hl
    rcases List.mem_cons.mp hl with h | h
    · subst h
      exact Or.inr (Or.inl (wcm_parse _ _ (by omega) _))
    · exact Or.inl
        ((diff_body_facts l0 r0 e he hok.2.1 hok.2.2).2.2.1 l h).2

/-- Every line of a rendered section list is a jj marker or unmarked. -/
theorem secsLines_class (e : Nat) (he : 2 ≤ e) (L : List JJSec)
    (hok : ∀ s ∈ L, SecOk e s) :
    ∀ l ∈ linesWT (cat (L.map (renderSec e))),
      parse_conflict_marker l e = none
      ∨ parse_conflict_marker l e = some ConflictMarkerLineChar.Diff
      ∨ parse_conflict_marker l e = some ConflictMarkerLineChar.Remove
      ∨ parse_conflict_marker l e = some ConflictMarkerLineChar.Add := by
  induction L with
  | nil =>
    intro l hl
    simp [cat, linesWT, linesWTAux] at hl
  | cons s rest ih =>
    intro l hl
    rw [List.map_cons, cat_cons,
      linesWT_append _ _ (renderSec_lastnl e s)] at hl
    rcases List.mem_append.mp hl with h | h
    · exact secLines_class e he s (hok s (List.mem_cons_self _ _)) l h
    · exact ih (fun x hx => hok x (List.mem_cons_of_mem s hx)) l h

/-- The first line of a nonempty rendered section list is a jj marker. -/
theorem secs_head (e : Nat) (he : 2 ≤ e) (s : JJSec) (rest : List JJSec)
    (hok : SecOk e s) :
    ∃ m, (linesWT (cat ((s :: rest).map (renderSec e)))).head? = some m
      ∧ (parse_conflict_marker m e = some ConflictMarkerLineChar.Diff
        ∨ parse_conflict_marker m e = some ConflictMarkerLineChar.Remove
        ∨ parse_conflict_marker m e = some ConflictMarkerLineChar.Add) := by
  rw [List.map_cons, cat_cons, linesWT_append _ _ (renderSec_lastnl e s)]
  cases s with
  | sideS i d =>
    rw [show renderSec e (JJSec.sideS i d) = write_side e i d from rfl,
      side_lines e i d]
    exact ⟨_, rfl, Or.inr (Or.inr (wcm_parse _ _ (by omega) _))⟩
  | baseS bn d =>
    rw [show renderSec e (JJSec.baseS bn d) = write_base e bn d from rfl,
      base_lines e bn d hok.1]
    exact ⟨_, rfl, Or.inr (Or.inl (wcm_parse _ _ (by omega) _))⟩
  | diffS bn i l0 r0 =>
    rw [show renderSec e (JJSec.diffS bn i l0 r0)
        = write_diff e bn i (diff_by_line l0 r0) from rfl,
      write_diff_lines e bn i _ hok.1]
    exact ⟨_, rfl, Or.inl (wcm_parse _ _ (by omega) _)⟩

/-- A `get?` hit splits the `drop` at that index. -/
theorem get_drop_cons {α : Type} (l : List α) (n : Nat) (x : α)
    (h : l.get? n = some x) : l.drop n = x :: l.drop (n + 1) := by
  induction l generalizing n with
  | nil => cases h
  | cons y ys ih =>
    cases n with
    | zero =>
      injection h with h
      subst h
      rfl
    | succ n' => exact ih n' h

/-- The base name carries no newline byte. -/
theorem NoNl_baseName (nR bIdx : Nat) : NoNl (baseName nR bIdx) := by
  unfold baseName
  by_cases h : nR = 1
  · rw [if_pos h]; decide
  · rw [if_neg h]
    exact NoNl_append _ _ (by decide) (natStr_no_nl _)

/-- The section list built by `materialize_jj_style_conflict`'s loop
over the removes, with the final add index. -/
def jjSecsGo (style : ConflictMarkerStyle) (nRemoves : Nat)
    (adds : List BStr) :
    List BStr → Nat → Nat → List JJSec × Nat
  | [], _, add_index => ([], add_index)
  | left :: rest, base_index, add_index =>
    let bn := baseName nRemoves base_index
    match adds.get? add_index with
    | none =>
      let r := jjSecsGo style nRemoves adds rest (base_index + 1) add_index
      (JJSec.baseS bn left :: r.1, r.2)
    | some right1 =>
      if style ≠ ConflictMarkerStyle.Diff then
        let r := jjSecsGo style nRemoves adds rest (base_index + 1)
          (add_index + 1)
        (JJSec.sideS add_index right1 :: JJSec.baseS bn left :: r.1, r.2)
      else
        match adds.get? (add_index + 1) with
        | some right2 =>
          if diff_size (diff_by_line left right2)
              < diff_size (diff_by_line left right1) then
            let r := jjSecsGo style nRemoves adds rest (base_index + 1)
              (add_index + 2)
            (JJSec.sideS add_index right1
              :: JJSec.diffS bn (add_index + 1) left right2 :: r.1, r.2)
          else
            let r := jjSecsGo style nRemoves adds rest (base_index + 1)
              (add_index + 1)
            (JJSec.diffS bn add_index left right1 :: r.1, r.2)
        | none =>
          let r := jjSecsGo style nRemoves adds rest (base_index + 1)
            (add_index + 1)
          (JJSec.diffS bn add_index left right1 :: r.1, r.2)

/-- The loop of `materialize_jj_style_conflict` renders exactly the
section list of `jjSecsGo`. -/
theorem jjLoop_eq_secs (style : ConflictMarkerStyle) (e nR : Nat)
    (adds : List BStr) :
    ∀ (rem : List BStr) (bIdx aIdx : Nat),
      jjLoop style e nR adds rem bIdx aIdx
        = (cat ((jjSecsGo style nR adds rem bIdx aIdx).1.map
            (renderSec e)),
          (jjSecsGo style nR adds rem bIdx aIdx).2) := by
  intro rem
  induction rem with
  | nil => intro bIdx aIdx; rfl
  | cons left rest ih =>
    intro bIdx aIdx
    unfold jjLoop jjSecsGo
    cases hga : adds.get? aIdx with
    | none =>
      simp only [hga]
      rw [ih (bIdx + 1) aIdx]
      simp [cat_cons, renderSec]
    | some right1 =>
      simp only [hga]
      by_cases hstyle : style ≠ ConflictMarkerStyle.Diff
      · rw [if_pos hstyle, if_pos hstyle, ih (bIdx + 1) (aIdx + 1)]
        simp [cat_cons, renderSec, List.append_assoc]
      · rw [if_neg hstyle, if_neg hstyle]
        cases hga2 : adds.get? (aIdx + 1) with
        | none =>
          simp only [hga2]
          rw [ih (bIdx + 1) (aIdx + 1)]
          simp [cat_cons, renderSec]
        | some right2 =>
          simp only [hga2]
          by_cases hcmp : diff_size (diff_by_line left right2)
              < diff_size (diff_by_line left right1)
          · rw [if_pos hcmp, if_pos hcmp, ih (bIdx + 1) (aIdx + 2)]
            simp [cat_cons, renderSec, List.append_assoc]
          · rw [if_neg hcmp, if_neg hcmp, ih (bIdx + 1) (aIdx + 1)]
            simp [cat_cons, renderSec]

/-- The sections of the loop consume the removes in order and the adds
as a contiguous slice, and are clean when the inputs are. -/
theorem jjSecs_contribs (style : ConflictMarkerStyle) (nR : Nat)
    (adds : List BStr) (e : Nat)
    (hadds : ∀ v ∈ adds, cleanT e v) :
    ∀ (rem : List BStr), (∀ v ∈ rem, cleanT e v) →
    ∀ (bIdx aIdx : Nat), aIdx ≤ adds.length →
      aIdx ≤ (jjSecsGo style nR adds rem bIdx aIdx).2
      ∧ (jjSecsGo style nR adds rem bIdx aIdx).2 ≤ adds.length
      ∧ secsRem (jjSecsGo style nR adds rem bIdx aIdx).1
          = rem.map ensureNl
      ∧ secsAdd (jjSecsGo style nR adds rem bIdx aIdx).1
          = ((adds.drop aIdx).take
              ((jjSecsGo style nR adds rem bIdx aIdx).2 - aIdx)).map
            ensureNl
      ∧ ∀ s ∈ (jjSecsGo style nR adds rem bIdx aIdx).1, SecOk e s := by
  intro rem
  induction rem with
  | nil =>
    intro _ bIdx aIdx h
    refine ⟨Nat.le_refl _, h, rfl, ?_, ?_⟩
    · show secsAdd [] = ((adds.drop aIdx).take (aIdx - aIdx)).map ensureNl
      rw [Nat.sub_self]
      rfl
    · intro s hs
      exact absurd hs (List.not_mem_nil s)
  | cons left rest ih =>
    intro hrem bIdx aIdx h
    have hleft : cleanT e left := hrem left (List.mem_cons_self _ _)
    have hrest : ∀ v ∈ rest, cleanT e v :=
      fun v hv => hrem v (List.mem_cons_of_mem _ hv)
    unfold jjSecsGo
    cases hga : adds.get? aIdx with
    | none =>
      simp only [hga]
      obtain ⟨h1, h2, h3, h4, h5⟩ := ih hrest (bIdx + 1) aIdx h
      refine ⟨h1, h2, ?_, ?_, ?_⟩
      · simp only [secsRem, secRemC, List.map_cons]
        rw [h3]
        rfl
      · simp only [secsAdd, secAddC]
        rw [h4, List.nil_append]
      · intro s hs
        rcases List.mem_cons.mp hs with h6 | h6
        · subst h6
          exact ⟨NoNl_baseName _ _, hleft⟩
        · exact h5 s h6
    | some right1 =>
      simp only [hga]
      have hr1 : cleanT e right1 := hadds right1 (List.get?_mem hga)
      have hdrop : adds.drop aIdx = right1 :: adds.drop (aIdx + 1) :=
        get_drop_cons adds aIdx right1 hga
      have haIdx : aIdx < adds.length := (List.get?_eq_some.mp hga).1
      by_cases hstyle : style ≠ ConflictMarkerStyle.Diff
      · rw [if_pos hstyle]
        obtain ⟨h1, h2, h3, h4, h5⟩ :=
          ih hrest (bIdx + 1) (aIdx + 1) (by omega)
        refine ⟨by omega, h2, ?_, ?_, ?_⟩
        · simp only [secsRem, secRemC, List.map_cons, List.nil_append]
          rw [h3]
          rfl
        · simp only [secsAdd, secAddC]
          rw [h4, hdrop]
          have harr : (jjSecsGo style nR adds rest (bIdx + 1)
                (aIdx + 1)).2 - aIdx
              = ((jjSecsGo style nR adds rest (bIdx + 1)
                (aIdx + 1)).2 - (aIdx + 1)) + 1 := by omega
          rw [harr, List.take_succ_cons, List.map_cons]
          simp
        · intro s hs
          rcases List.mem_cons.mp hs with h6 | h6
          · subst h6
            exact hr1
          · rcases List.mem_cons.mp h6 with h7 | h7
            · subst h7
              exact ⟨NoNl_baseName _ _, hleft⟩
            · exact h5 s h7
      · rw [if_neg hstyle]
        cases hga2 : adds.get? (aIdx + 1) with
        | none =>
          simp only [hga2]
          obtain ⟨h1, h2, h3, h4, h5⟩ :=
            ih hrest (bIdx + 1) (aIdx + 1) (by omega)
          refine ⟨by omega, h2, ?_, ?_, ?_⟩
          · simp only [secsRem, secRemC, List.map_cons]
            rw [h3]
            rfl
          · simp only [secsAdd, secAddC]
            rw [h4, hdrop]
            have harr : (jjSecsGo style nR adds rest (bIdx + 1)
                  (aIdx + 1)).2 - aIdx
                = ((jjSecsGo style nR adds rest (bIdx + 1)
                  (aIdx + 1)).2 - (aIdx + 1)) + 1 := by omega
            rw [harr, List.take_succ_cons, List.map_cons]
            rfl
          · intro s hs
            rcases List.mem_cons.mp hs with h6 | h6
            · subst h6
              exact ⟨NoNl_baseName _ _, hleft, hr1⟩
            · exact h5 s h6
        | some right2 =>
          simp only [hga2]
          have hr2 : cleanT e right2 := hadds right2 (List.get?_mem hga2)
          have hdrop2 : adds.drop (aIdx + 1)
              = right2 :: adds.drop (aIdx + 2) :=
            get_drop_cons adds (aIdx + 1) right2 hga2
          have haIdx2 : aIdx + 1 < adds.length :=
            (List.get?_eq_some.mp hga2).1
          by_cases hcmp : diff_size (diff_by_line left right2)
              < diff_size (diff_by_line left right1)
          · rw [if_pos hcmp]
            obtain ⟨h1, h2, h3, h4, h5⟩ :=
              ih hrest (bIdx + 1) (aIdx + 2) (by omega)
            refine ⟨by omega, h2, ?_, ?_, ?_⟩
            · simp only [secsRem, secRemC, List.map_cons,
                List.nil_append]
              rw [h3]
              rfl
            · simp only [secsAdd, secAddC]
              rw [h4, hdrop, hdrop2]
              have harr : (jjSecsGo style nR adds rest (bIdx + 1)
                    (aIdx + 2)).2 - aIdx
                  = (((jjSecsGo style nR adds rest (bIdx + 1)
                    (aIdx + 2)).2 - (aIdx + 2)) + 1) + 1 := by omega
              rw [harr, List.take_succ_cons, List.take_succ_cons,
                List.map_cons, List.map_cons]
              simp
            · intro s hs
              rcases List.mem_cons.mp hs with h6 | h6
              · subst h6
                exact hr1
              · rcases List.mem_cons.mp h6 with h7 | h7
                · subst h7
                  exact ⟨NoNl_baseName _ _, hleft, hr2⟩
                · exact h5 s h7
          · rw [if_neg hcmp]
            obtain ⟨h1, h2, h3, h4, h5⟩ :=
              ih hrest (bIdx + 1) (aIdx + 1) (by omega)
            refine ⟨by omega, h2, ?_, ?_, ?_⟩
            · simp only [secsRem, secRemC, List.map_cons]
              rw [h3]
              rfl
            · simp only [secsAdd, secAddC]
              rw [h4, hdrop]
              have harr : (jjSecsGo style nR adds rest (bIdx + 1)
                    (aIdx + 1)).2 - aIdx
                  = ((jjSecsGo style nR adds rest (bIdx + 1)
                    (aIdx + 1)).2 - (aIdx + 1)) + 1 := by omega
              rw [harr, List.take_succ_cons, List.map_cons]
              rfl
            · intro s hs
              rcases List.mem_cons.mp hs with h6 | h6
              · subst h6
                exact ⟨NoNl_baseName _ _, hleft, hr1⟩
              · exact h5 s h6

/-- The trailing side sections for the adds not consumed by the loop. -/
def trailSecs (adds : List BStr) (k : Nat) : List JJSec :=
  (adds.enum.drop k).map (fun p => JJSec.sideS p.1 p.2)

/-- Rendering the trailing sections gives the trailing snapshot bytes. -/
theorem trail_render (e : Nat) (adds : List BStr) (k : Nat) :
    cat ((trailSecs adds k).map (renderSec e))
      = cat ((adds.enum.drop k).map (fun p => write_side e p.1 p.2)) := by
  unfold trailSecs
  rw [List.map_map]
  rfl

/-- The per-section buffers distribute over appended section lists. -/
theorem secsRem_append (A B : List JJSec) :
    secsRem (A ++ B) = secsRem A ++ secsRem B
    ∧ secsAdd (A ++ B) = secsAdd A ++ secsAdd B := by
  induction A with
  | nil => exact ⟨rfl, rfl⟩
  | cons s rest ih =>
    constructor
    · show secRemC s ++ secsRem (rest ++ B)
        = (secRemC s ++ secsRem rest) ++ secsRem B
      rw [ih.1, List.append_assoc]
    · show secAddC s ++ secsAdd (rest ++ B)
        = (secAddC s ++ secsAdd rest) ++ secsAdd B
      rw [ih.2, List.append_assoc]

/-- The trailing sections contribute exactly the remaining adds. -/
theorem trail_contribs (adds : List BStr) (k : Nat) :
    secsRem (trailSecs adds k) = []
    ∧ secsAdd (trailSecs adds k) = (adds.drop k).map ensureNl := by
  have main : ∀ ps : List (Nat × BStr),
      secsRem (ps.map (fun p => JJSec.sideS p.1 p.2)) = []
      ∧ secsAdd (ps.map (fun p => JJSec.sideS p.1 p.2))
        = ps.map (fun p => ensureNl p.2) := by
    intro ps
    induction ps with
    | nil => exact ⟨rfl, rfl⟩
    | cons p rest ih =>
      constructor
      · show secRemC (JJSec.sideS p.1 p.2)
            ++ secsRem (rest.map (fun p => JJSec.sideS p.1 p.2)) = []
        rw [ih.1]
        rfl
      · show secAddC (JJSec.sideS p.1 p.2)
            ++ secsAdd (rest.map (fun p => JJSec.sideS p.1 p.2))
          = (p :: rest).map (fun p => ensureNl p.2)
        rw [ih.2]
        rfl
  unfold trailSecs
  refine ⟨(main _).1, ?_⟩
  rw [(main _).2,
    show (fun p : Nat × BStr => ensureNl p.2) = ensureNl ∘ Prod.snd
      from rfl,
    ← List.map_map, List.map_drop, List.enum_map_snd]

/-- The trailing sections are clean when the adds are. -/
theorem trail_ok (e : Nat) (adds : List BStr) (k : Nat)
    (hadds : ∀ v ∈ adds, cleanT e v) :
    ∀ s ∈ trailSecs adds k, SecOk e s := by
  intro s hs
  unfold trailSecs at hs
  rcases List.mem_map.mp hs with ⟨p, hp, rfl⟩
  refine hadds p.2 ?_
  have h1 : p.2 ∈ (adds.enum.drop k).map Prod.snd :=
    List.mem_map_of_mem _ hp
  rw [List.map_drop, List.enum_map_snd] at h1
  exact List.mem_of_mem_drop h1

/-- The body between the start and end markers of
`materialize_jj_style_conflict`. -/
def jjBody (hunk : Merge BStr) (style : ConflictMarkerStyle) (e : Nat) :
    BStr :=
  let removes := hunk.removes
  let adds := hunk.adds
  let r := jjLoop style e removes.length adds removes 0 0
  r.1 ++ cat ((adds.enum.drop r.2).map (fun p => write_side e p.1 p.2))

/-- `materialize_jj_style_conflict` is start marker, body, end marker. -/
theorem materialize_jj_eq (hunk : Merge BStr) (info : BStr)
    (style : ConflictMarkerStyle) (e : Nat) :
    materialize_jj_style_conflict hunk info style e
      = write_conflict_marker ConflictMarkerLineChar.ConflictStart e info
        ++ jjBody hunk style e
        ++ write_conflict_marker ConflictMarkerLineChar.ConflictEnd e
          (info ++ bs (" ends")) := by
  unfold materialize_jj_style_conflict jjBody
  simp [List.append_assoc]

/-- The jj body renders the loop sections then the trailing sections. -/
theorem jjBody_secs (hunk : Merge BStr) (style : ConflictMarkerStyle)
    (e : Nat) :
    jjBody hunk style e
      = cat (((jjSecsGo style hunk.removes.length hunk.adds
            hunk.removes 0 0).1
          ++ trailSecs hunk.adds
            (jjSecsGo style hunk.removes.length hunk.adds
              hunk.removes 0 0).2).map (renderSec e)) := by
  unfold jjBody
  simp only []
  rw [jjLoop_eq_secs]
  rw [List.map_append, cat_append, trail_render]

/-- Subset property of `everyOther`. -/
theorem everyOther_subset {α : Type} :
    ∀ (l : List α), ∀ x ∈ everyOther l, x ∈ l
  | [] => fun x hx => absurd hx (List.not_mem_nil x)
  | [_] => fun _ hx => hx
  | a :: b :: rest => fun x hx => by
    rcases List.mem_cons.mp hx with h | h
    · subst h
      exact List.mem_cons_self _ _
    · exact List.mem_cons_of_mem _
        (List.mem_cons_of_mem _ (everyOther_subset rest x h))

/-- Removes are values. -/
theorem removes_subset (m : Merge BStr) :
    ∀ x ∈ m.removes, x ∈ m.values := by
  intro x hx
  exact List.mem_of_mem_drop (everyOther_subset (m.values.drop 1) x hx)

/-- Adds are values. -/
theorem adds_subset (m : Merge BStr) : ∀ x ∈ m.adds, x ∈ m.values :=
  fun x hx => everyOther_subset m.values x hx

/-- Folding the jj parser across the whole body accumulates the
newline-forced removes and adds. -/
theorem jjBody_parse (hunk : Merge BStr) (style : ConflictMarkerStyle)
    (e : Nat) (he : 2 ≤ e)
    (hclean : ∀ v ∈ hunk.values, cleanT e v) :
    ∃ st', (linesWT (jjBody hunk style e)).foldl (jjStep e)
        (some (JJState.SUnknown, [], []))
      = some (st', hunk.removes.map ensureNl,
          hunk.adds.map ensureNl) := by
  have hremc : ∀ v ∈ hunk.removes, cleanT e v :=
    fun v hv => hclean v (removes_subset hunk v hv)
  have haddc : ∀ v ∈ hunk.adds, cleanT e v :=
    fun v hv => hclean v (adds_subset hunk v hv)
  obtain ⟨h1, h2, h3, h4, h5⟩ :=
    jjSecs_contribs style hunk.removes.length hunk.adds e haddc
      hunk.removes hremc 0 0 (Nat.zero_le _)
  have hok : ∀ s ∈ (jjSecsGo style hunk.removes.length hunk.adds
        hunk.removes 0 0).1
      ++ trailSecs hunk.adds
        (jjSecsGo style hunk.removes.length hunk.adds
          hunk.removes 0 0).2, SecOk e s := by
    intro s hs
    rcases List.mem_append.mp hs with h | h
    · exact h5 s h
    · exact trail_ok e hunk.adds _ haddc s h
  obtain ⟨st', hfold⟩ := secsFold e he _ hok JJState.SUnknown [] []
  refine ⟨st', ?_⟩
  rw [jjBody_secs, hfold, (secsRem_append _ _).1, (secsRem_append _ _).2,
    h3, h4, (trail_contribs hunk.adds _).1,
    (trail_contribs hunk.adds _).2, List.append_nil, Nat.sub_zero,
    List.drop_zero, ← List.map_append, List.take_append_drop]
  simp

/-- Parsing the jj body recovers the merged buffers. -/
theorem parse_jj_body (hunk : Merge BStr) (style : ConflictMarkerStyle)
    (e : Nat) (he : 2 ≤ e)
    (hclean : ∀ v ∈ hunk.values, cleanT e v)
    (hlen : hunk.adds.length = hunk.removes.length + 1) :
    parse_jj_style_conflict_hunk (jjBody hunk style e) e
      = Merge.from_removes_adds (hunk.removes.map ensureNl)
        (hunk.adds.map ensureNl) := by
  obtain ⟨st', hfold⟩ := jjBody_parse hunk style e he hclean
  unfold parse_jj_style_conflict_hunk parseJJGo
  rw [hfold]
  dsimp only
  rw [if_pos (by simp [hlen])]

/-- Every body line is a jj marker or no marker at all. -/
theorem jjBody_class (hunk : Merge BStr) (style : ConflictMarkerStyle)
    (e : Nat) (he : 2 ≤ e)
    (hclean : ∀ v ∈ hunk.values, cleanT e v) :
    ∀ l ∈ linesWT (jjBody hunk style e),
      parse_conflict_marker l e = none
      ∨ parse_conflict_marker l e = some ConflictMarkerLineChar.Diff
      ∨ parse_conflict_marker l e = some ConflictMarkerLineChar.Remove
      ∨ parse_conflict_marker l e = some ConflictMarkerLineChar.Add := by
  have hremc : ∀ v ∈ hunk.removes, cleanT e v :=
    fun v hv => hclean v (removes_subset hunk v hv)
  have haddc : ∀ v ∈ hunk.adds, cleanT e v :=
    fun v hv => hclean v (adds_subset hunk v hv)
  obtain ⟨_, _, _, _, h5⟩ :=
    jjSecs_contribs style hunk.removes.length hunk.adds e haddc
      hunk.removes hremc 0 0 (Nat.zero_le _)
  rw [jjBody_secs]
  refine secsLines_class e he _ ?_
  intro s hs
  rcases List.mem_append.mp hs with h | h
  · exact h5 s h
  · exact trail_ok e hunk.adds _ haddc s h

/-- The jj body is empty or ends in a newline. -/
theorem jjBody_lastnl (hunk : Merge BStr) (style : ConflictMarkerStyle)
    (e : Nat) :
    jjBody hunk style e = []
      ∨ (jjBody hunk style e).getLast? = some 10 := by
  rw [jjBody_secs]
  refine cat_last_nl _ ?_
  intro x hx
  rcases List.mem_map.mp hx with ⟨s, hs, rfl⟩
  exact renderSec_lastnl e s

/-- The section list of a nonempty removes list starts with a section. -/
theorem jjSecsGo_cons (style : ConflictMarkerStyle) (nR : Nat)
    (adds : List BStr) (left : BStr) (rest : List BStr)
    (bIdx aIdx : Nat) :
    ∃ s0 S',
      (jjSecsGo style nR adds (left :: rest) bIdx aIdx).1 = s0 :: S' := by
  unfold jjSecsGo
  cases hga : adds.get? aIdx with
  | none =>
    simp only [hga]
    exact ⟨_, _, rfl⟩
  | some right1 =>
    simp only [hga]
    by_cases hstyle : style ≠ ConflictMarkerStyle.Diff
    · rw [if_pos hstyle]
      exact ⟨_, _, rfl⟩
    · rw [if_neg hstyle]
      cases hga2 : adds.get? (aIdx + 1) with
      | none =>
        simp only [hga2]
        exact ⟨_, _, rfl⟩
      | some right2 =>
        simp only [hga2]
        by_cases hcmp : diff_size (diff_by_line left right2)
            < diff_size (diff_by_line left right1)
        · rw [if_pos hcmp]
          exact ⟨_, _, rfl⟩
        · rw [if_neg hcmp]
          exact ⟨_, _, rfl⟩

/-- The first body line is a jj marker when a remove exists. -/
theorem jjBody_head (hunk : Merge BStr) (style : ConflictMarkerStyle)
    (e : Nat) (he : 2 ≤ e)
    (hclean : ∀ v ∈ hunk.values, cleanT e v)
    (hne : hunk.removes ≠ []) :
    ∃ m, (linesWT (jjBody hunk style e)).head? = some m
      ∧ (parse_conflict_marker m e = some ConflictMarkerLineChar.Diff
        ∨ parse_conflict_marker m e = some ConflictMarkerLineChar.Remove
        ∨ parse_conflict_marker m e
            = some ConflictMarkerLineChar.Add) := by
  have hremc : ∀ v ∈ hunk.removes, cleanT e v :=
    fun v hv => hclean v (removes_subset hunk v hv)
  have haddc : ∀ v ∈ hunk.adds, cleanT e v :=
    fun v hv => hclean v (adds_subset hunk v hv)
  obtain ⟨_, _, _, _, h5⟩ :=
    jjSecs_contribs style hunk.removes.length hunk.adds e haddc
      hunk.removes hremc 0 0 (Nat.zero_le _)
  rw [jjBody_secs]
  cases hrem : hunk.removes with
  | nil => exact absurd hrem hne
  | cons left rest =>
    rw [hrem] at h5
    obtain ⟨s0, S', hS⟩ :=
      jjSecsGo_cons style (left :: rest).length hunk.adds left rest 0 0
    rw [hS] at h5 ⊢
    rw [List.cons_append]
    exact secs_head e he s0 _ (h5 s0 (List.mem_cons_self _ _))

/-- Dispatching the hunk parser on the jj body parses it jj-style. -/
theorem parse_hunk_jj (hunk : Merge BStr) (style : ConflictMarkerStyle)
    (e : Nat) (he : 2 ≤ e)
    (hclean : ∀ v ∈ hunk.values, cleanT e v)
    (hlen : hunk.adds.length = hunk.removes.length + 1)
    (hne : hunk.removes ≠ []) :
    parse_conflict_hunk (jjBody hunk style e) e
      = Merge.from_removes_adds (hunk.removes.map ensureNl)
        (hunk.adds.map ensureNl) := by
  unfold parse_conflict_hunk
  obtain ⟨m, hm, hk⟩ := jjBody_head hunk style e he hclean hne
  rw [hm, Option.some_bind]
  rcases hk with h | h | h <;> rw [h] <;> dsimp only <;>
    exact parse_jj_body hunk style e he hclean hlen

/-! ### Git-style materialization body -/

/-- The body between the start and end markers of
`materialize_git_style_conflict`. -/
def gitBody (left base right : BStr) (e : Nat) : BStr :=
  ensureNl left
    ++ write_conflict_marker ConflictMarkerLineChar.GitAncestor e
      (bs ("Base"))
    ++ ensureNl base
    ++ write_conflict_marker ConflictMarkerLineChar.GitSeparator e []
    ++ ensureNl right

/-- `materialize_git_style_conflict` is start marker, body, end
marker. -/
theorem materialize_git_eq (l b r : BStr) (info : BStr) (e : Nat) :
    materialize_git_style_conflict l b r info e
      = write_conflict_marker ConflictMarkerLineChar.ConflictStart e
          (bs ("Side #1 (") ++ info ++ bs (")"))
        ++ gitBody l b r e
        ++ write_conflict_marker ConflictMarkerLineChar.ConflictEnd e
          (bs ("Side #2 (") ++ info ++ bs (" ends)")) := by
  unfold materialize_git_style_conflict gitBody
  simp [List.append_assoc]

/-- The line list of the git body. -/
theorem gitBody_lines (l b r : BStr) (e : Nat) :
    linesWT (gitBody l b r e)
      = (linesWT l).map ensureNl
        ++ ([write_conflict_marker ConflictMarkerLineChar.GitAncestor e
            (bs ("Base"))]
          ++ ((linesWT b).map ensureNl
            ++ ([write_conflict_marker
                ConflictMarkerLineChar.GitSeparator e []]
              ++ (linesWT r).map ensureNl))) := by
  unfold gitBody
  simp only [List.append_assoc]
  rw [linesWT_append _ _ (ensureNl_last l),
    linesWT_append _ _ (Or.inr (wcm_last _ _ _)),
    linesWT_append _ _ (ensureNl_last b),
    linesWT_append _ _ (Or.inr (wcm_last _ _ _)),
    linesWT_ensureNl l, linesWT_ensureNl b, linesWT_ensureNl r,
    linesWT_wcm _ _ _ (by decide), linesWT_wcm _ _ _ (by decide)]

/-- Every git body line is a git marker or no marker at all. -/
theorem gitBody_class (l b r : BStr) (e : Nat) (he : 1 ≤ e)
    (hcl : cleanT e l) (hcb : cleanT e b) (hcr : cleanT e r) :
    ∀ x ∈ linesWT (gitBody l b r e),
      parse_conflict_marker x e = none
      ∨ parse_conflict_marker x e
          = some ConflictMarkerLineChar.GitAncestor
      ∨ parse_conflict_marker x e
          = some ConflictMarkerLineChar.GitSeparator := by
  intro x hx
  rw [gitBody_lines] at hx
  rcases List.mem_append.mp hx with h | h
  · rcases List.mem_map.mp h with ⟨l0, hl0, rfl⟩
    exact Or.inl (content_not_marker e l0 (hcl l0 hl0))
  · rcases List.mem_append.mp h with h | h
    · rcases List.mem_cons.mp h with h | h
      · subst h
        exact Or.inr (Or.inl (wcm_parse _ _ he _))
      · exact absurd h (List.not_mem_nil x)
    · rcases List.mem_append.mp h with h | h
      · rcases List.mem_map.mp h with ⟨l0, hl0, rfl⟩
        exact Or.inl (content_not_marker e l0 (hcb l0 hl0))
      · rcases List.mem_append.mp h with h | h
        · rcases List.mem_cons.mp h with h | h
          · subst h
            exact Or.inr (Or.inr (wcm_parse _ _ he _))
          · exact absurd h (List.not_mem_nil x)
        · rcases List.mem_map.mp h with ⟨l0, hl0, rfl⟩
          exact Or.inl (content_not_marker e l0 (hcr l0 hl0))

/-- The git body is empty or ends in a newline. -/
theorem gitBody_lastnl (l b r : BStr) (e : Nat) :
    gitBody l b r e = [] ∨ (gitBody l b r e).getLast? = some 10 := by
  unfold gitBody
  simp only [List.append_assoc]
  refine lastnl_append _ _ (ensureNl_last l) (Or.inr ?_)
  exact lastnl_wcm_append _ _ _ _
    (lastnl_append _ _ (ensureNl_last b)
      (Or.inr (lastnl_wcm_append _ _ _ _ (ensureNl_last r))))

/-- The git sub-parser over the git body recovers the three
newline-forced contents. -/
theorem parse_git_body (l b r : BStr) (e : Nat) (he : 1 ≤ e)
    (hcl : cleanT e l) (hcb : cleanT e b) (hcr : cleanT e r) :
    parse_git_style_conflict_hunk (gitBody l b r e) e
      = Merge.from_vec [ensureNl l, ensureNl b, ensureNl r] := by
  have hLa : ∀ x ∈ (linesWT l).map ensureNl, isGitMarkLine e x = false := by
    intro x hx
    rcases List.mem_map.mp hx with ⟨l0, hl0, rfl⟩
    exact gitMark_false_of_none e _ (content_not_marker e l0 (hcl l0 hl0))
  have hLb : ∀ x ∈ (linesWT b).map ensureNl, isGitMarkLine e x = false := by
    intro x hx
    rcases List.mem_map.mp hx with ⟨l0, hl0, rfl⟩
    exact gitMark_false_of_none e _ (content_not_marker e l0 (hcb l0 hl0))
  have hLr : ∀ x ∈ (linesWT r).map ensureNl, isGitMarkLine e x = false := by
    intro x hx
    rcases List.mem_map.mp hx with ⟨l0, hl0, rfl⟩
    exact gitMark_false_of_none e _ (content_not_marker e l0 (hcr l0 hl0))
  unfold parse_git_style_conflict_hunk
  rw [gitBody_lines, parseGitGo_append,
    parseGitGo_content e _ hLa GitState.GLeft [] [] []]
  dsimp only
  rw [List.nil_append, cat_map_ensureNl]
  rw [List.foldl_append, List.foldl_cons, List.foldl_nil,
    (gitStep_mark e _ GitState.GLeft (ensureNl l) [] []).1
      (wcm_parse _ _ he _), if_pos rfl]
  have hcb2 := parseGitGo_content e _ hLb GitState.GBase (ensureNl l) [] []
  unfold parseGitGo at hcb2
  rw [List.foldl_append, hcb2]
  dsimp only
  rw [List.nil_append, cat_map_ensureNl]
  rw [List.foldl_append, List.foldl_cons, List.foldl_nil,
    (gitStep_mark e _ GitState.GBase (ensureNl l) (ensureNl b) []).2
      (wcm_parse _ _ he _), if_pos rfl]
  have hcr2 := parseGitGo_content e _ hLr GitState.GRight (ensureNl l)
    (ensureNl b) []
  unfold parseGitGo at hcr2
  rw [hcr2]
  dsimp only
  rw [List.nil_append, cat_map_ensureNl]

/-- Dispatching the hunk parser on the git body parses it git-style. -/
theorem parse_hunk_git (l b r : BStr) (e : Nat) (he : 1 ≤ e)
    (hcl : cleanT e l) (hcb : cleanT e b) (hcr : cleanT e r) :
    parse_conflict_hunk (gitBody l b r e) e
      = Merge.from_vec [ensureNl l, ensureNl b, ensureNl r] := by
  unfold parse_conflict_hunk
  cases hll : linesWT l with
  | nil =>
    have hh : (linesWT (gitBody l b r e)).head?
        = some (write_conflict_marker ConflictMarkerLineChar.GitAncestor e
          (bs ("Base"))) := by
      rw [gitBody_lines, hll]
      rfl
    rw [hh, Option.some_bind, wcm_parse _ _ he _]
    dsimp only
    exact parse_git_body l b r e he hcl hcb hcr
  | cons l0 ls0 =>
    have hh : (linesWT (gitBody l b r e)).head? = some (ensureNl l0) := by
      rw [gitBody_lines, hll]
      rfl
    have hc0 : parse_conflict_marker (ensureNl l0) e = none :=
      content_not_marker e l0
        (hcl l0 (by rw [hll]; exact List.mem_cons_self _ _))
    rw [hh, Option.some_bind, hc0]
    dsimp only
    exact parse_git_body l b r e he hcl hcb hcr

/-! ### The outer conflict scan -/

/-- A line that is neither start nor end marker only advances the
position. -/
theorem pcStep_neutral (input : BStr) (ns e : Nat) (s : PCState)
    (line : BStr)
    (h1 : parse_conflict_marker line e
      ≠ some ConflictMarkerLineChar.ConflictStart)
    (h2 : parse_conflict_marker line e
      ≠ some ConflictMarkerLineChar.ConflictEnd) :
    pcStep input ns e s line = { s with pos := s.pos + line.length } := by
  unfold pcStep
  cases hm : parse_conflict_marker line e with
  | none => rfl
  | some k =>
    cases k with
    | ConflictStart => exact absurd hm h1
    | ConflictEnd => exact absurd hm h2
    | Add => rfl
    | Remove => rfl
    | Diff => rfl
    | GitAncestor => rfl
    | GitSeparator => rfl

/-- A run of neutral lines advances the position by their total
length. -/
theorem pcRun_neutral (input : BStr) (ns e : Nat) (ls : List BStr)
    (h : ∀ l ∈ ls,
      parse_conflict_marker l e
        ≠ some ConflictMarkerLineChar.ConflictStart
      ∧ parse_conflict_marker l e
          ≠ some ConflictMarkerLineChar.ConflictEnd) :
    ∀ s : PCState, ls.foldl (pcStep input ns e) s
      = { s with pos := s.pos + (cat ls).length } := by
  induction ls with
  | nil =>
    intro s
    simp [cat]
  | cons x rest ih =>
    intro s
    rw [List.foldl_cons,
      pcStep_neutral input ns e s x (h x (List.mem_cons_self _ _)).1
        (h x (List.mem_cons_self _ _)).2,
      ih (fun l hl => h l (List.mem_cons_of_mem _ hl))]
    simp [cat_cons, Nat.add_assoc]

/-- Scanning a single materialized conflict region: start marker, body,
end marker parses to exactly the hunk the body parses to. -/
theorem pc_scan (body : BStr) (ns e : Nat) (infoA infoC : BStr)
    (he : 1 ≤ e) (hiA : NoNl infoA) (hiC : NoNl infoC)
    (hbody : body = [] ∨ body.getLast? = some 10)
    (hcls : ∀ l ∈ linesWT body,
      parse_conflict_marker l e
        ≠ some ConflictMarkerLineChar.ConflictStart
      ∧ parse_conflict_marker l e
          ≠ some ConflictMarkerLineChar.ConflictEnd)
    (M : Merge BStr)
    (hM : parse_conflict_hunk body e = M)
    (hns : M.num_sides = ns) :
    parse_conflict
      (write_conflict_marker ConflictMarkerLineChar.ConflictStart e infoA
        ++ body
        ++ write_conflict_marker ConflictMarkerLineChar.ConflictEnd e
          infoC) ns e
      = some [M] := by
  have hpA : parse_conflict_marker
      (write_conflict_marker ConflictMarkerLineChar.ConflictStart e infoA)
      e = some ConflictMarkerLineChar.ConflictStart := wcm_parse _ _ he _
  have hpC : parse_conflict_marker
      (write_conflict_marker ConflictMarkerLineChar.ConflictEnd e infoC)
      e = some ConflictMarkerLineChar.ConflictEnd := wcm_parse _ _ he _
  have hlines : linesWT
      (write_conflict_marker ConflictMarkerLineChar.ConflictStart e infoA
        ++ body
        ++ write_conflict_marker ConflictMarkerLineChar.ConflictEnd e
          infoC)
      = write_conflict_marker ConflictMarkerLineChar.ConflictStart e infoA
        :: (linesWT body
          ++ [write_conflict_marker ConflictMarkerLineChar.ConflictEnd e
            infoC]) := by
    rw [linesWT_append _ _
        (lastnl_append _ _ (Or.inr (wcm_last _ _ _)) hbody),
      linesWT_append _ _ (Or.inr (wcm_last _ _ _)),
      linesWT_wcm _ _ _ hiA, linesWT_wcm _ _ _ hiC]
    rfl
  have hex : extract
      (write_conflict_marker ConflictMarkerLineChar.ConflictStart e infoA
        ++ body
        ++ write_conflict_marker ConflictMarkerLineChar.ConflictEnd e
          infoC)
      (0 + (write_conflict_marker ConflictMarkerLineChar.ConflictStart e
        infoA).length)
      ((write_conflict_marker ConflictMarkerLineChar.ConflictStart e
        infoA).length + body.length) = body := by
    unfold extract
    rw [Nat.zero_add, List.append_assoc, List.drop_left,
      Nat.add_sub_cancel_left]
    exact List.take_left ..
  have hfold : parseConflictGo
      (write_conflict_marker ConflictMarkerLineChar.ConflictStart e infoA
        ++ body
        ++ write_conflict_marker ConflictMarkerLineChar.ConflictEnd e
          infoC) ns e
      (linesWT
        (write_conflict_marker ConflictMarkerLineChar.ConflictStart e
          infoA
        ++ body
        ++ write_conflict_marker ConflictMarkerLineChar.ConflictEnd e
          infoC)) ⟨0, 0, none, 0, []⟩
      = ⟨(write_conflict_marker ConflictMarkerLineChar.ConflictStart e
            infoA).length + body.length
          + (write_conflict_marker ConflictMarkerLineChar.ConflictEnd e
            infoC).length,
        (write_conflict_marker ConflictMarkerLineChar.ConflictStart e
            infoA).length + body.length
          + (write_conflict_marker ConflictMarkerLineChar.ConflictEnd e
            infoC).length,
        none,
        (write_conflict_marker ConflictMarkerLineChar.ConflictStart e
          infoA).length,
        [M]⟩ := by
    rw [hlines]
    unfold parseConflictGo
    rw [List.foldl_cons]
    have h1 : pcStep
        (write_conflict_marker ConflictMarkerLineChar.ConflictStart e
          infoA
          ++ body
          ++ write_conflict_marker ConflictMarkerLineChar.ConflictEnd e
            infoC) ns e ⟨0, 0, none, 0, []⟩
        (write_conflict_marker ConflictMarkerLineChar.ConflictStart e
          infoA)
        = ⟨(write_conflict_marker ConflictMarkerLineChar.ConflictStart e
            infoA).length, 0, some 0,
          (write_conflict_marker ConflictMarkerLineChar.ConflictStart e
            infoA).length, []⟩ := by
      unfold pcStep
      rw [hpA]
      dsimp only
      rw [Nat.zero_add]
    rw [h1, List.foldl_append,
      pcRun_neutral _ ns e (linesWT body) hcls _, cat_linesWT,
      List.foldl_cons, List.foldl_nil]
    unfold pcStep
    rw [hpC]
    dsimp only
    rw [hex, hM, if_pos hns]
    rfl
  unfold parse_conflict
  rw [if_neg (by simp [write_conflict_marker])]
  simp only []
  rw [hfold]
  rw [if_neg (by simp)]
  rw [if_neg ?hlt]
  case hlt =>
    simp only [List.length_append]
    omega
  rw [List.append_nil]

/-! ### Merge arity bookkeeping -/

/-- The length of `everyOther`. -/
theorem everyOther_len {α : Type} :
    ∀ l : List α, (everyOther l).length = (l.length + 1) / 2
  | [] => by simp [everyOther]
  | [_] => by simp [everyOther]
  | a :: b :: rest => by
    have ih := everyOther_len rest
    simp only [everyOther, List.length_cons, ih]
    omega

/-- A well-formed merge has one more add than removes. -/
theorem merge_adds_removes_len (m : Merge BStr)
    (hodd : m.values.length % 2 = 1) :
    m.adds.length = m.removes.length + 1 := by
  unfold Merge.adds Merge.removes
  rw [everyOther_len, everyOther_len, List.length_drop]
  omega

/-- `everyOther` recovers both components of an interleaving. -/
theorem everyOther_ilv {α : Type} :
    ∀ (r a : List α), a.length = r.length + 1 →
      everyOther (Merge.ilv a r) = a
      ∧ everyOther ((Merge.ilv a r).drop 1) = r := by
  intro r
  induction r with
  | nil =>
    intro a h
    cases a with
    | nil => exact absurd h (by simp)
    | cons x a2 =>
      cases a2 with
      | nil => exact ⟨rfl, rfl⟩
      | cons y a3 =>
        exfalso
        simp [List.length_cons] at h
  | cons rr r' ih =>
    intro a h
    cases a with
    | nil => exact absurd h (by simp)
    | cons x a2 =>
      have h2 : a2.length = r'.length + 1 := by
        simp only [List.length_cons] at h
        omega
      obtain ⟨ih1, ih2⟩ := ih a2 h2
      cases a2 with
      | nil => simp at h2
      | cons z a3 =>
        constructor
        · show everyOther (x :: rr :: Merge.ilv (z :: a3) r')
            = x :: (z :: a3)
          rw [show everyOther (x :: rr :: Merge.ilv (z :: a3) r')
              = x :: everyOther (Merge.ilv (z :: a3) r') from rfl, ih1]
        · cases hr' : r' with
          | nil =>
            subst hr'
            have ha3 : a3 = [] := by simpa using h2
            subst ha3
            rfl
          | cons w r'' =>
            subst hr'
            show everyOther
                ((x :: rr :: Merge.ilv (z :: a3) (w :: r'')).drop 1)
              = rr :: w :: r''
            rw [show everyOther
                ((x :: rr :: Merge.ilv (z :: a3) (w :: r'')).drop 1)
              = rr :: everyOther
                ((Merge.ilv (z :: a3) (w :: r'')).drop 1) from rfl, ih2]

/-- The number of sides of a merge built from removes and adds. -/
theorem numsides_from_ra (remC addC : List BStr)
    (h : addC.length = remC.length + 1) :
    (Merge.from_removes_adds remC addC).num_sides = addC.length := by
  unfold Merge.from_removes_adds Merge.num_sides Merge.adds
  dsimp only
  rw [(everyOther_ilv remC addC h).1]

/-- Every term is clean at the chosen marker length. -/
theorem cleanT_of_choose (m : Merge BStr) :
    ∀ v ∈ m.values,
      cleanT (choose_materialized_conflict_marker_len m) v := by
  intro v hv l hl mk hmk
  have h1 : mk.len ≤ maxRunSpec m :=
    marker_len_le_maxRunSpec m v l mk hv hl hmk
  rw [← maxMarkerLen_eq_spec] at h1
  unfold choose_materialized_conflict_marker_len
  calc mk.len + 4 ≤ maxMarkerLen m + 4 := by omega
    _ ≤ Nat.max (maxMarkerLen m + 4) 7 := Nat.le_max_left _ _

/-- The per-region style dispatch of `materialize_conflict_hunks`. -/
def styleDispatch (m : Merge BStr) (style : ConflictMarkerStyle)
    (info : BStr) (e : Nat) : BStr :=
  match style, m.values with
  | ConflictMarkerStyle.Git, [l, b, r] =>
    materialize_git_style_conflict l b r info e
  | _, _ => materialize_jj_style_conflict m info style e

/-- Materializing a single unresolved hunk is the style dispatch. -/
theorem matGo_single (m : Merge BStr) (style : ConflictMarkerStyle)
    (e nC cIdx : Nat) (hres : m.as_resolved = none) :
    materializeHunksGo style e nC [m] cIdx
      = styleDispatch m style (conflictInfo (cIdx + 1) nC) e := by
  unfold materializeHunksGo styleDispatch
  rw [hres]
  dsimp only
  rw [show materializeHunksGo style e nC [] (cIdx + 1) = [] from rfl,
    List.append_nil]

/-- The dispatch falls back to jj style away from (Git, three terms). -/
theorem styleDispatch_default (m : Merge BStr)
    (style : ConflictMarkerStyle) (info : BStr) (e : Nat)
    (h : ¬ (style = ConflictMarkerStyle.Git ∧ m.values.length = 3)) :
    styleDispatch m style info e
      = materialize_jj_style_conflict m info style e := by
  unfold styleDispatch
  cases style with
  | Diff => rfl
  | Snapshot => rfl
  | Git =>
    cases hv : m.values with
    | nil => rfl
    | cons x tl =>
      cases tl with
      | nil => rfl
      | cons y tl2 =>
        cases tl2 with
        | nil => rfl
        | cons z tl3 =>
          cases tl3 with
          | nil =>
            exfalso
            exact h ⟨rfl, by rw [hv]; rfl⟩
          | cons w tl4 => rfl

/-- The dispatch uses the git encoding at (Git, three terms). -/
theorem styleDispatch_git (m : Merge BStr) (info : BStr) (e : Nat)
    (l b r : BStr) (hv : m.values = [l, b, r]) :
    styleDispatch m ConflictMarkerStyle.Git info e
      = materialize_git_style_conflict l b r info e := by
  unfold styleDispatch
  rw [hv]

/-! ### C2: round trip of a materialized conflict -/

/-- The C2 counterexample: a trivially resolvable conflicted merge. -/
def mC2triv : Merge BStr :=
  Merge.from_removes_adds [bs ("x\n")] [bs ("y\n"), bs ("x\n")]

/-- C2 (counterexample): the merge with removes `["x\n"]` and adds
`["y\n", "x\n"]` has arity 2 and no marker-like lines at all, yet
parsing its materialization returns `none` rather than a reconstructed
hunk list, because the merge simplifies to the resolved content `"y\n"`
and is materialized without any conflict markers. -/
theorem C2_counterexample :
    mC2triv.num_sides = 2
    ∧ mC2triv.values.length % 2 = 1
    ∧ choose_materialized_conflict_marker_len mC2triv = 7
    ∧ (∀ v ∈ mC2triv.values, ∀ l ∈ linesWT v,
        parse_conflict_marker_any_len l = none)
    ∧ parse_conflict
        (materialize_merge_result_to_bytes_with_marker_len mC2triv
          ConflictMarkerStyle.Diff
          (choose_materialized_conflict_marker_len mC2triv))
        mC2triv.num_sides
        (choose_materialized_conflict_marker_len mC2triv)
      = none := by
  decide

/-! ### C5: the git-style dispatch rule -/

/-- Materializing an unresolved hunk followed by more hunks is the
style dispatch followed by the rest. -/
theorem matGo_cons (m : Merge BStr) (rest : List (Merge BStr))
    (style : ConflictMarkerStyle) (e nC cIdx : Nat)
    (hres : m.as_resolved = none) :
    materializeHunksGo style e nC (m :: rest) cIdx
      = styleDispatch m style (conflictInfo (cIdx + 1) nC) e
        ++ materializeHunksGo style e nC rest (cIdx + 1) := by
  conv_lhs => unfold materializeHunksGo
  unfold styleDispatch
  rw [hres]

/-- The conflict info string carries no newline byte. -/
theorem NoNl_conflictInfo (k n : Nat) : NoNl (conflictInfo k n) := by
  unfold conflictInfo
  exact NoNl_append _ _
    (NoNl_append _ _ (NoNl_append _ _ (by decide) (natStr_no_nl _))
      (by decide))
    (natStr_no_nl _)

/-- No line of a jj-style materialization is a git `|` or `=` marker at
the materialization length, given clean terms. -/
theorem jj_no_git_markers (hunk : Merge BStr) (info : BStr)
    (style : ConflictMarkerStyle) (e : Nat) (he : 2 ≤ e)
    (hinfo : NoNl info) (hclean : ∀ v ∈ hunk.values, cleanT e v) :
    ∀ l ∈ linesWT (materialize_jj_style_conflict hunk info style e),
      parse_conflict_marker l e
          ≠ some ConflictMarkerLineChar.GitAncestor
      ∧ parse_conflict_marker l e
          ≠ some ConflictMarkerLineChar.GitSeparator := by
  intro l hl
  rw [materialize_jj_eq,
    linesWT_append _ _ (lastnl_append _ _ (Or.inr (wcm_last _ _ _))
      (jjBody_lastnl hunk style e)),
    linesWT_append _ _ (Or.inr (wcm_last _ _ _)),
    linesWT_wcm _ _ _ hinfo,
    linesWT_wcm _ _ _ (NoNl_append _ _ hinfo (by decide))] at hl
  rcases List.mem_append.mp hl with h | h
  · rcases List.mem_append.mp h with h | h
    · rcases List.mem_cons.mp h with h | h
      · subst h
        rw [wcm_parse _ _ (by omega) _]
        exact ⟨by simp, by simp⟩
      · exact absurd h (List.not_mem_nil l)
    · rcases jjBody_class hunk style e he hclean l h
        with h1 | h1 | h1 | h1 <;>
        rw [h1] <;> exact ⟨by simp, by simp⟩
  · rcases List.mem_cons.mp h with h | h
    · subst h
      rw [wcm_parse _ _ (by omega) _]
      exact ⟨by simp, by simp⟩
    · exact absurd h (List.not_mem_nil l)

/-- C5: materializing a conflict region uses the Git-style encoding iff
the style is Git and the region has exactly three terms (equivalently
two adds and one remove); every other unresolved region is emitted
jj-style, and a jj-style region emitted at the chosen marker length
contains no `|` or bare `=` marker line. -/
theorem C5_git_dispatch :
    (∀ (e nC cIdx : Nat) (rest : List (Merge BStr)) (m : Merge BStr)
      (l b r : BStr), m.values = [l, b, r] →
      materializeHunksGo ConflictMarkerStyle.Git e nC (m :: rest) cIdx
        = materialize_git_style_conflict l b r
            (conflictInfo (cIdx + 1) nC) e
          ++ materializeHunksGo ConflictMarkerStyle.Git e nC rest
            (cIdx + 1))
    ∧ (∀ (style : ConflictMarkerStyle) (e nC cIdx : Nat)
      (rest : List (Merge BStr)) (m : Merge BStr),
      m.as_resolved = none →
      ¬ (style = ConflictMarkerStyle.Git ∧ m.values.length = 3) →
      materializeHunksGo style e nC (m :: rest) cIdx
        = materialize_jj_style_conflict m (conflictInfo (cIdx + 1) nC)
            style e
          ++ materializeHunksGo style e nC rest (cIdx + 1))
    ∧ (∀ m : Merge BStr, m.values.length = 3
        ↔ (m.adds.length = 2 ∧ m.removes.length = 1))
    ∧ (∀ (style : ConflictMarkerStyle) (nC cIdx : Nat) (m : Merge BStr),
      m.as_resolved = none →
      ¬ (style = ConflictMarkerStyle.Git ∧ m.values.length = 3) →
      ∀ l ∈ linesWT (materializeHunksGo style
          (choose_materialized_conflict_marker_len m) nC [m] cIdx),
        parse_conflict_marker l
            (choose_materialized_conflict_marker_len m)
          ≠ some ConflictMarkerLineChar.GitAncestor
        ∧ parse_conflict_marker l
            (choose_materialized_conflict_marker_len m)
          ≠ some ConflictMarkerLineChar.GitSeparator) := by
  refine ⟨?_, ?_, ?_, ?_⟩
  · intro e nC cIdx rest m l b r hv
    have hres : m.as_resolved = none := by
      unfold Merge.as_resolved
      rw [hv]
    rw [matGo_cons m rest _ e nC cIdx hres,
      styleDispatch_git m _ e l b r hv]
  · intro style e nC cIdx rest m hres hnot
    rw [matGo_cons m rest style e nC cIdx hres,
      styleDispatch_default m style _ e hnot]
  · intro m
    rw [show m.adds.length = (m.values.length + 1) / 2 from by
        unfold Merge.adds
        exact everyOther_len _,
      show m.removes.length = (m.values.length - 1 + 1) / 2 from by
        unfold Merge.removes
        rw [everyOther_len, List.length_drop]]
    omega
  · intro style nC cIdx m hres hnot l hl
    have h7 : 7 ≤ choose_materialized_conflict_marker_len m :=
      Nat.le_max_right _ _
    rw [matGo_single m style _ nC cIdx hres,
      styleDispatch_default m style _ _ hnot] at hl
    exact jj_no_git_markers m _ style _ (by omega)
      (NoNl_conflictInfo _ _) (cleanT_of_choose m) l hl

/-! ### The line-merge splice decomposition and round trip (C2) -/

/-- `cat` of the empty list. -/
theorem cat_nil : cat ([] : List BStr) = [] := rfl

/-- `multiPre` is a prefix of every member. -/
theorem multiPre_pfx {α : Type} [DecidableEq α] :
    ∀ (L : List (List α)) (x : List α), x ∈ L → ∃ r, x = multiPre L ++ r
  | [], x, hx => absurd hx (List.not_mem_nil x)
  | [x0], x, hx => by
    rw [List.mem_singleton] at hx
    exact ⟨[], by rw [hx, show multiPre [x0] = x0 from rfl,
      List.append_nil]⟩
  | x0 :: y0 :: rest, x, hx => by
    have hcp := commonPre_spec x0 (multiPre (y0 :: rest))
    rcases List.mem_cons.mp hx with h | h
    · refine ⟨(commonPre x0 (multiPre (y0 :: rest))).2.1, ?_⟩
      rw [h, show multiPre (x0 :: y0 :: rest)
          = (commonPre x0 (multiPre (y0 :: rest))).1 from rfl]
      exact hcp.1
    · obtain ⟨r, hr⟩ := multiPre_pfx (y0 :: rest) x h
      refine ⟨(commonPre x0 (multiPre (y0 :: rest))).2.2 ++ r, ?_⟩
      rw [show multiPre (x0 :: y0 :: rest)
          = (commonPre x0 (multiPre (y0 :: rest))).1 from rfl,
        ← List.append_assoc, ← hcp.2]
      exact hr

/-- `multiSuf` is a suffix of every member. -/
theorem multiSuf_sfx {α : Type} [DecidableEq α] (L : List (List α))
    (x : List α) (hx : x ∈ L) : ∃ r, x = r ++ multiSuf L := by
  obtain ⟨r, hr⟩ := multiPre_pfx (L.map List.reverse) x.reverse
    (List.mem_map_of_mem _ hx)
  refine ⟨r.reverse, ?_⟩
  unfold multiSuf
  have h2 := congrArg List.reverse hr
  rw [List.reverse_reverse, List.reverse_append] at h2
  exact h2

/-- Taking up to a suffix recovers the part before the suffix. -/
theorem take_sub_len {α : Type} (y s : List α) :
    (y ++ s).take ((y ++ s).length - s.length) = y := by
  rw [List.length_append, Nat.add_sub_cancel]
  exact List.take_left ..

/-- The middle-region line list of one term. -/
def spliceMidLines (m : Merge BStr) (v : BStr) : List BStr :=
  ((linesWT v).drop (splicePre m).length).take
    (((linesWT v).drop (splicePre m).length).length - (spliceSuf m).length)

/-- The values of the middle region, term by term. -/
theorem spliceMid_values (m : Merge BStr) :
    (spliceMid m).values
      = m.values.map (fun v => cat (spliceMidLines m v)) := by
  unfold spliceMid spliceMids spliceStripped spliceLls spliceMidLines
  simp [List.map_map, Function.comp]

/-- Each term's line list splits as the common prefix, its middle
region, and the common suffix. -/
theorem splice_decomp (m : Merge BStr) (v : BStr) (hv : v ∈ m.values) :
    linesWT v = splicePre m ++ (spliceMidLines m v ++ spliceSuf m) := by
  obtain ⟨r, hr⟩ := multiPre_pfx (spliceLls m) (linesWT v)
    (List.mem_map_of_mem _ hv)
  rw [show multiPre (spliceLls m) = splicePre m from rfl] at hr
  have hdrop : (linesWT v).drop (splicePre m).length = r := by
    rw [hr]
    exact List.drop_left ..
  have hmem : (linesWT v).drop (splicePre m).length ∈ spliceStripped m := by
    unfold spliceStripped
    exact List.mem_map_of_mem _ (List.mem_map_of_mem _ hv)
  obtain ⟨y, hy⟩ := multiSuf_sfx (spliceStripped m) _ hmem
  rw [show multiSuf (spliceStripped m) = spliceSuf m from rfl] at hy
  have hmidl : spliceMidLines m v = y := by
    unfold spliceMidLines
    rw [hy]
    exact take_sub_len ..
  rw [hmidl, ← hy, hdrop]
  rw [show splicePre m = multiPre (spliceLls m) from rfl]
  exact hr

/-- Pieces of the split are well-formed line lists. -/
theorem splice_linesOk (m : Merge BStr) (v : BStr) (hv : v ∈ m.values) :
    LinesOk (splicePre m) ∧ LinesOk (spliceMidLines m v)
      ∧ LinesOk (spliceSuf m) := by
  have hlo := linesOk_linesWT v
  rw [splice_decomp m v hv] at hlo
  obtain ⟨h1, h2⟩ := LinesOk_append _ _ hlo
  obtain ⟨h3, h4⟩ := LinesOk_append _ _ h2
  exact ⟨h1, h3, h4⟩

/-- When the merge is not trivially resolvable, every line of the common
prefix splice ends in a newline (an unterminated last line of the
prefix would have to be the last line of every term, making all terms
equal and the merge consistently resolvable). -/
theorem splicePre_nl (m : Merge BStr) (hside : 2 ≤ m.num_sides)
    (hnt : m.resolve_trivial = none) :
    ∀ l ∈ splicePre m, l.getLast? = some 10 := by
  intro l hl
  obtain ⟨preA, preB, hpre⟩ := List.append_of_mem hl
  have hvlen3 : 3 ≤ m.values.length := by
    have h := hside
    unfold Merge.num_sides Merge.adds at h
    rw [everyOther_len] at h
    omega
  obtain ⟨v0, rest0, hV⟩ : ∃ v0 rest0, m.values = v0 :: rest0 := by
    cases hV : m.values with
    | nil => rw [hV] at hvlen3; simp at hvlen3
    | cons a b => exact ⟨a, b, rfl⟩
  have hv0 : v0 ∈ m.values := by
    rw [hV]
    exact List.mem_cons_self _ _
  cases preB with
  | cons p0 ps =>
    have hlo := linesOk_linesWT v0
    rw [splice_decomp m v0 hv0, hpre, List.append_assoc] at hlo
    have h2 := (LinesOk_append _ _ hlo).2
    rw [List.cons_append] at h2
    exact h2.2 l (List.mem_cons_self _ _)
  | nil =>
    by_cases hall : ∀ w ∈ m.values, linesWT w = splicePre m
    · exfalso
      have hvals : ∀ w ∈ m.values, w = cat (splicePre m) := by
        intro w hw
        rw [← cat_linesWT w, hall w hw]
      have haddsne : m.adds ≠ [] := by
        intro h0
        unfold Merge.num_sides at hside
        rw [h0] at hside
        simp at hside
      obtain ⟨a0, arest, hA⟩ : ∃ a0 arest, m.adds = a0 :: arest := by
        cases hA : m.adds with
        | nil => exact absurd hA haddsne
        | cons a b => exact ⟨a, b, rfl⟩
      have hallx : arest.all (fun x => decide (x = a0)) = true :=
        List.all_eq_true.mpr (fun x hx => decide_eq_true (by
          rw [hvals x (adds_subset m x (by
              rw [hA]; exact List.mem_cons_of_mem _ hx)),
            hvals a0 (adds_subset m a0 (by
              rw [hA]; exact List.mem_cons_self _ _))]))
      have hres : m.resolve_trivial = some a0 := by
        unfold Merge.resolve_trivial
        rw [hA]
        dsimp only
        rw [if_pos hallx]
      rw [hres] at hnt
      cases hnt
    · push_neg at hall
      obtain ⟨w, hw, hwne⟩ := hall
      obtain ⟨r, hr⟩ := multiPre_pfx (spliceLls m) (linesWT w)
        (List.mem_map_of_mem _ hw)
      rw [show multiPre (spliceLls m) = splicePre m from rfl] at hr
      have hrne : r ≠ [] := by
        intro h0
        rw [h0, List.append_nil] at hr
        exact hwne hr
      obtain ⟨r0, rs, hr0⟩ : ∃ r0 rs, r = r0 :: rs := by
        cases hrr : r with
        | nil => exact absurd hrr hrne
        | cons a b => exact ⟨a, b, rfl⟩
      have hlo := linesOk_linesWT w
      rw [hr, hpre, hr0, List.append_assoc] at hlo
      have h2 := (LinesOk_append _ _ hlo).2
      rw [List.singleton_append] at h2
      exact h2.2 l (List.mem_cons_self _ _)

/-- `has_no_eol` exposes a last byte that is not a newline. -/
theorem has_no_eol_true (s : BStr) (h : has_no_eol s = true) :
    ∃ b, s.getLast? = some b ∧ b ≠ 10 := by
  unfold has_no_eol at h
  cases hg : s.getLast? with
  | none =>
    rw [hg] at h
    simp at h
  | some b =>
    rw [hg] at h
    exact ⟨b, rfl, by simpa using h⟩

/-- `ensureNl` with a trailing newline (or empty input). -/
theorem ensureNl_of_false (s : BStr) (h : has_no_eol s = false) :
    ensureNl s = s := by
  unfold ensureNl
  rw [h]
  simp

/-- `ensureNl` with no trailing newline. -/
theorem ensureNl_of_true (s : BStr) (h : has_no_eol s = true) :
    ensureNl s = s ++ [10] := by
  unfold ensureNl
  rw [h]
  simp

/-- A nonempty head makes `cat` nonempty. -/
theorem cat_ne_nil (x : BStr) (ls : List BStr) (hx : x ≠ []) :
    cat (x :: ls) ≠ [] := by
  rw [cat_cons]
  intro h0
  exact hx (List.append_eq_nil.mp h0).1

/-- The last byte of a concatenation of nonempty pieces is the last
byte of the last piece. -/
theorem cat_getLast_ex :
    ∀ (ls : List BStr), (∀ l ∈ ls, l ≠ []) → ∀ b : Nat,
      (cat ls).getLast? = some b →
      ∃ ll ls', ls = ls' ++ [ll] ∧ ll.getLast? = some b := by
  intro ls
  induction ls with
  | nil =>
    intro _ b hb
    exact absurd hb (by simp [cat])
  | cons x rest ih =>
    intro h b hb
    by_cases hcr : cat rest = []
    · have hrnil : rest = [] := by
        cases rest with
        | nil => rfl
        | cons r0 rs =>
          exact absurd hcr (cat_ne_nil r0 rs (h r0 (by simp)))
      subst hrnil
      refine ⟨x, [], rfl, ?_⟩
      rw [cat_cons, cat_nil, List.append_nil] at hb
      exact hb
    · rw [cat_cons, getLast_append_ne _ _ hcr] at hb
      obtain ⟨ll, ls', hls, hll⟩ :=
        ih (fun l hl => h l (List.mem_cons_of_mem _ hl)) b hb
      exact ⟨ll, x :: ls', by rw [hls]; rfl, hll⟩

/-- When the middle region of a term ends without a newline, the common
suffix splice is empty. -/
theorem spliceMid_no_suf (m : Merge BStr) (v : BStr) (hv : v ∈ m.values)
    (b : Nat) (hb : (cat (spliceMidLines m v)).getLast? = some b)
    (hb10 : b ≠ 10) : spliceSuf m = [] := by
  cases hsuf : spliceSuf m with
  | nil => rfl
  | cons s0 ss =>
    exfalso
    have hlo := linesOk_linesWT v
    rw [splice_decomp m v hv] at hlo
    have hnn : ∀ l ∈ spliceMidLines m v, l ≠ [] := by
      intro l hl
      exact (hlo.1 l (List.mem_append_right _
        (List.mem_append_left _ hl))).1
    obtain ⟨ll, midA, hmid, hll⟩ := cat_getLast_ex (spliceMidLines m v)
      hnn b hb
    rw [hmid, hsuf] at hlo
    rw [show (midA ++ [ll]) ++ s0 :: ss = midA ++ (ll :: s0 :: ss) from by
      simp] at hlo
    have h2 := (LinesOk_append _ _ (LinesOk_append _ _ hlo).2).2
    have h3 := h2.2 ll (List.mem_cons_self _ _)
    rw [hll] at h3
    injection h3 with h3
    exact hb10 h3

/-- The per-term splice in byte form. -/
theorem splice_cat (m : Merge BStr) (v : BStr) (hv : v ∈ m.values) :
    v = cat (splicePre m)
      ++ (cat (spliceMidLines m v) ++ cat (spliceSuf m)) := by
  conv_lhs => rw [← cat_linesWT v, splice_decomp m v hv]
  rw [cat_append, cat_append]

/-- The reconstruction of one term from the splice: the original term,
or the original term with the forced trailing newline. -/
theorem spliceFold_term (m : Merge BStr) (v : BStr) (hv : v ∈ m.values)
    (w : BStr)
    (hw : w = (cat (splicePre m) ++ ensureNl (cat (spliceMidLines m v)))
      ++ cat (spliceSuf m)) :
    w = v ∨ w = ensureNl v := by
  have hvcat := splice_cat m v hv
  by_cases hno : has_no_eol (cat (spliceMidLines m v)) = true
  · right
    obtain ⟨b, hb, hb10⟩ := has_no_eol_true _ hno
    have hmidne : cat (spliceMidLines m v) ≠ [] := by
      intro h0
      rw [h0] at hb
      simp at hb
    have hsuf : spliceSuf m = [] := spliceMid_no_suf m v hv b hb hb10
    rw [hsuf, cat_nil, List.append_nil] at hvcat
    have hveol : v.getLast? = some b := by
      rw [hvcat, getLast_append_ne _ _ hmidne]
      exact hb
    rw [hw, hsuf, cat_nil, List.append_nil, ensureNl_of_true _ hno,
      ensureNl_of_no v b hveol hb10]
    conv_rhs => rw [hvcat]
    rw [List.append_assoc]
  · left
    have hno' : has_no_eol (cat (spliceMidLines m v)) = false := by
      cases hbe : has_no_eol (cat (spliceMidLines m v)) with
      | true => exact absurd hbe hno
      | false => rfl
    rw [hw, ensureNl_of_false _ hno']
    conv_rhs => rw [hvcat]
    rw [List.append_assoc]

/-- `accStep` on a resolved hunk extends every buffer. -/
theorem accStep_resolved (contents : List BStr) (c : BStr) :
    accStep contents (Merge.resolved c)
      = contents.map (fun x => x ++ c) := rfl

/-- `accStep` on an unresolved hunk extends each buffer with its own
term. -/
theorem accStep_unresolved (contents : List BStr) (h0 : Merge BStr)
    (h : h0.as_resolved = none) :
    accStep contents h0
      = (contents.zip h0.values).map (fun p => p.1 ++ p.2) := by
  unfold accStep
  rw [h]

/-- `replicate` at a valid index. -/
theorem replicate_get' {α : Type} (x : α) :
    ∀ (n k : Nat), k < n → (List.replicate n x).get? k = some x
  | 0, _, h => absurd h (by omega)
  | _ + 1, 0, _ => rfl
  | n + 1, k + 1, h => replicate_get' x n k (by omega)

/-- The per-term accumulation of `update_from_content` over the parsed
splice hunks. -/
theorem spliceFold (m : Merge BStr) (M : Merge BStr)
    (hMv : M.values
      = m.values.map (fun v => ensureNl (cat (spliceMidLines m v))))
    (hMres : M.as_resolved = none) (k : Nat) (v : BStr)
    (hkv : m.values.get? k = some v) :
    (((if cat (splicePre m) = [] then []
        else [Merge.resolved (cat (splicePre m))])
        ++ [M]
        ++ (if cat (spliceSuf m) = [] then []
            else [Merge.resolved (cat (spliceSuf m))])).foldl
      accStep (List.replicate m.values.length ([] : BStr))).get? k
      = some ((cat (splicePre m) ++ ensureNl (cat (spliceMidLines m v)))
          ++ cat (spliceSuf m)) := by
  have hk : k < m.values.length := by
    by_contra hcon
    rw [List.get?_eq_none.mpr (by omega)] at hkv
    cases hkv
  have hB1 : ((if cat (splicePre m) = [] then []
      else [Merge.resolved (cat (splicePre m))]).foldl accStep
        (List.replicate m.values.length ([] : BStr))).get? k
      = some (cat (splicePre m)) := by
    by_cases hp : cat (splicePre m) = []
    · rw [if_pos hp, List.foldl_nil, replicate_get' _ _ _ hk, hp]
    · rw [if_neg hp, List.foldl_cons, List.foldl_nil, accStep_resolved,
        List.get?_map, replicate_get' _ _ _ hk]
      rfl
  have hMk : M.values.get? k
      = some (ensureNl (cat (spliceMidLines m v))) := by
    rw [hMv, List.get?_map, hkv]
    rfl
  have hB2 : (accStep ((if cat (splicePre m) = [] then []
      else [Merge.resolved (cat (splicePre m))]).foldl accStep
        (List.replicate m.values.length ([] : BStr))) M).get? k
      = some (cat (splicePre m)
          ++ ensureNl (cat (spliceMidLines m v))) := by
    rw [accStep_unresolved _ _ hMres, List.get?_map,
      zip_get _ _ k _ _ hB1 hMk]
    rfl
  rw [List.foldl_append, List.foldl_append, List.foldl_cons,
    List.foldl_nil]
  by_cases hs : cat (spliceSuf m) = []
  · rw [if_pos hs, List.foldl_nil, hB2, hs, List.append_nil]
  · rw [if_neg hs, List.foldl_cons, List.foldl_nil, accStep_resolved,
      List.get?_map, hB2]
    rfl

/-- The slice of the middle part of a concatenation. -/
theorem extract_mid (X B Y : BStr) :
    extract (X ++ B ++ Y) X.length (X.length + B.length) = B := by
  unfold extract
  rw [List.append_assoc, List.drop_left, Nat.add_sub_cancel_left]
  exact List.take_left ..

/-- The slice of the front of a concatenation. -/
theorem extract_pfx (P Y : BStr) : extract (P ++ Y) 0 P.length = P := by
  unfold extract
  rw [List.drop_zero, Nat.sub_zero]
  exact List.take_left ..

/-- The slice of the back of a concatenation. -/
theorem extract_sfx (X S : BStr) :
    extract (X ++ S) X.length (X ++ S).length = S := by
  unfold extract
  rw [List.drop_left, List.length_append, Nat.add_sub_cancel_left]
  exact List.take_length S

/-- Scanning a resolved splice, one materialized conflict region, and a
trailing resolved splice: the splices come back as resolved hunks
around the hunk the region body parses to. -/
theorem pc_scan_splice (P S body A C : BStr) (ns e : Nat)
    (hpA : parse_conflict_marker A e
      = some ConflictMarkerLineChar.ConflictStart)
    (hpC : parse_conflict_marker C e
      = some ConflictMarkerLineChar.ConflictEnd)
    (hAl : linesWT A = [A]) (hCl : linesWT C = [C])
    (hAnl : A.getLast? = some 10) (hCnl : C.getLast? = some 10)
    (hAne : A ≠ [])
    (hPnl : P = [] ∨ P.getLast? = some 10)
    (hPcls : ∀ l ∈ linesWT P,
      parse_conflict_marker l e
        ≠ some ConflictMarkerLineChar.ConflictStart
      ∧ parse_conflict_marker l e
          ≠ some ConflictMarkerLineChar.ConflictEnd)
    (hScls : ∀ l ∈ linesWT S,
      parse_conflict_marker l e
        ≠ some ConflictMarkerLineChar.ConflictStart
      ∧ parse_conflict_marker l e
          ≠ some ConflictMarkerLineChar.ConflictEnd)
    (hbody : body = [] ∨ body.getLast? = some 10)
    (hcls : ∀ l ∈ linesWT body,
      parse_conflict_marker l e
        ≠ some ConflictMarkerLineChar.ConflictStart
      ∧ parse_conflict_marker l e
          ≠ some ConflictMarkerLineChar.ConflictEnd)
    (M : Merge BStr)
    (hM : parse_conflict_hunk body e = M)
    (hns : M.num_sides = ns) :
    parse_conflict (P ++ A ++ body ++ C ++ S) ns e
      = some ((if P = [] then [] else [Merge.resolved P]) ++ [M]
          ++ (if S = [] then [] else [Merge.resolved S])) := by
  have hlines : linesWT (P ++ A ++ body ++ C ++ S)
      = linesWT P ++ (A :: (linesWT body ++ (C :: linesWT S))) := by
    rw [show P ++ A ++ body ++ C ++ S
        = P ++ (A ++ (body ++ (C ++ S))) from by simp [List.append_assoc],
      linesWT_append _ _ hPnl, linesWT_append _ _ (Or.inr hAnl),
      linesWT_append _ _ hbody, linesWT_append _ _ (Or.inr hCnl),
      hAl, hCl]
    rfl
  have hexB : extract (P ++ A ++ body ++ C ++ S) (P.length + A.length)
      (P.length + A.length + body.length) = body := by
    have h := extract_mid (P ++ A) body (C ++ S)
    rw [List.length_append] at h
    rw [show (P ++ A) ++ body ++ (C ++ S) = P ++ A ++ body ++ C ++ S
        from by simp [List.append_assoc]] at h
    exact h
  have hexP : extract (P ++ A ++ body ++ C ++ S) 0 P.length = P := by
    have h := extract_pfx P (A ++ body ++ C ++ S)
    rw [show P ++ (A ++ body ++ C ++ S) = P ++ A ++ body ++ C ++ S
        from by simp [List.append_assoc]] at h
    exact h
  have hexS : extract (P ++ A ++ body ++ C ++ S)
      (P.length + A.length + body.length + C.length)
      (P ++ A ++ body ++ C ++ S).length = S := by
    have h := extract_sfx (P ++ A ++ body ++ C) S
    rw [show (P ++ A ++ body ++ C).length
        = P.length + A.length + body.length + C.length
        from by simp only [List.length_append]] at h
    exact h
  have hs1 : (linesWT P).foldl
      (pcStep (P ++ A ++ body ++ C ++ S) ns e) ⟨0, 0, none, 0, []⟩
      = ⟨P.length, 0, none, 0, []⟩ := by
    rw [pcRun_neutral _ ns e (linesWT P) hPcls, cat_linesWT,
      Nat.zero_add]
  have hs2 : pcStep (P ++ A ++ body ++ C ++ S) ns e
      ⟨P.length, 0, none, 0, []⟩ A
      = ⟨P.length + A.length, 0, some P.length, A.length, []⟩ := by
    unfold pcStep
    rw [hpA]
  have hs3 : (linesWT body).foldl
      (pcStep (P ++ A ++ body ++ C ++ S) ns e)
      ⟨P.length + A.length, 0, some P.length, A.length, []⟩
      = ⟨P.length + A.length + body.length, 0, some P.length,
        A.length, []⟩ := by
    rw [pcRun_neutral _ ns e (linesWT body) hcls, cat_linesWT]
  have hs4 : pcStep (P ++ A ++ body ++ C ++ S) ns e
      ⟨P.length + A.length + body.length, 0, some P.length,
        A.length, []⟩ C
      = ⟨P.length + A.length + body.length + C.length,
        P.length + A.length + body.length + C.length, none, A.length,
        (if P = [] then [] else [Merge.resolved P]) ++ [M]⟩ := by
    unfold pcStep
    rw [hpC]
    dsimp only
    rw [hexB, hM, if_pos hns, hexP]
    rfl
  have hs5 : (linesWT S).foldl
      (pcStep (P ++ A ++ body ++ C ++ S) ns e)
      ⟨P.length + A.length + body.length + C.length,
        P.length + A.length + body.length + C.length, none, A.length,
        (if P = [] then [] else [Merge.resolved P]) ++ [M]⟩
      = ⟨P.length + A.length + body.length + C.length + S.length,
        P.length + A.length + body.length + C.length, none, A.length,
        (if P = [] then [] else [Merge.resolved P]) ++ [M]⟩ := by
    rw [pcRun_neutral _ ns e (linesWT S) hScls, cat_linesWT]
  have hfold : parseConflictGo (P ++ A ++ body ++ C ++ S) ns e
      (linesWT (P ++ A ++ body ++ C ++ S)) ⟨0, 0, none, 0, []⟩
      = ⟨P.length + A.length + body.length + C.length + S.length,
        P.length + A.length + body.length + C.length, none, A.length,
        (if P = [] then [] else [Merge.resolved P]) ++ [M]⟩ := by
    rw [hlines]
    unfold parseConflictGo
    rw [List.foldl_append, hs1, List.foldl_cons, hs2,
      List.foldl_append, hs3, List.foldl_cons, hs4, hs5]
  have hne0 : P ++ A ++ body ++ C ++ S ≠ [] := by
    intro h0
    simp only [List.append_eq_nil] at h0
    exact hAne h0.1.1.1.2
  unfold parse_conflict
  rw [if_neg hne0]
  simp only []
  rw [hfold]
  dsimp only
  have hhne : (if P = [] then [] else [Merge.resolved P]) ++ [M] ≠ [] := by
    simp
  rw [if_neg hhne]
  by_cases hS : S = []
  · have hnlt : ¬(P.length + A.length + body.length + C.length
        < (P ++ A ++ body ++ C ++ S).length) := by
      rw [hS]
      simp only [List.length_append, List.length_nil]
      omega
    rw [if_neg hnlt, if_pos hS]
  · have hlt : P.length + A.length + body.length + C.length
        < (P ++ A ++ body ++ C ++ S).length := by
      simp only [List.length_append]
      have h1 : 0 < S.length := List.length_pos.mpr hS
      omega
    rw [if_pos hlt, hexS, if_neg hS]

/-- Materializing a resolved splice emits its bytes verbatim. -/
theorem matGo_resolved_cons (style : ConflictMarkerStyle)
    (e nC cIdx : Nat) (c : BStr) (rest : List (Merge BStr)) :
    materializeHunksGo style e nC (Merge.resolved c :: rest) cIdx
      = c ++ materializeHunksGo style e nC rest cIdx := by
  conv_lhs => unfold materializeHunksGo
  rfl

/-- Materializing the splice hunk list: prefix bytes, one dispatched
region, suffix bytes. -/
theorem matGo_splice (style : ConflictMarkerStyle) (e : Nat)
    (mid0 : Merge BStr) (hres : mid0.as_resolved = none)
    (pre0 suf0 : List BStr) :
    materializeHunksGo style e 1
      ((if pre0 = [] then [] else [Merge.resolved (cat pre0)])
        ++ [mid0]
        ++ (if suf0 = [] then [] else [Merge.resolved (cat suf0)])) 0
      = cat pre0
        ++ (styleDispatch mid0 style (conflictInfo 1 1) e
          ++ cat suf0) := by
  by_cases hp : pre0 = []
  · by_cases hs : suf0 = []
    · rw [if_pos hp, if_pos hs,
        show (([] : List (Merge BStr)) ++ [mid0] ++ []) = [mid0] from by
          simp,
        matGo_single mid0 style e 1 0 hres, hp, hs, cat_nil]
      simp
    · rw [if_pos hp, if_neg hs,
        show (([] : List (Merge BStr)) ++ [mid0]
            ++ [Merge.resolved (cat suf0)])
          = mid0 :: [Merge.resolved (cat suf0)] from by simp,
        matGo_cons mid0 [Merge.resolved (cat suf0)] style e 1 0 hres,
        matGo_resolved_cons style e 1 1 (cat suf0) [],
        show materializeHunksGo style e 1 [] 1 = [] from rfl, hp,
        cat_nil]
      simp
  · by_cases hs : suf0 = []
    · rw [if_neg hp, if_pos hs,
        show ([Merge.resolved (cat pre0)] ++ [mid0]
            ++ ([] : List (Merge BStr)))
          = Merge.resolved (cat pre0) :: [mid0] from by simp,
        matGo_resolved_cons style e 1 0 (cat pre0) [mid0],
        matGo_single mid0 style e 1 0 hres, hs, cat_nil]
      simp
    · rw [if_neg hp, if_neg hs,
        show ([Merge.resolved (cat pre0)] ++ [mid0]
            ++ [Merge.resolved (cat suf0)])
          = Merge.resolved (cat pre0)
            :: (mid0 :: [Merge.resolved (cat suf0)]) from by simp,
        matGo_resolved_cons style e 1 0 (cat pre0)
          (mid0 :: [Merge.resolved (cat suf0)]),
        matGo_cons mid0 [Merge.resolved (cat suf0)] style e 1 0 hres,
        matGo_resolved_cons style e 1 1 (cat suf0) [],
        show materializeHunksGo style e 1 [] 1 = [] from rfl]
      simp

/-- Exactly one unresolved hunk in the splice hunk list. -/
theorem countP_splice (mid0 : Merge BStr)
    (hres : mid0.as_resolved = none) (pre0 suf0 : List BStr) :
    ((if pre0 = [] then [] else [Merge.resolved (cat pre0)])
      ++ [mid0]
      ++ (if suf0 = [] then [] else [Merge.resolved (cat suf0)])).countP
      (fun h => h.as_resolved.isNone) = 1 := by
  have h1 : ∀ c : BStr, (Merge.resolved c).as_resolved = some c :=
    fun c => rfl
  by_cases hp : pre0 = [] <;> by_cases hs : suf0 = [] <;>
    simp [hp, hs, List.countP_append, List.countP_cons, hres, h1]

/-- `everyOther` after a head drop. -/
theorem everyOther_cons_drop {α : Type} :
    ∀ (y : α) (rest : List α),
      everyOther (y :: rest) = y :: everyOther (rest.drop 1)
  | _, [] => rfl
  | _, _ :: _ => rfl

/-- Interleaving the even and odd positions recovers an odd-length
list. -/
theorem ilv_everyOther {α : Type} :
    ∀ l : List α, l.length % 2 = 1 →
      Merge.ilv (everyOther l) (everyOther (l.drop 1)) = l
  | [], h => by simp at h
  | [_], _ => rfl
  | x :: y :: rest, h => by
    have ih := ilv_everyOther rest (by
      simp only [List.length_cons] at h
      omega)
    show Merge.ilv (x :: everyOther rest) (everyOther (y :: rest)) = _
    rw [everyOther_cons_drop]
    show x :: y :: Merge.ilv (everyOther rest) (everyOther (rest.drop 1))
      = x :: y :: rest
    rw [ih]

/-- `ilv` commutes with `map`. -/
theorem ilv_map {α β : Type} (f : α → β) :
    ∀ (x y : List α),
      Merge.ilv (x.map f) (y.map f) = (Merge.ilv x y).map f
  | [], _ => rfl
  | _ :: _, [] => rfl
  | a :: x', r :: y' => by
    show f a :: f r :: Merge.ilv (x'.map f) (y'.map f)
      = f a :: f r :: (Merge.ilv x' y').map f
    rw [ilv_map f x' y']

/-- `everyOther` commutes with `map`. -/
theorem everyOther_map {α β : Type} (f : α → β) :
    ∀ l : List α, everyOther (l.map f) = (everyOther l).map f
  | [] => rfl
  | [_] => rfl
  | x :: _ :: rest => by
    show f x :: everyOther (rest.map f) = f x :: (everyOther rest).map f
    rw [everyOther_map f rest]

/-- A merge is the interleaving of its adds and removes. -/
theorem ilv_adds_removes {α : Type} (m : Merge α)
    (hodd : m.values.length % 2 = 1) :
    Merge.ilv m.adds m.removes = m.values := by
  unfold Merge.adds Merge.removes
  exact ilv_everyOther m.values hodd

/-- `as_resolved` of a merge that is not a single term. -/
theorem as_resolved_none_len {α : Type} (mm : Merge α)
    (h : mm.values.length ≠ 1) : mm.as_resolved = none := by
  unfold Merge.as_resolved
  cases hv : mm.values with
  | nil => rfl
  | cons a tl =>
    cases tl with
    | nil =>
      exfalso
      apply h
      rw [hv]
      rfl
    | cons b tl2 => rfl

/-- The middle region keeps the merge's term count. -/
theorem spliceMid_len (m : Merge BStr) :
    (spliceMid m).values.length = m.values.length := by
  rw [spliceMid_values, List.length_map]

/-- The adds of the middle region. -/
theorem spliceMid_adds (m : Merge BStr) :
    (spliceMid m).adds
      = m.adds.map (fun v => cat (spliceMidLines m v)) := by
  unfold Merge.adds
  rw [spliceMid_values, everyOther_map]

/-- The removes of the middle region. -/
theorem spliceMid_removes (m : Merge BStr) :
    (spliceMid m).removes
      = m.removes.map (fun v => cat (spliceMidLines m v)) := by
  unfold Merge.removes
  rw [spliceMid_values, ← List.map_drop, everyOther_map]

/-- Every term of the middle region is clean at the chosen length. -/
theorem spliceMid_clean (m : Merge BStr) :
    ∀ w ∈ (spliceMid m).values,
      cleanT (choose_materialized_conflict_marker_len m) w := by
  intro w hw
  rw [spliceMid_values] at hw
  obtain ⟨v, hv, hvw⟩ := List.mem_map.mp hw
  intro l hl mk hmk
  have hloM := (splice_linesOk m v hv).2.1
  rw [← hvw, linesWT_cat _ hloM] at hl
  exact cleanT_of_choose m v hv l (by
    rw [splice_decomp m v hv]
    exact List.mem_append_right _ (List.mem_append_left _ hl)) mk hmk

/-- A line whose marker-like run is bounded away from the expected
length is no marker. -/
theorem raw_not_marker (e : Nat) (l : BStr)
    (hc : ∀ mk, parse_conflict_marker_any_len l = some mk →
      mk.len + 4 ≤ e) : parse_conflict_marker l e = none := by
  unfold parse_conflict_marker
  cases hm : parse_conflict_marker_any_len l with
  | none => rfl
  | some mk =>
    have hle := hc mk hm
    dsimp only
    rw [if_neg (by omega)]

/-- Reassociating a five-part concatenation. -/
theorem splice_assoc {α : Type} (p x y z s : List α) :
    p ++ (x ++ y ++ z ++ s) = p ++ x ++ y ++ z ++ s := by
  simp [List.append_assoc]

/-- C2 (amended): for every well-formed merge (an odd number of terms)
of arity at least 2 that the line merge does not resolve outright, and
every marker style, parsing the materialized bytes with the same arity
and the chosen marker length succeeds, and concatenating the parsed
hunks per term position (resolved hunks extending every term, as
`update_from_content` does) reconstructs each input term
byte-identically, or with the one trailing newline the materialization
forces on an unterminated conflicting region; the
terms-contain-no-long-marker hypothesis of the claim holds
automatically at the chosen length. -/
theorem C2_conflict_round_trip (m : Merge BStr)
    (style : ConflictMarkerStyle)
    (hodd : m.values.length % 2 = 1)
    (hside : 2 ≤ m.num_sides)
    (hnt : m.resolve_trivial = none) :
    ∃ hunks,
      parse_conflict
        (materialize_merge_result_to_bytes_with_marker_len m style
          (choose_materialized_conflict_marker_len m))
        m.num_sides (choose_materialized_conflict_marker_len m)
        = some hunks
      ∧ ∀ k v, m.values.get? k = some v →
          (hunks.foldl accStep
            (List.replicate m.values.length ([] : BStr))).get? k
            = some v
          ∨ (hunks.foldl accStep
            (List.replicate m.values.length ([] : BStr))).get? k
            = some (ensureNl v) := by
  have h7 : 7 ≤ choose_materialized_conflict_marker_len m :=
    Nat.le_max_right _ _
  have he2 : 2 ≤ choose_materialized_conflict_marker_len m := by omega
  have he1 : 1 ≤ choose_materialized_conflict_marker_len m := by omega
  have hlen : m.adds.length = m.removes.length + 1 :=
    merge_adds_removes_len m hodd
  have hvlen3 : 3 ≤ m.values.length := by
    have h := hside
    unfold Merge.num_sides Merge.adds at h
    rw [everyOther_len] at h
    omega
  obtain ⟨v0, rest0, hV⟩ : ∃ v0 rest0, m.values = v0 :: rest0 := by
    cases hV : m.values with
    | nil => rw [hV] at hvlen3; simp at hvlen3
    | cons a b => exact ⟨a, b, rfl⟩
  have hv0 : v0 ∈ m.values := by
    rw [hV]
    exact List.mem_cons_self _ _
  have hprenl := splicePre_nl m hside hnt
  have hok := splice_linesOk m v0 hv0
  have hPcls : ∀ l ∈ linesWT (cat (splicePre m)),
      parse_conflict_marker l (choose_materialized_conflict_marker_len m)
        ≠ some ConflictMarkerLineChar.ConflictStart
      ∧ parse_conflict_marker l
          (choose_materialized_conflict_marker_len m)
          ≠ some ConflictMarkerLineChar.ConflictEnd := by
    intro l hl
    rw [linesWT_cat _ hok.1] at hl
    have hmem : l ∈ linesWT v0 := by
      rw [splice_decomp m v0 hv0]
      exact List.mem_append_left _ hl
    rw [raw_not_marker _ l (cleanT_of_choose m v0 hv0 l hmem)]
    exact ⟨by simp, by simp⟩
  have hScls : ∀ l ∈ linesWT (cat (spliceSuf m)),
      parse_conflict_marker l (choose_materialized_conflict_marker_len m)
        ≠ some ConflictMarkerLineChar.ConflictStart
      ∧ parse_conflict_marker l
          (choose_materialized_conflict_marker_len m)
          ≠ some ConflictMarkerLineChar.ConflictEnd := by
    intro l hl
    rw [linesWT_cat _ hok.2.2] at hl
    have hmem : l ∈ linesWT v0 := by
      rw [splice_decomp m v0 hv0]
      exact List.mem_append_right _ (List.mem_append_right _ hl)
    rw [raw_not_marker _ l (cleanT_of_choose m v0 hv0 l hmem)]
    exact ⟨by simp, by simp⟩
  have hPnl : cat (splicePre m) = []
      ∨ (cat (splicePre m)).getLast? = some 10 :=
    cat_last_nl _ (fun l hl => Or.inr (hprenl l hl))
  have hmidres : (spliceMid m).as_resolved = none := by
    apply as_resolved_none_len
    rw [spliceMid_len]
    omega
  have hmat : materialize_merge_result_to_bytes_with_marker_len m style
      (choose_materialized_conflict_marker_len m)
      = cat (splicePre m)
        ++ (styleDispatch (spliceMid m) style (conflictInfo 1 1)
            (choose_materialized_conflict_marker_len m)
          ++ cat (spliceSuf m)) := by
    unfold materialize_merge_result_to_bytes_with_marker_len merge_hunks
    rw [hnt]
    dsimp only
    unfold materialize_conflict_hunks
    rw [countP_splice (spliceMid m) hmidres (splicePre m) (spliceSuf m),
      matGo_splice style _ (spliceMid m) hmidres (splicePre m)
        (spliceSuf m)]
  by_cases hgit : style = ConflictMarkerStyle.Git ∧ m.values.length = 3
  · obtain ⟨hsty, hv3⟩ := hgit
    subst hsty
    obtain ⟨a0, r0, a1, hval⟩ : ∃ a0 r0 a1, m.values = [a0, r0, a1] := by
      cases hv1 : m.values with
      | nil => rw [hv1] at hv3; simp at hv3
      | cons x tl =>
        cases tl with
        | nil => rw [hv1] at hv3; simp at hv3
        | cons y tl2 =>
          cases tl2 with
          | nil => rw [hv1] at hv3; simp at hv3
          | cons z tl3 =>
            cases tl3 with
            | nil => exact ⟨x, y, z, rfl⟩
            | cons w tl4 => rw [hv1] at hv3; simp at hv3
    have hmidv : (spliceMid m).values
        = [cat (spliceMidLines m a0), cat (spliceMidLines m r0),
          cat (spliceMidLines m a1)] := by
      rw [spliceMid_values, hval]
      rfl
    have hcA : cleanT (choose_materialized_conflict_marker_len m)
        (cat (spliceMidLines m a0)) :=
      spliceMid_clean m _ (by rw [hmidv]; exact List.mem_cons_self _ _)
    have hcB : cleanT (choose_materialized_conflict_marker_len m)
        (cat (spliceMidLines m r0)) :=
      spliceMid_clean m _ (by rw [hmidv]; simp)
    have hcC : cleanT (choose_materialized_conflict_marker_len m)
        (cat (spliceMidLines m a1)) :=
      spliceMid_clean m _ (by rw [hmidv]; simp)
    have hM := parse_hunk_git (cat (spliceMidLines m a0))
      (cat (spliceMidLines m r0)) (cat (spliceMidLines m a1))
      (choose_materialized_conflict_marker_len m) he1 hcA hcB hcC
    have hMv : (Merge.from_vec [ensureNl (cat (spliceMidLines m a0)),
        ensureNl (cat (spliceMidLines m r0)),
        ensureNl (cat (spliceMidLines m a1))]).values
        = m.values.map (fun v => ensureNl (cat (spliceMidLines m v))) := by
      rw [show (Merge.from_vec [ensureNl (cat (spliceMidLines m a0)),
          ensureNl (cat (spliceMidLines m r0)),
          ensureNl (cat (spliceMidLines m a1))]).values
          = [ensureNl (cat (spliceMidLines m a0)),
            ensureNl (cat (spliceMidLines m r0)),
            ensureNl (cat (spliceMidLines m a1))] from rfl, hval]
      rfl
    have hns : (Merge.from_vec [ensureNl (cat (spliceMidLines m a0)),
        ensureNl (cat (spliceMidLines m r0)),
        ensureNl (cat (spliceMidLines m a1))]).num_sides
        = m.num_sides := by
      show (everyOther (Merge.from_vec
          [ensureNl (cat (spliceMidLines m a0)),
            ensureNl (cat (spliceMidLines m r0)),
            ensureNl (cat (spliceMidLines m a1))]).values).length
        = (everyOther m.values).length
      rw [hMv, everyOther_map, List.length_map]
    have hMres2 : (Merge.from_vec [ensureNl (cat (spliceMidLines m a0)),
        ensureNl (cat (spliceMidLines m r0)),
        ensureNl (cat (spliceMidLines m a1))]).as_resolved = none := by
      apply as_resolved_none_len
      rw [hMv, List.length_map]
      omega
    rw [hmat, styleDispatch_git (spliceMid m) (conflictInfo 1 1) _
        _ _ _ hmidv,
      materialize_git_eq, splice_assoc]
    refine ⟨_, pc_scan_splice (cat (splicePre m)) (cat (spliceSuf m))
      (gitBody (cat (spliceMidLines m a0)) (cat (spliceMidLines m r0))
        (cat (spliceMidLines m a1))
        (choose_materialized_conflict_marker_len m))
      (write_conflict_marker ConflictMarkerLineChar.ConflictStart
        (choose_materialized_conflict_marker_len m)
        (bs ("Side #1 (") ++ conflictInfo 1 1 ++ bs (")")))
      (write_conflict_marker ConflictMarkerLineChar.ConflictEnd
        (choose_materialized_conflict_marker_len m)
        (bs ("Side #2 (") ++ conflictInfo 1 1 ++ bs (" ends)")))
      m.num_sides _ (wcm_parse _ _ he1 _) (wcm_parse _ _ he1 _)
      (linesWT_wcm _ _ _ (by decide)) (linesWT_wcm _ _ _ (by decide))
      (wcm_last _ _ _) (wcm_last _ _ _) ?_ hPnl hPcls hScls
      (gitBody_lastnl _ _ _ _) ?_ _ hM hns, ?_⟩
    · intro h0
      have hw := wcm_last ConflictMarkerLineChar.ConflictStart
        (choose_materialized_conflict_marker_len m)
        (bs ("Side #1 (") ++ conflictInfo 1 1 ++ bs (")"))
      rw [h0] at hw
      simp at hw
    · intro l0 hl0
      rcases gitBody_class _ _ _ _ he1 hcA hcB hcC l0 hl0 with h | h | h <;>
        rw [h] <;> exact ⟨by simp, by simp⟩
    · intro k v hkv
      have hvmem : v ∈ m.values := List.get?_mem hkv
      have hf := spliceFold m _ hMv hMres2 k v hkv
      rcases spliceFold_term m v hvmem _ rfl with h | h
      · exact Or.inl (by rw [hf, h])
      · exact Or.inr (by rw [hf, h])
  · have hgit' : ¬(style = ConflictMarkerStyle.Git
        ∧ (spliceMid m).values.length = 3) := by
      rw [spliceMid_len]
      exact hgit
    have hlenM : (spliceMid m).adds.length
        = (spliceMid m).removes.length + 1 := by
      rw [spliceMid_adds, spliceMid_removes, List.length_map,
        List.length_map]
      exact hlen
    have hneM : (spliceMid m).removes ≠ [] := by
      rw [spliceMid_removes]
      intro h0
      rw [List.map_eq_nil] at h0
      rw [h0] at hlen
      have h := hside
      unfold Merge.num_sides at h
      simp at hlen
      omega
    have hM := parse_hunk_jj (spliceMid m) style
      (choose_materialized_conflict_marker_len m) he2
      (spliceMid_clean m) hlenM hneM
    have hMv : (Merge.from_removes_adds
        ((spliceMid m).removes.map ensureNl)
        ((spliceMid m).adds.map ensureNl)).values
        = m.values.map (fun v => ensureNl (cat (spliceMidLines m v))) := by
      unfold Merge.from_removes_adds
      dsimp only
      rw [spliceMid_adds, spliceMid_removes, List.map_map, List.map_map,
        ilv_map, ilv_adds_removes m hodd]
      rfl
    have hns : (Merge.from_removes_adds
        ((spliceMid m).removes.map ensureNl)
        ((spliceMid m).adds.map ensureNl)).num_sides = m.num_sides := by
      show (everyOther (Merge.from_removes_adds
          ((spliceMid m).removes.map ensureNl)
          ((spliceMid m).adds.map ensureNl)).values).length
        = (everyOther m.values).length
      rw [hMv, everyOther_map, List.length_map]
    have hMres2 : (Merge.from_removes_adds
        ((spliceMid m).removes.map ensureNl)
        ((spliceMid m).adds.map ensureNl)).as_resolved = none := by
      apply as_resolved_none_len
      rw [hMv, List.length_map]
      omega
    rw [hmat, styleDispatch_default (spliceMid m) style _ _ hgit',
      materialize_jj_eq, splice_assoc]
    refine ⟨_, pc_scan_splice (cat (splicePre m)) (cat (spliceSuf m))
      (jjBody (spliceMid m) style
        (choose_materialized_conflict_marker_len m))
      (write_conflict_marker ConflictMarkerLineChar.ConflictStart
        (choose_materialized_conflict_marker_len m) (conflictInfo 1 1))
      (write_conflict_marker ConflictMarkerLineChar.ConflictEnd
        (choose_materialized_conflict_marker_len m)
        (conflictInfo 1 1 ++ bs (" ends")))
      m.num_sides _ (wcm_parse _ _ he1 _) (wcm_parse _ _ he1 _)
      (linesWT_wcm _ _ _ (by decide)) (linesWT_wcm _ _ _ (by decide))
      (wcm_last _ _ _) (wcm_last _ _ _) ?_ hPnl hPcls hScls
      (jjBody_lastnl _ _ _) ?_ _ hM hns, ?_⟩
    · intro h0
      have hw := wcm_last ConflictMarkerLineChar.ConflictStart
        (choose_materialized_conflict_marker_len m) (conflictInfo 1 1)
      rw [h0] at hw
      simp at hw
    · intro l0 hl0
      rcases jjBody_class (spliceMid m) style _ he2 (spliceMid_clean m)
        l0 hl0 with h | h | h | h <;> rw [h] <;> exact ⟨by simp, by simp⟩
    · intro k v hkv
      have hvmem : v ∈ m.values := List.get?_mem hkv
      have hf := spliceFold m _ hMv hMres2 k v hkv
      rcases spliceFold_term m v hvmem _ rfl with h | h
      · exact Or.inl (by rw [hf, h])
      · exact Or.inr (by rw [hf, h])

/-- A concrete well-formed, non-trivially-resolvable merge of arity two
whose terms share a first and a last line, so the materialization is a
resolved splice, one marker region, and a resolved splice. -/
def mC2w : Merge BStr :=
  Merge.from_removes_adds [bs ("p\nr\nc\n")]
    [bs ("p\na\nc\n"), bs ("p\nb\nc\n")]

/-- C2 (witness): the amended round trip at a concrete merge. -/
theorem C2_witness :
    mC2w.values.length % 2 = 1
    ∧ 2 ≤ mC2w.num_sides
    ∧ mC2w.resolve_trivial = none
    ∧ ∃ hunks,
        parse_conflict
          (materialize_merge_result_to_bytes_with_marker_len mC2w
            ConflictMarkerStyle.Diff
            (choose_materialized_conflict_marker_len mC2w))
          mC2w.num_sides (choose_materialized_conflict_marker_len mC2w)
          = some hunks
        ∧ ∀ k v, mC2w.values.get? k = some v →
            (hunks.foldl accStep
              (List.replicate mC2w.values.length ([] : BStr))).get? k
              = some v
            ∨ (hunks.foldl accStep
              (List.replicate mC2w.values.length ([] : BStr))).get? k
              = some (ensureNl v) :=
  ⟨by decide, by decide, by decide,
    C2_conflict_round_trip mC2w ConflictMarkerStyle.Diff (by decide)
      (by decide) (by decide)⟩

end JJ
